import Mathlib

/-!
# zooyer/properties: the `.properties` codec

A shallow embedding of `properties.go`, `properties2.go` and `hashtable.go`.

Conventions of the embedding

* A Go `byte` is a `Nat` below 256; a Go `string` or `[]byte` is a `List Nat`.
  Byte constants are written as numbers: 9 tab, 10 LF, 12 form feed, 13 CR,
  32 space, 33 `!`, 35 `#`, 58 `:`, 61 `=`, 92 backslash, 102 `f`, 110 `n`,
  114 `r`, 116 `t`, 117 `u`.
* A Go `interface{}` value is an `Any`.
* A run-time panic (index out of range, failed type assertion, nil pointer
  dereference) is the value `Fault.indexOutOfRange` / `Fault.typeAssertion` /
  `Fault.nilDereference`; the error value returned by `loadConvert` is
  `Fault.malformed`.
* A writer is the list of the bytes written to it; writing does not fail.
* The text `time.Now().Format(time.UnixDate)` and `runtime.GOOS` are parameters.
* Loops are structural recursions on a fuel argument; the entry points compute
  a fuel that always suffices, and `Fault.outOfFuel` marks the (unreachable)
  exhaustion.
* An `io.Reader` is the list of the chunks its successive `Read` calls deliver.
-/

namespace Properties



/-! ## Basic types -/

/-- ASCII bytes of a string literal (used for concrete inputs only). -/
def bytes (s : String) : List Nat := s.toList.map Char.toNat

/-- A Go `interface{}` value: a string, some other (comparable) value, or nil. -/
inductive Any where
  | nil
  | str (s : List Nat)
  | other (n : Nat)
  deriving DecidableEq, Repr

/-- What stops a call other than a normal return. -/
inductive Fault where
  /-- The error `errors.New("malformed \\uxxxx encoding")`. -/
  | malformed
  /-- Run-time panic: index out of range. -/
  | indexOutOfRange
  /-- Run-time panic: failed type assertion `x.(string)`. -/
  | typeAssertion
  /-- Run-time panic: nil pointer dereference. -/
  | nilDereference
  /-- The model's fuel ran out (does not happen with the fuel of the entry points). -/
  | outOfFuel
  deriving DecidableEq, Repr

deriving instance DecidableEq for Except

/-! ## hashtable.go -/

/-- The struct `hashtable`: a Go map, kept as an association list with distinct keys.
The order of the list stands for the (unspecified) iteration order of the map. -/
structure hashtable where
  mapper : List (Any × Any)
  deriving DecidableEq, Repr

/-- The function `NewHashtable`. -/
def NewHashtable : hashtable := ⟨[]⟩

/-- Map read `m[key]`: the zero value `nil` when the key is absent. -/
def mapGet (m : List (Any × Any)) (key : Any) : Any :=
  match m with
  | [] => Any.nil
  | (k, v) :: rest => if k = key then v else mapGet rest key

/-- Map write `m[key] = value`. -/
def mapSet (m : List (Any × Any)) (key value : Any) : List (Any × Any) :=
  match m with
  | [] => [(key, value)]
  | (k, v) :: rest => if k = key then (k, value) :: rest else (k, v) :: mapSet rest key value

/-- Map removal `delete(m, key)`. -/
def mapDelete (m : List (Any × Any)) (key : Any) : List (Any × Any) :=
  m.filter (fun kv => kv.1 ≠ key)

/-- The method `hashtable.Put`: returns the old value and the updated table. -/
def hashtable.Put (h : hashtable) (key value : Any) : Any × hashtable :=
  let old := mapGet h.mapper key
  (old, ⟨mapSet h.mapper key value⟩)

/-- The method `hashtable.Get`. -/
def hashtable.Get (h : hashtable) (key : Any) : Any := mapGet h.mapper key

/-- The method `hashtable.Remove`. -/
def hashtable.Remove (h : hashtable) (key : Any) : hashtable := ⟨mapDelete h.mapper key⟩

/-- The method `hashtable.Size`. -/
def hashtable.Size (h : hashtable) : Nat := h.mapper.length

/-- The method `hashtable.Keys`. -/
def hashtable.Keys (h : hashtable) : List Any := h.mapper.map Prod.fst

/-! ## properties.go: the table -/

/-- A table of hex digits. -/
def hexDigit : List Nat := [48, 49, 50, 51, 52, 53, 54, 55, 56, 57, 65, 66, 67, 68, 69, 70]

/-- The struct `Properties`: the embedded `Hashtable` and the `defaults` list
(the mutex is not modelled: every call runs alone). -/
inductive Props where
  | mk (Hashtable : hashtable) (defaults : Option Props)

/-- Equality of two `Properties` values is decidable. -/
def Props.decEq : (a b : Props) → Decidable (a = b)
  | .mk h1 none, .mk h2 none =>
    if h : h1 = h2 then isTrue (by rw [h]) else isFalse (fun e => h (by injection e))
  | .mk _ none, .mk _ (some _) => isFalse (fun e => by injection e with _ e2; cases e2)
  | .mk _ (some _), .mk _ none => isFalse (fun e => by injection e with _ e2; cases e2)
  | .mk h1 (some d1), .mk h2 (some d2) =>
    if h : h1 = h2 then
      match Props.decEq d1 d2 with
      | isTrue hd => isTrue (by rw [h, hd])
      | isFalse hd => isFalse (fun e => by injection e with _ e2; injection e2 with e3; exact hd e3)
    else isFalse (fun e => h (by injection e))

instance : DecidableEq Props := Props.decEq

/-- Field `Hashtable`. -/
def Props.Hashtable : Props → hashtable
  | .mk h _ => h

/-- Field `defaults`. -/
def Props.defaults : Props → Option Props
  | .mk _ d => d

/-- The function `NewProperties`. -/
def NewProperties : Props := .mk NewHashtable none

/-- The promoted method `p.Put`: returns the old value and the updated list. -/
def Props.Put (p : Props) (key value : Any) : Any × Props :=
  let r := p.Hashtable.Put key value
  (r.1, .mk r.2 p.defaults)

/-- The promoted method `p.Get`. -/
def Props.Get (p : Props) (key : Any) : Any := p.Hashtable.Get key

/-- The promoted method `p.Keys`. -/
def Props.Keys (p : Props) : List Any := p.Hashtable.Keys

/-! ## properties.go: the escape codec -/

/-- The function `toHex`: `hexDigit[nibble & 0xF]`. -/
def toHex (nibble : Int) : Nat := hexDigit.getD (nibble % 16).toNat 0

/-- The `for i := 0; i < 4; i++` loop of `loadConvert` that reads the `xxxx`:
`n` is the number of digits still to read. Returns the value and the new `off`. -/
def readHex (inp : List Nat) : Nat → Nat → Nat → Except Fault (Nat × Nat)
  | 0, off, value => .ok (value, off)
  | n + 1, off, value =>
    match inp[off]? with
    | none => .error .indexOutOfRange
    | some aChar =>
      if 48 ≤ aChar ∧ aChar ≤ 57 then readHex inp n (off + 1) (value * 16 + aChar - 48)
      else if 97 ≤ aChar ∧ aChar ≤ 102 then readHex inp n (off + 1) (value * 16 + 10 + aChar - 97)
      else if 65 ≤ aChar ∧ aChar ≤ 70 then readHex inp n (off + 1) (value * 16 + 10 + aChar - 65)
      else .error .malformed

/-- The `for off < end` loop of `loadConvert`; `out` is `out[:outLen]`.
Every iteration advances `off`, so `end - off` iterations suffice. -/
def loadConvertLoop (inp : List Nat) (end_ : Nat) : Nat → Nat → List Nat → Except Fault (List Nat)
  | 0, off, out => if off < end_ then .error .outOfFuel else .ok out
  | fuel + 1, off, out =>
    if off < end_ then
      match inp[off]? with
      | none => .error .indexOutOfRange
      | some aChar =>
        let off := off + 1
        if aChar = 92 then
          match inp[off]? with
          | none => .error .indexOutOfRange
          | some aChar =>
            let off := off + 1
            if aChar = 117 then
              match readHex inp 4 off 0 with
              | .error e => .error e
              | .ok (value, off) => loadConvertLoop inp end_ fuel off (out ++ [value % 256])
            else
              let aChar :=
                if aChar = 116 then 9
                else if aChar = 114 then 13
                else if aChar = 110 then 10
                else if aChar = 102 then 12
                else aChar
              loadConvertLoop inp end_ fuel off (out ++ [aChar])
        else loadConvertLoop inp end_ fuel off (out ++ [aChar])
    else .ok out

/-- The method `loadConvert(in, off, length, convertBuf)`. The conversion buffer is
not a parameter: it is only written, at `outLen`, which stays below its length
(at most `length` bytes are written and the buffer is reallocated to `2 * length`
when shorter than `length`); the result is `out[:outLen]`. -/
def loadConvert (inp : List Nat) (off length : Nat) : Except Fault (List Nat) :=
  loadConvertLoop inp (off + length) length off []

/-- One iteration of the `for x := 0; x < length; x++` loop of `saveConvert`:
the bytes written to `outBuffer` for the byte `aChar` at index `x`. -/
def saveConvertChar (escapeSpace escapeUnicode : Bool) (x aChar : Nat) : List Nat :=
  if 61 < aChar ∧ aChar < 127 then
    if aChar = 92 then [92, 92] else [aChar]
  else if aChar = 32 then
    if x = 0 ∨ escapeSpace = true then [92, 32] else [32]
  else if aChar = 9 then [92, 116]
  else if aChar = 10 then [92, 110]
  else if aChar = 13 then [92, 114]
  else if aChar = 12 then [92, 102]
  else if aChar = 61 ∨ aChar = 58 ∨ aChar = 35 ∨ aChar = 33 then [92, aChar]
  else if (aChar < 32 ∨ 126 < aChar) ∧ escapeUnicode = true then
    [92, 117, toHex (((aChar / 4096 : Nat) : Int) % 16), toHex (((aChar / 256 : Nat) : Int) % 16),
      toHex (((aChar / 16 : Nat) : Int) % 16), toHex ((aChar : Int) % 16)]
  else [aChar]

/-- The loop of `saveConvert` from index `x` on. -/
def saveConvertLoop (escapeSpace escapeUnicode : Bool) : Nat → List Nat → List Nat
  | _, [] => []
  | x, aChar :: rest =>
    saveConvertChar escapeSpace escapeUnicode x aChar ++
      saveConvertLoop escapeSpace escapeUnicode (x + 1) rest

/-- The method `saveConvert(theString, escapeSpace, escapeUnicode)`. -/
def saveConvert (theString : List Nat) (escapeSpace escapeUnicode : Bool) : List Nat :=
  saveConvertLoop escapeSpace escapeUnicode 0 theString

/-! ## properties.go: the logical line reader -/

/-- An `io.Reader` over a byte stream: the chunks that successive `Read` calls
deliver, each with a nil error; once the list is used up `Read` returns `0, io.EOF`. -/
abbrev Reader := List (List Nat)

/-- The call `n, err := r.Read(p)`: the number of bytes read, whether `err != nil`,
the buffer `p` after the call and the reader after the call. A chunk longer than `p`
is delivered `len(p)` bytes at a time. -/
def Read (r : Reader) (p : List Nat) : Nat × Bool × List Nat × Reader :=
  match r with
  | [] => (0, true, p, [])
  | chunk :: rest =>
    if chunk.length ≤ p.length then
      (chunk.length, false, chunk ++ p.drop chunk.length, rest)
    else
      (p.length, false, chunk.take p.length, chunk.drop p.length :: rest)

/-- The struct `LineReader`. -/
structure LineReader where
  inByteBuf : List Nat
  lineBuf : List Nat
  inLimit : Nat
  inOff : Nat
  reader : Reader
  deriving DecidableEq, Repr

/-- The function `NewLineReader`. -/
def NewLineReader (reader : Reader) : LineReader :=
  { inByteBuf := List.replicate 8192 0
    lineBuf := List.replicate 1024 0
    reader := reader
    inLimit := 0
    inOff := 0 }

/-- The local flags of `readLine`. -/
structure Flags where
  skipWhiteSpace : Bool
  isCommentLine : Bool
  isNewLine : Bool
  appendedLineBegin : Bool
  precedingBackslash : Bool
  skipLF : Bool
  deriving DecidableEq, Repr

/-- The values of the flags at the start of `readLine`. -/
def Flags.init : Flags :=
  { skipWhiteSpace := true
    isCommentLine := false
    isNewLine := true
    appendedLineBegin := false
    precedingBackslash := false
    skipLF := false }

/-- What one iteration of the `for true` loop of `readLine` ends in. -/
inductive Iter where
  /-- The next iteration starts with this reader, `length` and flags. -/
  | next (l : LineReader) (length : Nat) (f : Flags)
  /-- The statement `return n`. -/
  | ret (n : Int) (l : LineReader)
  /-- A run-time panic. -/
  | fault (e : Fault)
  deriving DecidableEq, Repr

/-- The refill `n, err := l.reader.Read(l.inByteBuf); l.inLimit = n; l.inOff = 0`
with the test `err != nil || l.inLimit <= 0` (it occurs twice in `readLine`). -/
def fill (l : LineReader) : LineReader × Bool :=
  let r := Read l.reader l.inByteBuf
  ({ l with inByteBuf := r.2.2.1, reader := r.2.2.2, inLimit := r.1, inOff := 0 },
    r.2.1 || r.1 == 0)

/-- Lines 690 to 701 of `readLine`: the continuation test that ends the
end-of-line branch. -/
def eolTail (c : Nat) (l : LineReader) (length : Nat) (f : Flags) : Iter :=
  if f.precedingBackslash = true then
    .next l (length - 1)
      { f with
        skipWhiteSpace := true
        appendedLineBegin := true
        precedingBackslash := false
        skipLF := if c = 13 then true else f.skipLF }
  else .ret length l

/-- Lines 616 to 702 of `readLine`: the part of one iteration that follows the
fetch `c = l.inByteBuf[l.inOff]; l.inOff++`. The value `length` is never decremented
at 0: the end-of-line branch is left early when `length == 0`. -/
def readLineByte (c : Nat) (l : LineReader) (length : Nat) (f : Flags) : Iter :=
  if f.skipLF = true ∧ c = 10 then .next l length { f with skipLF := false }
  else
    let f := { f with skipLF := false }
    if f.skipWhiteSpace = true ∧ (c = 32 ∨ c = 9 ∨ c = 12) then .next l length f
    else if f.skipWhiteSpace = true ∧ f.appendedLineBegin = false ∧ (c = 13 ∨ c = 10) then
      .next l length f
    else
      let f :=
        if f.skipWhiteSpace = true then
          { f with skipWhiteSpace := false, appendedLineBegin := false }
        else f
      if f.isNewLine = true ∧ (c = 35 ∨ c = 33) then
        .next l length { f with isNewLine := false, isCommentLine := true }
      else
        let f := { f with isNewLine := false }
        if c ≠ 10 ∧ c ≠ 13 then
          if length < l.lineBuf.length then
            let lineBuf := l.lineBuf.set length c
            let length := length + 1
            let lineBuf :=
              if length = lineBuf.length then lineBuf ++ List.replicate length 0
              else lineBuf
            .next { l with lineBuf := lineBuf } length
              { f with precedingBackslash := if c = 92 then !f.precedingBackslash else false }
          else .fault .indexOutOfRange
        else if f.isCommentLine = true ∨ length = 0 then
          .next l 0 { f with isCommentLine := false, isNewLine := true, skipWhiteSpace := true }
        else if l.inOff ≥ l.inLimit then
          let le := fill l
          let l := le.1
          if le.2 = true then
            if f.precedingBackslash = true then .ret ((length - 1 : Nat) : Int) l
            else .ret (length : Int) l
          else if f.precedingBackslash = true then
            eolTail c l (length - 1)
              { f with
                skipWhiteSpace := true
                appendedLineBegin := true
                precedingBackslash := false
                skipLF := if c = 13 then true else f.skipLF }
          else .ret (length : Int) l
        else eolTail c l length f

/-- One iteration of the `for true` loop of `readLine`: lines 598 to 614 (refill when
the input buffer is used up, end of input, fetch of the next byte), then
`readLineByte`. At end of input `length` is decremented only when it is not 0. -/
def readLineIter (l : LineReader) (length : Nat) (f : Flags) : Iter :=
  let le := if l.inOff ≥ l.inLimit then fill l else (l, false)
  let l := le.1
  if le.2 = true then
    if length = 0 ∨ f.isCommentLine = true then .ret (-1) l
    else if f.precedingBackslash = true then .ret ((length - 1 : Nat) : Int) l
    else .ret (length : Int) l
  else
    match l.inByteBuf[l.inOff]? with
    | none => .fault .indexOutOfRange
    | some c => readLineByte c { l with inOff := l.inOff + 1 } length f

/-- The `for true` loop of `readLine`. -/
def readLineLoop : Nat → LineReader → Nat → Flags → Except Fault (Int × LineReader)
  | 0, _, _, _ => .error .outOfFuel
  | fuel + 1, l, length, f =>
    match readLineIter l length f with
    | .next l length f => readLineLoop fuel l length f
    | .ret n l => .ok (n, l)
    | .fault e => .error e

/-- The number of bytes not yet consumed: those left in `inByteBuf` and those the
reader still holds. Every iteration of the loop of `readLine` consumes one or returns. -/
def LineReader.avail (l : LineReader) : Nat :=
  (l.inLimit - l.inOff) + (l.reader.map List.length).sum

/-- The method `readLine`: the returned `int` and the reader after the call;
the logical line is `lineBuf[:n]`. -/
def readLine (l : LineReader) : Except Fault (Int × LineReader) :=
  readLineLoop (l.avail + 1) l 0 Flags.init

/-! ## properties.go: load -/

/-- The first inner loop of `load0` (`for keyLen < limit`): returns `keyLen`,
`valueStart` and `hasSep`. The index is in range: `keyLen < limit <= len(lineBuf)`. -/
def keyScan (lineBuf : List Nat) (limit : Nat) : Nat → Nat → Bool → Nat × Nat × Bool
  | 0, keyLen, _ => (keyLen, limit, false)
  | fuel + 1, keyLen, precedingBackslash =>
    if keyLen < limit then
      let c := lineBuf.getD keyLen 0
      if (c = 61 ∨ c = 58) ∧ precedingBackslash = false then (keyLen, keyLen + 1, true)
      else if (c = 32 ∨ c = 9 ∨ c = 12) ∧ precedingBackslash = false then
        (keyLen, keyLen + 1, false)
      else keyScan lineBuf limit fuel (keyLen + 1) (if c = 92 then !precedingBackslash else false)
    else (keyLen, limit, false)

/-- The second inner loop of `load0` (`for valueStart < limit`): returns `valueStart`. -/
def valueScan (lineBuf : List Nat) (limit : Nat) : Nat → Nat → Bool → Nat
  | 0, valueStart, _ => valueStart
  | fuel + 1, valueStart, hasSep =>
    if valueStart < limit then
      let c := lineBuf.getD valueStart 0
      if c ≠ 32 ∧ c ≠ 9 ∧ c ≠ 12 then
        if hasSep = false ∧ (c = 61 ∨ c = 58) then valueScan lineBuf limit fuel (valueStart + 1) true
        else valueStart
      else valueScan lineBuf limit fuel (valueStart + 1) hasSep
    else valueStart

/-- The body of the outer loop of `load0` for one logical line `lineBuf[:limit]`:
split, convert both halves, `Put`. -/
def loadLine (lr : LineReader) (limit : Nat) (p : Props) : Except Fault Props :=
  let ks := keyScan lr.lineBuf limit limit 0 false
  let keyLen := ks.1
  let valueStart := valueScan lr.lineBuf limit limit ks.2.1 ks.2.2
  match loadConvert lr.lineBuf 0 keyLen with
  | .error e => .error e
  | .ok key =>
    match loadConvert lr.lineBuf valueStart (limit - valueStart) with
    | .error e => .error e
    | .ok value => .ok (p.Put (.str key) (.str value)).2

/-- The outer loop of `load0`: the error (`none` for a nil error) and the table
as the call leaves it. -/
def load0Loop : Nat → LineReader → Props → Option Fault × Props
  | 0, _, p => (some .outOfFuel, p)
  | fuel + 1, lr, p =>
    match readLine lr with
    | .error e => (some e, p)
    | .ok (limit, lr) =>
      if limit ≥ 0 then
        match loadLine lr limit.toNat p with
        | .error e => (some e, p)
        | .ok p => load0Loop fuel lr p
      else (none, p)

/-- The method `load0`. Every logical line consumes at least one byte. -/
def load0 (p : Props) (lr : LineReader) : Option Fault × Props :=
  load0Loop (lr.avail + 1) lr p

/-- The method `Load`. -/
def Load (p : Props) (reader : Reader) : Option Fault × Props :=
  load0 p (NewLineReader reader)

/-- The key/value pairs a table holds. -/
def Props.pairs (p : Props) : List (Any × Any) := p.Hashtable.mapper

/-- Successive `readLine` calls up to the first -1: the logical lines they return. -/
def linesOf : Nat → LineReader → Except Fault (List (List Nat))
  | 0, _ => .error .outOfFuel
  | fuel + 1, l =>
    match readLine l with
    | .error e => .error e
    | .ok (n, l) =>
      if n ≥ 0 then
        match linesOf fuel l with
        | .error e => .error e
        | .ok ls => .ok (l.lineBuf.take n.toNat :: ls)
      else .ok []

/-- All the logical lines `readLine` returns on the input a reader delivers. -/
def readLines (reader : Reader) : Except Fault (List (List Nat)) :=
  linesOf ((NewLineReader reader).avail + 1) (NewLineReader reader)

/-! ## properties.go: store -/

/-- The function `newLine`: the line separator of the platform. -/
def newLine (GOOS : String) : List Nat := if GOOS = "windows" then [13, 10] else [10]

/-- The `for current < length` loop of `writeComments`: the bytes written so far,
`current` and `last`. Every iteration advances `current`. -/
def writeCommentsLoop (nl comments : List Nat) : Nat → Nat → Nat → List Nat → List Nat × Nat × Nat
  | 0, current, last, out => (out, current, last)
  | fuel + 1, current, last, out =>
    if current < comments.length then
      let c := comments.getD current 0
      if c > 255 ∨ c = 10 ∨ c = 13 then
        let out := if last ≠ current then out ++ (comments.take current).drop last else out
        if c > 255 then
          let out := out ++
            [92, 117, toHex (((c / 4096 : Nat) : Int) % 16), toHex (((c / 256 : Nat) : Int) % 16),
              toHex (((c / 16 : Nat) : Int) % 16), toHex ((c : Int) % 16)]
          writeCommentsLoop nl comments fuel (current + 1) (current + 1) out
        else
          let out := out ++ nl
          let current :=
            if c = 13 ∧ current ≠ comments.length - 1 ∧ comments.getD (current + 1) 0 = 10 then
              current + 1
            else current
          let out :=
            if current = comments.length - 1 ∨
                (comments.getD (current + 1) 0 ≠ 35 ∧ comments.getD (current + 1) 0 ≠ 33) then
              out ++ [35]
            else out
          writeCommentsLoop nl comments fuel (current + 1) (current + 1) out
      else writeCommentsLoop nl comments fuel (current + 1) last out
    else (out, current, last)

/-- The function `writeComments`: the bytes written for the comments (`none` is a nil
slice: nothing is written). -/
def writeComments (GOOS : String) (comments : Option (List Nat)) : List Nat :=
  match comments with
  | none => []
  | some comments =>
    let r := writeCommentsLoop (newLine GOOS) comments comments.length 0 0 [35]
    let out := if r.2.2 ≠ r.2.1 then r.1 ++ (comments.take r.2.1).drop r.2.2 else r.1
    out ++ newLine GOOS

/-- The `for _, key := range p.Keys()` loop of `store0`: the bytes written after `out`,
or the panic of a failed type assertion. -/
def storeEntries (p : Props) (escUnicode : Bool) (nl : List Nat) :
    List Any → List Nat → Except Fault (List Nat)
  | [], out => .ok out
  | key :: keys, out =>
    match key, p.Get key with
    | .str sKey, .str sVal =>
      storeEntries p escUnicode nl keys
        (out ++ (saveConvert sKey true escUnicode ++ [32, 61, 32] ++ saveConvert sVal false escUnicode)
          ++ nl)
    | _, _ => .error .typeAssertion

/-- The method `store0`: all the bytes written; `now` is the text of
`time.Now().Format(time.UnixDate)`. -/
def store0 (p : Props) (comments : Option (List Nat)) (escUnicode : Bool) (now : List Nat)
    (GOOS : String) : Except Fault (List Nat) :=
  let out := writeComments GOOS comments
  let out := out ++ ([35, 32] ++ now)
  let out := out ++ newLine GOOS
  storeEntries p escUnicode (newLine GOOS) p.Keys out

/-- The method `Store`. -/
def Store (p : Props) (comments : Option (List Nat)) (now : List Nat) (GOOS : String) :
    Except Fault (List Nat) :=
  store0 p comments true now GOOS

/-! ## properties.go: defaults -/

/-- The method `GetProperty`: the value and whether it exists. The own table is asked
first; the two equations are the two values of `p.defaults` (nil or not). -/
def GetProperty : Props → List Nat → List Nat × Bool
  | .mk h none, key =>
    match h.Get (.str key) with
    | .str sVal => (sVal, true)
    | _ => ([], false)
  | .mk h (some defaults), key =>
    match h.Get (.str key) with
    | .str sVal => (sVal, true)
    | _ => GetProperty defaults key

/-- The method `GetPropertyByDefault`. -/
def GetPropertyByDefault (p : Props) (key defaultValue : List Nat) : List Nat :=
  if (GetProperty p key).2 = false then defaultValue else (GetProperty p key).1

/-! ## properties2.go: the sequence table -/

/-- An element of a `container/list` list: its identity (the pointer) and its `Value`. -/
structure Element where
  id : Nat
  Value : Any
  deriving DecidableEq, Repr

/-- The struct `sequenceTable`: the map `mapper`, the map `element` from a key to the
pointer of its list element, the elements of `list` from front to back, and the
identity the next `PushBack` gives to the element it makes. -/
structure sequenceTable where
  mapper : List (Any × Any)
  element : List (Any × Nat)
  list : List Element
  fresh : Nat
  deriving DecidableEq, Repr

/-- The function `NewHashtable2`. -/
def NewHashtable2 : sequenceTable := ⟨[], [], [], 0⟩

/-- Map read `s.element[key]`: `none` is the nil pointer of an absent key. -/
def elementGet (m : List (Any × Nat)) (key : Any) : Option Nat :=
  match m with
  | [] => none
  | (k, e) :: rest => if k = key then some e else elementGet rest key

/-- Map write `s.element[key] = e`. -/
def elementSet (m : List (Any × Nat)) (key : Any) (e : Nat) : List (Any × Nat) :=
  match m with
  | [] => [(key, e)]
  | (k, v) :: rest => if k = key then (k, e) :: rest else (k, v) :: elementSet rest key e

/-- The method `sequenceTable.Put`: returns the old value and the updated table.
`s.list.PushBack(key)` makes a new element at the back of the list. -/
def sequenceTable.Put (s : sequenceTable) (key value : Any) : Any × sequenceTable :=
  let old := mapGet s.mapper key
  (old,
    { mapper := mapSet s.mapper key value
      element := elementSet s.element key s.fresh
      list := s.list ++ [⟨s.fresh, key⟩]
      fresh := s.fresh + 1 })

/-- The method `sequenceTable.Get`. -/
def sequenceTable.Get (s : sequenceTable) (key : Any) : Any := mapGet s.mapper key

/-- The method `sequenceTable.Remove`. `s.list.Remove(e)` reads `e.list`: it panics on
the nil pointer that `s.element[key]` is for an absent key. -/
def sequenceTable.Remove (s : sequenceTable) (key : Any) : Except Fault sequenceTable :=
  match elementGet s.element key with
  | none => .error .nilDereference
  | some e =>
    .ok
      { mapper := mapDelete s.mapper key
        element := s.element.filter (fun kv => kv.1 ≠ key)
        list := s.list.filter (fun x => x.id ≠ e)
        fresh := s.fresh }

/-- The method `sequenceTable.Size`: `s.list.Len()`. -/
def sequenceTable.Size (s : sequenceTable) : Nat := s.list.length

/-- The method `sequenceTable.Keys`. -/
def sequenceTable.Keys (s : sequenceTable) : List Any := s.list.map (fun x => x.Value)

/-! ## Definitions used in the statements and proofs -/

/-- The byte a one-letter escape stands for. -/
def unescape (b : Nat) : Nat :=
  if b = 116 then 9 else if b = 114 then 13 else if b = 110 then 10 else if b = 102 then 12 else b

/-- The bytes of `inByteBuf` not yet consumed: `inByteBuf[inOff:inLimit]`. -/
def LineReader.pending (l : LineReader) : List Nat := (l.inByteBuf.take l.inLimit).drop l.inOff

/-- All bytes not yet consumed, in order: the rest of the buffer, then what the reader holds. -/
def LineReader.stream (l : LineReader) : List Nat := l.pending ++ l.reader.flatten

/-- Well-formed reader state: `inLimit` is within the buffer, the buffer is not empty
and the reader delivers no empty chunk. -/
structure LineReader.WF (l : LineReader) : Prop where
  limit_le : l.inLimit ≤ l.inByteBuf.length
  buf_pos : 0 < l.inByteBuf.length
  chunks_ne : ∀ ch ∈ l.reader, ch ≠ []

/-- The flags at the start of a physical line that starts a logical line. -/
def Flags.fresh (pb : Bool) : Flags := ⟨true, false, true, false, pb, false⟩

/-- The flags inside a physical line (`cm`: it is a comment line). -/
def Flags.inLine (cm pb : Bool) : Flags := ⟨false, cm, false, false, pb, false⟩

/-- The write `lineBuf[length] = c` with the doubling that follows it. -/
def pushByte (lineBuf : List Nat) (len c : Nat) : List Nat :=
  if len + 1 = (lineBuf.set len c).length then lineBuf.set len c ++ List.replicate (len + 1) 0
  else lineBuf.set len c

/-- The preceding-backslash flag after the bytes `xs` have been appended. -/
def bsFlag (pb : Bool) (xs : List Nat) : Bool :=
  xs.foldl (fun pb c => if c = 92 then !pb else false) pb

/-- The reader in the part of the input that yields no logical line: `false` is the
start of a physical line (blank so far), `true` the inside of a comment line.
The result is the state after the bytes, `none` when a logical line starts in them. -/
def skipRun : Bool → List Nat → Option Bool
  | s, [] => some s
  | false, c :: xs =>
    if c = 32 ∨ c = 9 ∨ c = 12 ∨ c = 10 ∨ c = 13 then skipRun false xs
    else if c = 35 ∨ c = 33 then skipRun true xs
    else none
  | true, c :: xs => if c = 10 ∨ c = 13 then skipRun false xs else skipRun true xs

/-- The flags of the two states of `skipRun`. -/
def skipFlags (s pb : Bool) : Flags := if s = true then Flags.inLine true pb else Flags.fresh pb

/-- A byte that starts a logical line: not white space, no line terminator, no comment mark. -/
def lineStart (c : Nat) : Prop :=
  c ≠ 32 ∧ c ≠ 9 ∧ c ≠ 12 ∧ c ≠ 10 ∧ c ≠ 13 ∧ c ≠ 35 ∧ c ≠ 33

instance (c : Nat) : Decidable (lineStart c) := by unfold lineStart; infer_instance

/-- The key scan of `load0` on the bytes from `keyLen` on: the number of bytes that
belong to the key, and `hasSep` when a terminator was found (`none` at the line end). -/
def keySpan : Bool → List Nat → Nat × Option Bool
  | _, [] => (0, none)
  | pb, c :: xs =>
    if (c = 61 ∨ c = 58) ∧ pb = false then (0, some true)
    else if (c = 32 ∨ c = 9 ∨ c = 12) ∧ pb = false then (0, some false)
    else ((keySpan (if c = 92 then !pb else false) xs).1 + 1,
      (keySpan (if c = 92 then !pb else false) xs).2)

/-- The value scan of `load0` on the bytes from `valueStart` on: the number of bytes skipped. -/
def valueSkip : Bool → List Nat → Nat
  | _, [] => 0
  | hs, c :: xs =>
    if c ≠ 32 ∧ c ≠ 9 ∧ c ≠ 12 then
      if hs = false ∧ (c = 61 ∨ c = 58) then valueSkip true xs + 1 else 0
    else valueSkip hs xs + 1

/-- No key terminator is met in `xs` when the scan enters it with the flag `pb`. -/
def noSep : Bool → List Nat → Prop
  | _, [] => True
  | pb, c :: xs =>
    ¬ ((c = 61 ∨ c = 58 ∨ c = 32 ∨ c = 9 ∨ c = 12) ∧ pb = false) ∧
      noSep (if c = 92 then !pb else false) xs

/-- The length of the separator that `load0` consumes at the head of `xs`
(the bytes that follow the key). -/
def sepLen (xs : List Nat) : Nat :=
  match (keySpan false xs).2 with
  | none => 0
  | some hs => 1 + valueSkip hs (xs.drop 1)

/-- The two forms of a separator: a non-empty run of white space, or one `=` or `:`
with white space around it. -/
def IsSeparator (sep : List Nat) : Prop :=
  (sep ≠ [] ∧ ∀ b ∈ sep, b = 32 ∨ b = 9 ∨ b = 12) ∨
  ∃ w1 s w2, sep = w1 ++ s :: w2 ∧ (s = 61 ∨ s = 58) ∧
    (∀ b ∈ w1, b = 32 ∨ b = 9 ∨ b = 12) ∧ ∀ b ∈ w2, b = 32 ∨ b = 9 ∨ b = 12

/-- A plain byte: no backslash, `=`, `:`, white space or line terminator. -/
def plainByte (b : Nat) : Prop :=
  b ≠ 92 ∧ b ≠ 61 ∧ b ≠ 58 ∧ b ≠ 32 ∧ b ≠ 9 ∧ b ≠ 12 ∧ b ≠ 10 ∧ b ≠ 13

instance (b : Nat) : Decidable (plainByte b) := by unfold plainByte; infer_instance

/-- A run of spaces, tabs and form feeds. -/
def allWs (w : List Nat) : Prop := ∀ b ∈ w, b = 32 ∨ b = 9 ∨ b = 12

instance (w : List Nat) : Decidable (allWs w) := by unfold allWs; infer_instance

/-- No line terminator among the bytes. -/
def noEol (xs : List Nat) : Prop := ∀ b ∈ xs, b ≠ 10 ∧ b ≠ 13

instance (xs : List Nat) : Decidable (noEol xs) := by unfold noEol; infer_instance

/-- A physical line without its terminator: a content line (leading white space, then
the content), a comment line (leading white space, `#` or `!`, any text) or a line of
white space only (empty included). -/
inductive PhysLine where
  | content (ws body : List Nat)
  | comment (ws : List Nat) (mark : Nat) (text : List Nat)
  | blank (ws : List Nat)

/-- The bytes of a physical line. -/
def PhysLine.bytes : PhysLine → List Nat
  | .content ws body => ws ++ body
  | .comment ws mark text => ws ++ mark :: text
  | .blank ws => ws

/-- The shape of each kind of line: the content is not empty, starts with a byte that is
neither white space nor a comment mark and holds no backslash and no line terminator. -/
def PhysLine.Valid : PhysLine → Prop
  | .content ws body =>
    allWs ws ∧ (match body with | [] => False | c :: _ => lineStart c) ∧
      ∀ b ∈ body, b ≠ 92 ∧ b ≠ 10 ∧ b ≠ 13
  | .comment ws mark text => allWs ws ∧ (mark = 35 ∨ mark = 33) ∧ noEol text
  | .blank ws => allWs ws

instance (x : PhysLine) : Decidable x.Valid := by
  cases x with
  | content ws body =>
    unfold PhysLine.Valid
    cases body <;> infer_instance
  | comment ws mark text => unfold PhysLine.Valid; infer_instance
  | blank ws => unfold PhysLine.Valid; infer_instance

/-- The logical line a physical line yields, if any. -/
def PhysLine.logical : PhysLine → Option (List Nat)
  | .content _ body => some body
  | _ => none

/-- A line terminator: `\n`, `\r` or `\r\n`. -/
def isTerminator (t : List Nat) : Prop := t = [10] ∨ t = [13] ∨ t = [13, 10]

instance (t : List Nat) : Decidable (isTerminator t) := by unfold isTerminator; infer_instance

/-- Successive `readLine` calls return exactly the lines `xs`, in order, and then -1. -/
def readsLines : LineReader → List (List Nat) → Prop
  | l, [] => ∃ l', readLine l = .ok (-1, l')
  | l, x :: xs =>
    ∃ l', readLine l = .ok ((x.length : Int), l') ∧ l'.lineBuf.take x.length = x ∧
      readsLines l' xs

/-- The bytes of a list of terminated physical lines. -/
def renderLines (lines : List (PhysLine × List Nat)) : List Nat :=
  (lines.map (fun x => x.1.bytes ++ x.2)).flatten

/-- What one iteration keeps: the index `length` stays below the capacity of `lineBuf`,
and the number of bytes left goes down by one when the loop goes on. -/
def IterInv (l : LineReader) (len : Nat) : Iter → Prop
  | .next l' len' _ => l'.avail + 1 = l.avail ∧ len' < l'.lineBuf.length
  | .ret n l' =>
    l'.avail ≤ l.avail ∧ n < (l'.lineBuf.length : Int) ∧ (0 ≤ n → len = 0 → l'.avail < l.avail)
  | .fault _ => True

/-- A hexadecimal digit, either case. -/
def isHexDigit (b : Nat) : Prop := (48 ≤ b ∧ b ≤ 57) ∨ (97 ≤ b ∧ b ≤ 102) ∨ (65 ≤ b ∧ b ≤ 70)

instance (b : Nat) : Decidable (isHexDigit b) := by unfold isHexDigit; infer_instance

/-- The line holds a `\u` escape (a backslash that an even number of backslashes
precedes, then `u`) whose 4 following bytes are in the line and are not all
hexadecimal digits. -/
def MalformedEscape (ln : List Nat) : Prop :=
  ∃ pre d post, ln = pre ++ 92 :: 117 :: d ++ post ∧ d.length = 4 ∧
    (∃ b ∈ d, ¬ isHexDigit b) ∧ bsFlag false pre = false

/-- The first `n` iterations of the loop of `load0`, when each of them stores a pair:
the reader and the table after them. -/
def loadSteps : Nat → LineReader → Props → Option (LineReader × Props)
  | 0, lr, p => some (lr, p)
  | n + 1, lr, p =>
    match readLine lr with
    | .error _ => none
    | .ok (limit, lr) =>
      if limit ≥ 0 then
        match loadLine lr limit.toNat p with
        | .error _ => none
        | .ok p => loadSteps n lr p
      else none

/-- The table after the first `n` logical lines have been stored, and the logical line
that `readLine` returns next. -/
def lineAfter (n : Nat) (lr : LineReader) (p : Props) : Option (Props × List Nat) :=
  match loadSteps n lr p with
  | none => none
  | some (lr1, p1) =>
    match readLine lr1 with
    | .error _ => none
    | .ok (limit, lr2) => if limit ≥ 0 then some (p1, lr2.lineBuf.take limit.toNat) else none

/-! ## Definitions used in the statements: save side, tables, defaults -/

/-- The uppercase hexadecimal digit of a number below 16. -/
def upperHex (d : Nat) : Nat := if d < 10 then 48 + d else 55 + d

/-- A property list followed by its chain of defaults. -/
def Props.chain : Props → List Props
  | .mk h none => [.mk h none]
  | .mk h (some d) => .mk h (some d) :: Props.chain d

/-- The table of the list maps the key to a string. -/
def Props.holds (p : Props) (key : List Nat) : Prop := ∃ v, p.Get (.str key) = .str v

/-! ## Definitions used in the statements: key boundary -/

/-- The number of consecutive backslashes at the end of `xs`. -/
def trailingBackslashes (xs : List Nat) : Nat := (xs.reverse.takeWhile (fun b => b = 92)).length

/-- The byte at index `i` of the line is `=`, `:`, space, tab or form feed and an even
number of consecutive backslashes precedes it: an unescaped key terminator. -/
def isKeyEnd (ln : List Nat) (i : Nat) : Prop :=
  ∃ c, ln[i]? = some c ∧ (c = 61 ∨ c = 58 ∨ c = 32 ∨ c = 9 ∨ c = 12) ∧
    trailingBackslashes (ln.take i) % 2 = 0

/-! ## Definitions used in the statements: the line reader never fails -/

/-- One iteration ends without a run-time panic, keeps `inLimit` within the input
buffer and leaves a line buffer that is not empty. -/
def IterOk : Iter → Prop
  | .next l _ _ => l.inLimit ≤ l.inByteBuf.length ∧ 0 < l.lineBuf.length
  | .ret _ l => l.inLimit ≤ l.inByteBuf.length ∧ 0 < l.lineBuf.length
  | .fault _ => False

/-! ## Definitions used in the statements: the comment block -/

/-- The `#` that `writeComments` writes after a line terminator: none when the next
byte is `#` or `!`. -/
def hashPrefix (rest : List Nat) : List Nat :=
  match rest with
  | [] => [35]
  | c :: _ => if c = 35 ∨ c = 33 then [] else [35]

/-- What `writeComments` writes from a position inside a comment line on: the rest of
that line, the newline, and the lines that follow. -/
def commentsTail (nl : List Nat) : List Nat → List Nat
  | [] => nl
  | c :: rest =>
    if c = 10 then nl ++ hashPrefix rest ++ commentsTail nl rest
    else if c = 13 then
      match rest with
      | [] => nl ++ [35] ++ nl
      | d :: rest' =>
        if d = 10 then nl ++ hashPrefix rest' ++ commentsTail nl rest'
        else nl ++ hashPrefix (d :: rest') ++ commentsTail nl (d :: rest')
    else c :: commentsTail nl rest

/-- The lines of a comment text, split at each `\n`, `\r` or `\r\n` (the words of the
specification, not the code). -/
def splitLines : List Nat → List (List Nat)
  | [] => [[]]
  | c :: rest =>
    if c = 10 then [] :: splitLines rest
    else if c = 13 then
      match rest with
      | [] => [[], []]
      | d :: rest' => if d = 10 then [] :: splitLines rest' else [] :: splitLines (d :: rest')
    else
      match splitLines rest with
      | [] => [[c]]
      | l :: ls => (c :: l) :: ls

/-- A comment line with a `#` in front of it unless it already starts with `#` or `!`
(the words of the specification). -/
def prefixLine (ln : List Nat) : List Nat :=
  match ln with
  | [] => [35]
  | c :: _ => if c = 35 ∨ c = 33 then ln else 35 :: ln

/-- The comment block as the specification words it: every line, the first one
included, is written with `prefixLine` and followed by the newline. -/
def claimedCommentBlock (nl comments : List Nat) : List Nat :=
  ((splitLines comments).map (fun ln => prefixLine ln ++ nl)).flatten

/-- The comment block with the first line always behind a `#`: the later lines are
written with `prefixLine`, and each line is followed by the newline. -/
def commentBlock (nl comments : List Nat) : List Nat :=
  match splitLines comments with
  | [] => []
  | l :: ls => (35 :: l ++ nl) ++ (ls.map (fun ln => prefixLine ln ++ nl)).flatten

/-! ## The escape codec: decoding what `saveConvert` writes -/

theorem loadConvertLoop_done (inp : List Nat) (end_ fuel off : Nat) (out : List Nat)
    (h : end_ ≤ off) : loadConvertLoop inp end_ fuel off out = .ok out := by
  cases fuel <;> simp [loadConvertLoop, Nat.not_lt.mpr h]

theorem loadConvertLoop_plain (inp : List Nat) (end_ fuel off a : Nat) (out : List Nat)
    (h0 : inp[off]? = some a) (ha : a ≠ 92) (hlt : off < end_) :
    loadConvertLoop inp end_ (fuel + 1) off out
      = loadConvertLoop inp end_ fuel (off + 1) (out ++ [a]) := by
  simp [loadConvertLoop, hlt, h0, ha]

theorem loadConvertLoop_escape (inp : List Nat) (end_ fuel off b : Nat) (out : List Nat)
    (h0 : inp[off]? = some 92) (h1 : inp[off + 1]? = some b) (hb : b ≠ 117) (hlt : off < end_) :
    loadConvertLoop inp end_ (fuel + 1) off out
      = loadConvertLoop inp end_ fuel (off + 2) (out ++ [unescape b]) := by
  simp [loadConvertLoop, hlt, h0, h1, hb, unescape]

theorem loadConvertLoop_unicode (inp : List Nat) (end_ fuel off v off2 : Nat) (out : List Nat)
    (h0 : inp[off]? = some 92) (h1 : inp[off + 1]? = some 117)
    (hx : readHex inp 4 (off + 2) 0 = .ok (v, off2)) (hlt : off < end_) :
    loadConvertLoop inp end_ (fuel + 1) off out
      = loadConvertLoop inp end_ fuel off2 (out ++ [v % 256]) := by
  simp [loadConvertLoop, hlt, h0, h1, hx]

theorem readHex_toHex (inp : List Nat) (off v d : Nat) (n : Nat) (hd : d < 16)
    (h : inp[off]? = some (toHex ((d : Nat) : Int))) :
    readHex inp (n + 1) off v = readHex inp n (off + 1) (v * 16 + d) := by
  have : toHex ((d : Nat) : Int) = hexDigit.getD d 0 := by
    unfold toHex
    congr 1
    omega
  rw [this] at h
  interval_cases d <;> simp [readHex, h, hexDigit] at h ⊢

theorem getElem?_of_drop {inp l : List Nat} {off : Nat} (h : inp.drop off = l) (i : Nat) :
    inp[off + i]? = l[i]? := by
  rw [← h, List.getElem?_drop]

/-- The three shapes of what `saveConvert` writes for one byte. -/
theorem saveConvertChar_cases (es eu : Bool) (x a : Nat) :
    (saveConvertChar es eu x a = [a] ∧ a ≠ 92)
    ∨ (∃ b, saveConvertChar es eu x a = [92, b] ∧ b ≠ 117 ∧ unescape b = a)
    ∨ (saveConvertChar es eu x a
        = [92, 117, toHex (((a / 4096 : Nat) : Int) % 16), toHex (((a / 256 : Nat) : Int) % 16),
            toHex (((a / 16 : Nat) : Int) % 16), toHex ((a : Int) % 16)]) := by
  unfold saveConvertChar
  split_ifs with h1 h2 h3 h4 h5 h6 h7 h8 h9 h10
  · right; left; exact ⟨92, by simp [h2], by decide, by simp [unescape, h2]⟩
  · left; exact ⟨rfl, h2⟩
  · right; left; exact ⟨32, rfl, by decide, by simp [unescape, h3]⟩
  · left; exact ⟨by simp [h3], by omega⟩
  · right; left; exact ⟨116, rfl, by decide, by simp [unescape, h5]⟩
  · right; left; exact ⟨110, rfl, by decide, by simp [unescape, h6]⟩
  · right; left; exact ⟨114, rfl, by decide, by simp [unescape, h7]⟩
  · right; left; exact ⟨102, rfl, by decide, by simp [unescape, h8]⟩
  · right; left
    refine ⟨a, rfl, by omega, ?_⟩
    unfold unescape
    rw [if_neg (by omega), if_neg (by omega), if_neg (by omega), if_neg (by omega)]
  · right; right; rfl
  · left; exact ⟨rfl, by omega⟩

theorem saveConvertChar_pos (es eu : Bool) (x a : Nat) : 0 < (saveConvertChar es eu x a).length := by
  rcases saveConvertChar_cases es eu x a with h | ⟨b, h, -⟩ | h <;> simp [h]

theorem toHex_mod (n : Nat) : toHex ((n : Int) % 16) = toHex (((n % 16 : Nat) : Nat) : Int) := by
  congr 1

theorem loadConvertLoop_token (inp rest : List Nat) (es eu : Bool) (x a end_ fuel off : Nat)
    (out : List Nat) (ha : a < 256)
    (hd : inp.drop off = saveConvertChar es eu x a ++ rest)
    (hlt : off + (saveConvertChar es eu x a).length ≤ end_) :
    loadConvertLoop inp end_ (fuel + 1) off out
      = loadConvertLoop inp end_ fuel (off + (saveConvertChar es eu x a).length) (out ++ [a]) := by
  have hpos := saveConvertChar_pos es eu x a
  have hlt0 : off < end_ := by omega
  have g := fun i => getElem?_of_drop hd i
  rcases saveConvertChar_cases es eu x a with ⟨h, hne⟩ | ⟨b, h, hb, hu⟩ | h
  · rw [h] at g ⊢
    have g0 := g 0
    simp at g0
    rw [loadConvertLoop_plain inp end_ fuel off a out g0 hne hlt0]
    rfl
  · rw [h] at g ⊢
    have g0 := g 0
    have g1 := g 1
    simp at g0 g1
    rw [loadConvertLoop_escape inp end_ fuel off b out g0 g1 hb hlt0, hu]
    rfl
  · rw [h] at g ⊢
    have g0 := g 0
    have g1 := g 1
    have g2 := g 2
    have g3 := g 3
    have g4 := g 4
    have g5 := g 5
    simp only [toHex_mod] at g2 g3 g4 g5
    simp at g0 g1 g2 g3 g4 g5
    have e1 : off + 2 + 1 = off + 3 := rfl
    have hx : readHex inp 4 (off + 2) 0 = .ok (a, off + 6) := by
      rw [readHex_toHex inp (off + 2) 0 (a / 4096 % 16) 3 (by omega) g2]
      rw [readHex_toHex inp (off + 2 + 1) _ (a / 256 % 16) 2 (by omega) g3]
      rw [readHex_toHex inp (off + 2 + 1 + 1) _ (a / 16 % 16) 1 (by omega) g4]
      rw [readHex_toHex inp (off + 2 + 1 + 1 + 1) _ (a % 16) 0 (by omega) g5]
      simp only [readHex]
      congr 2
      omega
    rw [loadConvertLoop_unicode inp end_ fuel off a (off + 6) out g0 g1 hx hlt0]
    have : a % 256 = a := Nat.mod_eq_of_lt ha
    rw [this]
    rfl

/-- Decoding what `saveConvert` wrote, wherever it lies in the buffer. -/
theorem loadConvertLoop_saveConvertLoop (inp rest : List Nat) (es eu : Bool) (s : List Nat) :
    ∀ (x end_ fuel off : Nat) (out : List Nat), (∀ b ∈ s, b < 256) →
      inp.drop off = saveConvertLoop es eu x s ++ rest →
      end_ = off + (saveConvertLoop es eu x s).length →
      (saveConvertLoop es eu x s).length ≤ fuel →
      loadConvertLoop inp end_ fuel off out = .ok (out ++ s) := by
  induction s with
  | nil =>
    intro x end_ fuel off out _ _ he _
    simp [saveConvertLoop] at he
    rw [loadConvertLoop_done inp end_ fuel off out (by omega)]
    simp
  | cons a s ih =>
    intro x end_ fuel off out hb hd he hf
    have hpos := saveConvertChar_pos es eu x a
    simp only [saveConvertLoop, List.length_append] at hd he hf
    obtain ⟨fuel, rfl⟩ : ∃ k, fuel = k + 1 := ⟨fuel - 1, by omega⟩
    rw [List.append_assoc] at hd
    rw [loadConvertLoop_token inp _ es eu x a end_ fuel off out (hb a (by simp)) hd (by omega)]
    rw [ih (x + 1) end_ fuel _ _ (fun b hb' => hb b (by simp [hb'])) ?_ (by omega) (by omega)]
    · simp
    · have := congrArg (List.drop (saveConvertChar es eu x a).length) hd
      rw [List.drop_drop] at this
      rw [this]
      simp

/-- Escape round trip, for every byte string and flag setting, in place in a buffer. -/
theorem loadConvert_saveConvert_at (pre rest s : List Nat) (es eu : Bool)
    (hb : ∀ b ∈ s, b < 256) :
    loadConvert (pre ++ saveConvert s es eu ++ rest) pre.length (saveConvert s es eu).length
      = .ok s := by
  unfold loadConvert saveConvert
  rw [loadConvertLoop_saveConvertLoop (pre ++ saveConvertLoop es eu 0 s ++ rest) rest es eu s 0 _ _ _
    [] hb (by simp) rfl (le_refl _)]
  simp

/-! ## The line reader: the byte stream seen through the buffer -/

theorem NewLineReader_WF (r : Reader) (h : ∀ ch ∈ r, ch ≠ []) : (NewLineReader r).WF :=
  ⟨by simp only [NewLineReader, List.length_replicate]; omega,
    by simp only [NewLineReader, List.length_replicate]; omega, h⟩

theorem NewLineReader_stream (r : Reader) : (NewLineReader r).stream = r.flatten := by
  simp only [NewLineReader, LineReader.stream, LineReader.pending, List.take_zero, List.drop_nil,
    List.nil_append]

theorem pending_of_le (l : LineReader) (h : l.inLimit ≤ l.inOff) : l.pending = [] := by
  unfold LineReader.pending
  apply List.drop_eq_nil_of_le
  simp
  omega

theorem pending_of_lt (l : LineReader) (hwf : l.WF) (h : l.inOff < l.inLimit) :
    ∃ c, l.inByteBuf[l.inOff]? = some c ∧
      l.pending = c :: ({ l with inOff := l.inOff + 1 } : LineReader).pending := by
  have hlt : l.inOff < l.inByteBuf.length := lt_of_lt_of_le h hwf.limit_le
  refine ⟨l.inByteBuf[l.inOff], List.getElem?_eq_getElem hlt, ?_⟩
  unfold LineReader.pending
  have hlen : l.inOff < (l.inByteBuf.take l.inLimit).length := by
    simp
    omega
  rw [List.drop_eq_getElem_cons hlen]
  simp [List.getElem_take]

theorem fill_nil (l : LineReader) (h : l.reader = []) :
    fill l = ({ l with inLimit := 0, inOff := 0 }, true) := by
  cases l
  simp_all [fill, Read]

theorem fill_cons (l : LineReader) (hwf : l.WF) (ch : List Nat) (rs : Reader)
    (h : l.reader = ch :: rs) :
    (fill l).2 = false ∧ (fill l).1.WF ∧ (fill l).1.stream = ch ++ rs.flatten ∧
      (fill l).1.lineBuf = l.lineBuf ∧ (fill l).1.inOff < (fill l).1.inLimit := by
  have hne : ch ≠ [] := hwf.chunks_ne ch (by simp [h])
  have hpos : 0 < ch.length := List.length_pos.mpr hne
  have hrs : ∀ c ∈ rs, c ≠ [] := fun c hc => hwf.chunks_ne c (by simp [h, hc])
  have hb := hwf.buf_pos
  by_cases hle : ch.length ≤ l.inByteBuf.length
  · have hf : fill l = (⟨ch ++ l.inByteBuf.drop ch.length, l.lineBuf, ch.length, 0, rs⟩, false) := by
      simp [fill, Read, h, hle]
      exact hne
    rw [hf]
    refine ⟨rfl, ⟨?_, ?_, hrs⟩, ?_, rfl, hpos⟩
    · simp
    · simp; omega
    · simp [LineReader.stream, LineReader.pending]
  · have hf : fill l = (⟨ch.take l.inByteBuf.length, l.lineBuf, l.inByteBuf.length, 0,
        ch.drop l.inByteBuf.length :: rs⟩, false) := by
      simp [fill, Read, h, hle]
      exact List.length_pos.mp hb
    rw [hf]
    refine ⟨rfl, ⟨?_, ?_, ?_⟩, ?_, rfl, hb⟩
    · simp; omega
    · simp; omega
    · intro c hc
      simp at hc
      rcases hc with rfl | hc
      · intro h0
        have := congrArg List.length h0
        simp at this
        omega
      · exact hrs c hc
    · simp [LineReader.stream, LineReader.pending, List.take_take]
      rw [← List.append_assoc, List.take_append_drop]

/-- Fetching the next byte: with the stream `c :: rest`, one iteration of the loop
runs `readLineByte` on `c` in a state whose stream is `rest`. -/
theorem readLineIter_cons (l : LineReader) (hwf : l.WF) (c : Nat) (rest : List Nat)
    (hs : l.stream = c :: rest) :
    ∃ l1 : LineReader, l1.WF ∧ l1.stream = rest ∧ l1.lineBuf = l.lineBuf ∧
      ∀ len f, readLineIter l len f = readLineByte c l1 len f := by
  by_cases hlt : l.inOff < l.inLimit
  · obtain ⟨c', hc', hp⟩ := pending_of_lt l hwf hlt
    have hcc : c' = c := by
      unfold LineReader.stream at hs
      rw [hp] at hs
      simpa using (List.cons.inj hs).1
    subst hcc
    refine ⟨{ l with inOff := l.inOff + 1 }, ⟨hwf.limit_le, hwf.buf_pos, hwf.chunks_ne⟩, ?_, rfl, ?_⟩
    · unfold LineReader.stream at hs ⊢
      rw [hp] at hs
      simpa using (List.cons.inj hs).2
    · intro len f
      simp [readLineIter, Nat.not_le.mpr hlt, hc']
  · have hle : l.inLimit ≤ l.inOff := Nat.not_lt.mp hlt
    have hp := pending_of_le l hle
    have hj : l.reader.flatten = c :: rest := by
      unfold LineReader.stream at hs
      rw [hp] at hs
      simpa using hs
    obtain ⟨ch, rs, hr⟩ : ∃ ch rs, l.reader = ch :: rs := by
      cases hr : l.reader with
      | nil => rw [hr] at hj; simp at hj
      | cons ch rs => exact ⟨ch, rs, rfl⟩
    obtain ⟨h2, hwf', hs', hlb, hlt'⟩ := fill_cons l hwf ch rs hr
    obtain ⟨c', hc', hp'⟩ := pending_of_lt (fill l).1 hwf' hlt'
    have hs2 : (fill l).1.stream = c :: rest := by
      rw [hs', ← hj, hr]
      simp
    have hcc : c' = c := by
      unfold LineReader.stream at hs2
      rw [hp'] at hs2
      simpa using (List.cons.inj hs2).1
    subst hcc
    refine ⟨{ (fill l).1 with inOff := (fill l).1.inOff + 1 },
      ⟨hwf'.limit_le, hwf'.buf_pos, hwf'.chunks_ne⟩, ?_, hlb, ?_⟩
    · unfold LineReader.stream at hs2 ⊢
      rw [hp'] at hs2
      simpa using (List.cons.inj hs2).2
    · intro len f
      simp [readLineIter, hle, h2, hc']

/-- End of input: with an empty stream, one iteration of the loop returns. -/
theorem readLineIter_nil (l : LineReader) (hwf : l.WF) (hs : l.stream = []) :
    ∃ l1 : LineReader, l1.WF ∧ l1.stream = [] ∧ l1.lineBuf = l.lineBuf ∧
      ∀ len f, readLineIter l len f =
        if len = 0 ∨ f.isCommentLine = true then .ret (-1) l1
        else if f.precedingBackslash = true then .ret ((len - 1 : Nat) : Int) l1
        else .ret (len : Int) l1 := by
  have hp : l.pending = [] := by
    unfold LineReader.stream at hs
    exact (List.append_eq_nil.mp hs).1
  have hj : l.reader.flatten = [] := by
    unfold LineReader.stream at hs
    exact (List.append_eq_nil.mp hs).2
  have hr : l.reader = [] := by
    cases hr : l.reader with
    | nil => rfl
    | cons ch rs =>
      exfalso
      have := hwf.chunks_ne ch (by simp [hr])
      rw [hr] at hj
      simp at hj
      exact this hj.1
  have hle : l.inLimit ≤ l.inOff := by
    by_contra hlt
    obtain ⟨c', _, hp'⟩ := pending_of_lt l hwf (Nat.not_le.mp hlt)
    rw [hp] at hp'
    simp at hp'
  refine ⟨{ l with inLimit := 0, inOff := 0 }, ⟨by simp, hwf.buf_pos, hwf.chunks_ne⟩, ?_, rfl, ?_⟩
  · simp [LineReader.stream, LineReader.pending, hr]
  · intro len f
    simp [readLineIter, hle, fill_nil l hr]

/-! ## The line reader: one byte at a time -/

theorem Flags.init_eq : Flags.init = Flags.fresh false := rfl

theorem pushByte_length (lineBuf : List Nat) (len c : Nat) (h : len < lineBuf.length) :
    len + 1 < (pushByte lineBuf len c).length := by
  unfold pushByte
  split_ifs with h1
  · simp at h1 ⊢
    omega
  · simp at h1 ⊢
    omega

theorem take_set_self (l : List Nat) (n a : Nat) : (l.set n a).take n = l.take n := by
  apply List.ext_getElem?
  intro i
  rw [List.getElem?_take, List.getElem?_take]
  split
  · next h' => rw [List.getElem?_set_ne (by omega)]
  · rfl

theorem pushByte_take (lineBuf : List Nat) (len c : Nat) (h : len < lineBuf.length) :
    (pushByte lineBuf len c).take (len + 1) = lineBuf.take len ++ [c] := by
  have h2 : (lineBuf.set len c).take (len + 1) = lineBuf.take len ++ [c] := by
    rw [List.take_succ, take_set_self]
    simp [List.getElem?_set, h]
  unfold pushByte
  split_ifs with h1
  · rw [List.take_append_of_le_length (by simp; omega)]
    exact h2
  · exact h2

theorem readLineByte_ws (c : Nat) (l : LineReader) (len : Nat) (pb : Bool)
    (h : c = 32 ∨ c = 9 ∨ c = 12 ∨ c = 10 ∨ c = 13) :
    readLineByte c l len (Flags.fresh pb) = .next l len (Flags.fresh pb) := by
  rcases h with h | h | h | h | h <;> subst h <;> simp [readLineByte, Flags.fresh]

theorem readLineByte_mark (c : Nat) (l : LineReader) (len : Nat) (pb : Bool)
    (h : c = 35 ∨ c = 33) :
    readLineByte c l len (Flags.fresh pb) = .next l len (Flags.inLine true pb) := by
  rcases h with h | h <;> subst h <;> simp [readLineByte, Flags.fresh, Flags.inLine]

theorem readLineByte_start (c : Nat) (l : LineReader) (len : Nat) (pb : Bool)
    (h : c ≠ 32 ∧ c ≠ 9 ∧ c ≠ 12 ∧ c ≠ 10 ∧ c ≠ 13 ∧ c ≠ 35 ∧ c ≠ 33)
    (hlen : len < l.lineBuf.length) :
    readLineByte c l len (Flags.fresh pb)
      = .next { l with lineBuf := pushByte l.lineBuf len c } (len + 1)
          (Flags.inLine false (if c = 92 then !pb else false)) := by
  obtain ⟨h1, h2, h3, h4, h5, h6, h7⟩ := h
  simp [readLineByte, Flags.fresh, Flags.inLine, pushByte, h1, h2, h3, h4, h5, h6, h7, hlen]

theorem readLineByte_append (c : Nat) (l : LineReader) (len : Nat) (cm pb : Bool)
    (h : c ≠ 10 ∧ c ≠ 13) (hlen : len < l.lineBuf.length) :
    readLineByte c l len (Flags.inLine cm pb)
      = .next { l with lineBuf := pushByte l.lineBuf len c } (len + 1)
          (Flags.inLine cm (if c = 92 then !pb else false)) := by
  obtain ⟨h4, h5⟩ := h
  simp [readLineByte, Flags.inLine, pushByte, h4, h5, hlen]

theorem readLineByte_reset (c : Nat) (l : LineReader) (len : Nat) (cm pb : Bool)
    (h : c = 10 ∨ c = 13) (hr : cm = true ∨ len = 0) :
    readLineByte c l len (Flags.inLine cm pb) = .next l 0 (Flags.fresh pb) := by
  rcases h with h | h <;> subst h <;> rcases hr with hr | hr <;> subst hr <;>
    simp [readLineByte, Flags.fresh, Flags.inLine]

theorem readLineByte_return (c : Nat) (l : LineReader) (len : Nat)
    (h : c = 10 ∨ c = 13) (hr : len ≠ 0) :
    readLineByte c l len (Flags.inLine false false)
      = .ret (len : Int) (if l.inOff ≥ l.inLimit then (fill l).1 else l) := by
  rcases h with h | h <;> subst h <;>
    by_cases hge : l.inOff ≥ l.inLimit <;>
    simp [readLineByte, Flags.inLine, eolTail, hr, hge]

/-- The state in which `readLine` returns at a line terminator: a refill may have
taken place, the stream is the same. -/
theorem refill_stream (l : LineReader) (hwf : l.WF) :
    (if l.inOff ≥ l.inLimit then (fill l).1 else l).WF ∧
    (if l.inOff ≥ l.inLimit then (fill l).1 else l).stream = l.stream ∧
    (if l.inOff ≥ l.inLimit then (fill l).1 else l).lineBuf = l.lineBuf := by
  by_cases hge : l.inOff ≥ l.inLimit
  · simp only [hge, if_true]
    cases hr : l.reader with
    | nil =>
      rw [fill_nil l hr]
      refine ⟨⟨by simp, hwf.buf_pos, hwf.chunks_ne⟩, ?_, rfl⟩
      have hp := pending_of_le l hge
      simp [LineReader.stream, hp, hr]
      simp [LineReader.pending]
    | cons ch rs =>
      obtain ⟨_, hwf', hs', hlb, _⟩ := fill_cons l hwf ch rs hr
      refine ⟨hwf', ?_, hlb⟩
      rw [hs']
      simp [LineReader.stream, pending_of_le l hge, hr]
  · simp only [hge, if_false]
    exact ⟨hwf, trivial, trivial⟩

theorem avail_eq (l : LineReader) (hwf : l.WF) : l.avail = l.stream.length := by
  unfold LineReader.avail LineReader.stream LineReader.pending
  simp [List.length_flatten]
  have := hwf.limit_le
  omega

/-! ## The line reader: runs of bytes -/

theorem WF_lineBuf (l : LineReader) (b : List Nat) (h : l.WF) :
    ({ l with lineBuf := b } : LineReader).WF := ⟨h.limit_le, h.buf_pos, h.chunks_ne⟩

theorem stream_lineBuf (l : LineReader) (b : List Nat) :
    ({ l with lineBuf := b } : LineReader).stream = l.stream := rfl

theorem readLineLoop_cons (l : LineReader) (hwf : l.WF) (c : Nat) (rest : List Nat)
    (hs : l.stream = c :: rest) :
    ∃ l1 : LineReader, l1.WF ∧ l1.stream = rest ∧ l1.lineBuf = l.lineBuf ∧
      ∀ fuel len f, readLineLoop (fuel + 1) l len f =
        match readLineByte c l1 len f with
        | .next l len f => readLineLoop fuel l len f
        | .ret n l => .ok (n, l)
        | .fault e => .error e := by
  obtain ⟨l1, h1, h2, h3, h4⟩ := readLineIter_cons l hwf c rest hs
  refine ⟨l1, h1, h2, h3, fun fuel len f => ?_⟩
  rw [readLineLoop, h4]
  try (cases readLineByte c l1 len f <;> rfl)

theorem readLineLoop_nil (l : LineReader) (hwf : l.WF) (hs : l.stream = []) :
    ∃ l1 : LineReader, l1.WF ∧ l1.stream = [] ∧ l1.lineBuf = l.lineBuf ∧
      ∀ fuel len f, readLineLoop (fuel + 1) l len f =
        if len = 0 ∨ f.isCommentLine = true then .ok (-1, l1)
        else if f.precedingBackslash = true then .ok (((len - 1 : Nat) : Int), l1)
        else .ok ((len : Int), l1) := by
  obtain ⟨l1, h1, h2, h3, h4⟩ := readLineIter_nil l hwf hs
  refine ⟨l1, h1, h2, h3, fun fuel len f => ?_⟩
  rw [readLineLoop, h4]
  split_ifs <;> rfl

theorem readLineLoop_skipRun (rest : List Nat) :
    ∀ (xs : List Nat) (s : Bool) (l : LineReader) (len : Nat) (pb s' : Bool),
      l.WF → l.stream = xs ++ rest → skipRun s xs = some s' → len < l.lineBuf.length →
      (s = false → len = 0) →
      ∃ (l' : LineReader) (len' : Nat) (pb' : Bool), l'.WF ∧ l'.stream = rest ∧
        len' < l'.lineBuf.length ∧ (s' = false → len' = 0) ∧
        ∀ fuel, readLineLoop (fuel + xs.length) l len (skipFlags s pb)
          = readLineLoop fuel l' len' (skipFlags s' pb') := by
  intro xs
  induction xs with
  | nil =>
    intro s l len pb s' hwf hs hr hlen h0
    simp [skipRun] at hr
    subst hr
    exact ⟨l, len, pb, hwf, by simpa using hs, hlen, h0, fun fuel => rfl⟩
  | cons c xs ih =>
    intro s l len pb s' hwf hs hr hlen h0
    obtain ⟨l1, hwf1, hs1, hlb1, hstep⟩ := readLineLoop_cons l hwf c (xs ++ rest) (by simpa using hs)
    cases s with
    | false =>
      have hl0 := h0 rfl
      subst hl0
      by_cases hws : c = 32 ∨ c = 9 ∨ c = 12 ∨ c = 10 ∨ c = 13
      · simp only [skipRun, hws, if_true] at hr
        obtain ⟨l', len', pb', h1, h2, h3, h4, h5⟩ :=
          ih false l1 0 pb s' hwf1 hs1 hr (by rw [hlb1]; exact hlen) (fun _ => rfl)
        refine ⟨l', len', pb', h1, h2, h3, h4, fun fuel => ?_⟩
        rw [List.length_cons, ← Nat.add_assoc, hstep]
        simp only [skipFlags, Bool.false_eq_true, if_false]
        rw [readLineByte_ws c l1 0 pb hws]
        simpa [skipFlags] using h5 fuel
      · by_cases hm : c = 35 ∨ c = 33
        · simp only [skipRun, hws, hm, if_true, if_false] at hr
          obtain ⟨l', len', pb', h1, h2, h3, h4, h5⟩ :=
            ih true l1 0 pb s' hwf1 hs1 hr (by rw [hlb1]; exact hlen) (by simp)
          refine ⟨l', len', pb', h1, h2, h3, h4, fun fuel => ?_⟩
          rw [List.length_cons, ← Nat.add_assoc, hstep]
          simp only [skipFlags, Bool.false_eq_true, if_false]
          rw [readLineByte_mark c l1 0 pb hm]
          simpa [skipFlags] using h5 fuel
        · simp [skipRun, hws, hm] at hr
    | true =>
      by_cases hnl : c = 10 ∨ c = 13
      · simp only [skipRun, hnl, if_true] at hr
        obtain ⟨l', len', pb', h1, h2, h3, h4, h5⟩ :=
          ih false l1 0 pb s' hwf1 hs1 hr (by rw [hlb1]; omega) (fun _ => rfl)
        refine ⟨l', len', pb', h1, h2, h3, h4, fun fuel => ?_⟩
        rw [List.length_cons, ← Nat.add_assoc, hstep]
        simp only [skipFlags, if_true]
        rw [readLineByte_reset c l1 len true pb hnl (Or.inl rfl)]
        simpa [skipFlags] using h5 fuel
      · simp only [skipRun, hnl, if_false] at hr
        have hlen1 : len < l1.lineBuf.length := by rw [hlb1]; exact hlen
        obtain ⟨l', len', pb', h1, h2, h3, h4, h5⟩ :=
          ih true { l1 with lineBuf := pushByte l1.lineBuf len c } (len + 1)
            (if c = 92 then !pb else false) s' (WF_lineBuf l1 _ hwf1)
            (by rw [stream_lineBuf]; exact hs1) hr (pushByte_length _ _ _ hlen1) (by simp)
        refine ⟨l', len', pb', h1, h2, h3, h4, fun fuel => ?_⟩
        rw [List.length_cons, ← Nat.add_assoc, hstep]
        simp only [skipFlags, if_true]
        rw [readLineByte_append c l1 len true pb (by omega) hlen1]
        simpa [skipFlags] using h5 fuel

theorem skipRun_append (xs ys : List Nat) :
    ∀ s, skipRun s (xs ++ ys) = (skipRun s xs).bind (fun s' => skipRun s' ys) := by
  induction xs with
  | nil => intro s; cases s <;> simp [skipRun]
  | cons c xs ih =>
    intro s
    cases s
    · simp only [List.cons_append, skipRun]
      split_ifs <;> simp [ih]
    · simp only [List.cons_append, skipRun]
      split_ifs <;> simp [ih]

/-- Appending a run of bytes that holds no line terminator. -/
theorem readLineLoop_append (rest : List Nat) :
    ∀ (body : List Nat) (l : LineReader) (len : Nat) (cm pb : Bool),
      l.WF → l.stream = body ++ rest → (∀ b ∈ body, b ≠ 10 ∧ b ≠ 13) → len < l.lineBuf.length →
      ∃ l' : LineReader, l'.WF ∧ l'.stream = rest ∧ len + body.length < l'.lineBuf.length ∧
        l'.lineBuf.take (len + body.length) = l.lineBuf.take len ++ body ∧
        ∀ fuel, readLineLoop (fuel + body.length) l len (Flags.inLine cm pb)
          = readLineLoop fuel l' (len + body.length) (Flags.inLine cm (bsFlag pb body)) := by
  intro body
  induction body with
  | nil =>
    intro l len cm pb hwf hs _ hlen
    exact ⟨l, hwf, by simpa using hs, by simpa using hlen, by simp, fun fuel => rfl⟩
  | cons c body ih =>
    intro l len cm pb hwf hs hb hlen
    obtain ⟨l1, hwf1, hs1, hlb1, hstep⟩ :=
      readLineLoop_cons l hwf c (body ++ rest) (by simpa using hs)
    have hlen1 : len < l1.lineBuf.length := by rw [hlb1]; exact hlen
    obtain ⟨l', h1, h2, h3, h4, h5⟩ :=
      ih { l1 with lineBuf := pushByte l1.lineBuf len c } (len + 1) cm
        (if c = 92 then !pb else false) (WF_lineBuf l1 _ hwf1)
        (by rw [stream_lineBuf]; exact hs1) (fun b hb' => hb b (by simp [hb']))
        (pushByte_length _ _ _ hlen1)
    refine ⟨l', h1, h2, ?_, ?_, fun fuel => ?_⟩
    · simp only [List.length_cons]; omega
    · have e : len + (c :: body).length = len + 1 + body.length := by
        simp only [List.length_cons]; omega
      rw [e, h4]
      show List.take (len + 1) (pushByte l1.lineBuf len c) ++ body = _
      rw [pushByte_take _ _ _ hlen1, hlb1]
      simp
    · have e : len + (c :: body).length = len + 1 + body.length := by
        simp only [List.length_cons]; omega
      have e2 : fuel + (c :: body).length = fuel + body.length + 1 := by
        simp only [List.length_cons]; omega
      rw [e2, hstep, e]
      rw [readLineByte_append c l1 len cm pb (hb c (by simp)) hlen1]
      simpa [bsFlag] using h5 fuel

/-! ## The line reader: whole logical lines -/

/-- The loop from the first byte of a logical line to the terminator that ends it. -/
theorem readLineLoop_line (l : LineReader) (hwf : l.WF) (hbuf : 0 < l.lineBuf.length)
    (c : Nat) (body rest : List Nat) (t : Nat) (pb : Bool)
    (hs : l.stream = (c :: body) ++ t :: rest) (hc : lineStart c)
    (hbody : ∀ b ∈ body, b ≠ 10 ∧ b ≠ 13) (ht : t = 10 ∨ t = 13)
    (hpb : bsFlag pb (c :: body) = false) :
    ∃ l' : LineReader, l'.WF ∧ l'.stream = rest ∧ (c :: body).length < l'.lineBuf.length ∧
      l'.lineBuf.take (c :: body).length = c :: body ∧
      ∀ fuel, readLineLoop (fuel + 1 + body.length + 1) l 0 (Flags.fresh pb)
        = .ok (((c :: body).length : Int), l') := by
  obtain ⟨l1, hwf1, hs1, hlb1, hstep1⟩ :=
    readLineLoop_cons l hwf c (body ++ t :: rest) (by simpa using hs)
  have hlen1 : 0 < l1.lineBuf.length := by rw [hlb1]; exact hbuf
  obtain ⟨l2, hwf2, hs2, hlen2, htake2, hstep2⟩ :=
    readLineLoop_append (t :: rest) body { l1 with lineBuf := pushByte l1.lineBuf 0 c } (0 + 1)
      false (if c = 92 then !pb else false) (WF_lineBuf l1 _ hwf1)
      (by rw [stream_lineBuf]; exact hs1) hbody (pushByte_length _ _ _ hlen1)
  obtain ⟨l3, hwf3, hs3, hlb3, hstep3⟩ := readLineLoop_cons l2 hwf2 t rest hs2
  obtain ⟨hwf4, hs4, hlb4⟩ := refill_stream l3 hwf3
  refine ⟨_, hwf4, by rw [hs4, hs3], ?_, ?_, fun fuel => ?_⟩
  · rw [hlb4, hlb3]
    simp only [List.length_cons]
    omega
  · rw [hlb4, hlb3]
    have e : (c :: body).length = 0 + 1 + body.length := by simp only [List.length_cons]; omega
    rw [e, htake2]
    show List.take (0 + 1) (pushByte l1.lineBuf 0 c) ++ body = _
    rw [pushByte_take _ _ _ hlen1]
    simp
  · have e : fuel + 1 + body.length + 1 = (fuel + 1 + body.length) + 1 := rfl
    rw [e, hstep1, readLineByte_start c l1 0 pb hc hlen1]
    simp only []
    rw [hstep2 (fuel + 1), hstep3]
    have hpb' : bsFlag (if c = 92 then !pb else false) body = false := by
      simpa [bsFlag] using hpb
    rw [hpb', readLineByte_return t l3 (0 + 1 + body.length) ht (by omega)]
    simp only [List.length_cons]
    congr 2
    push_cast
    omega

/-- The loop from the first byte of a logical line that the end of input ends. -/
theorem readLineLoop_last (l : LineReader) (hwf : l.WF) (hbuf : 0 < l.lineBuf.length)
    (c : Nat) (body : List Nat) (pb : Bool)
    (hs : l.stream = c :: body) (hc : lineStart c)
    (hbody : ∀ b ∈ body, b ≠ 10 ∧ b ≠ 13)
    (hpb : bsFlag pb (c :: body) = false) :
    ∃ l' : LineReader, l'.WF ∧ l'.stream = [] ∧ (c :: body).length < l'.lineBuf.length ∧
      l'.lineBuf.take (c :: body).length = c :: body ∧
      ∀ fuel, readLineLoop (fuel + 1 + body.length + 1) l 0 (Flags.fresh pb)
        = .ok (((c :: body).length : Int), l') := by
  obtain ⟨l1, hwf1, hs1, hlb1, hstep1⟩ :=
    readLineLoop_cons l hwf c (body ++ []) (by simpa using hs)
  have hlen1 : 0 < l1.lineBuf.length := by rw [hlb1]; exact hbuf
  obtain ⟨l2, hwf2, hs2, hlen2, htake2, hstep2⟩ :=
    readLineLoop_append [] body { l1 with lineBuf := pushByte l1.lineBuf 0 c } (0 + 1)
      false (if c = 92 then !pb else false) (WF_lineBuf l1 _ hwf1)
      (by rw [stream_lineBuf]; exact hs1) hbody (pushByte_length _ _ _ hlen1)
  obtain ⟨l3, hwf3, hs3, hlb3, hstep3⟩ := readLineLoop_nil l2 hwf2 hs2
  refine ⟨l3, hwf3, hs3, ?_, ?_, fun fuel => ?_⟩
  · rw [hlb3]
    simp only [List.length_cons]
    omega
  · rw [hlb3]
    have e : (c :: body).length = 0 + 1 + body.length := by simp only [List.length_cons]; omega
    rw [e, htake2]
    show List.take (0 + 1) (pushByte l1.lineBuf 0 c) ++ body = _
    rw [pushByte_take _ _ _ hlen1]
    simp
  · have e : fuel + 1 + body.length + 1 = (fuel + 1 + body.length) + 1 := rfl
    rw [e, hstep1, readLineByte_start c l1 0 pb hc hlen1]
    simp only []
    rw [hstep2 (fuel + 1), hstep3]
    have hpb' : bsFlag (if c = 92 then !pb else false) body = false := by
      simpa [bsFlag] using hpb
    rw [hpb']
    simp [Flags.inLine]
    omega

/-- The call `readLine` when a logical line follows lines that yield none:
it returns the line, and leaves the rest of the stream. -/
theorem readLine_line (l : LineReader) (hwf : l.WF) (hbuf : 0 < l.lineBuf.length)
    (skip : List Nat) (c : Nat) (body rest : List Nat) (t : Nat)
    (hs : l.stream = skip ++ (c :: body) ++ t :: rest)
    (hskip : skipRun false skip = some false) (hc : lineStart c)
    (hbody : ∀ b ∈ body, b ≠ 10 ∧ b ≠ 13) (ht : t = 10 ∨ t = 13)
    (hpb : ∀ pb, bsFlag pb (c :: body) = false) :
    ∃ l' : LineReader, readLine l = .ok (((c :: body).length : Int), l') ∧
      l'.WF ∧ l'.stream = rest ∧ (c :: body).length < l'.lineBuf.length ∧
      l'.lineBuf.take (c :: body).length = c :: body := by
  obtain ⟨l1, len1, pb1, hwf1, hs1, hlen1, h01, hstep1⟩ :=
    readLineLoop_skipRun ((c :: body) ++ t :: rest) skip false l 0 false false hwf
      (by rw [hs]; simp) hskip hbuf (fun _ => rfl)
  have h0 := h01 rfl
  subst h0
  obtain ⟨l2, hwf2, hs2, hlen2, htake2, hstep2⟩ :=
    readLineLoop_line l1 hwf1 hlen1 c body rest t pb1 hs1 hc hbody ht (hpb pb1)
  refine ⟨l2, ?_, hwf2, hs2, hlen2, htake2⟩
  unfold readLine
  rw [avail_eq l hwf, hs, Flags.init_eq]
  have e : (skip ++ (c :: body) ++ t :: rest).length + 1
      = (rest.length + 1 + 1 + body.length + 1) + skip.length := by
    simp only [List.length_append, List.length_cons]
    omega
  rw [e]
  have := hstep1 (rest.length + 1 + 1 + body.length + 1)
  simp only [skipFlags, Bool.false_eq_true, if_false] at this
  rw [this, hstep2]

/-- The call `readLine` when the last logical line has no terminator. -/
theorem readLine_last (l : LineReader) (hwf : l.WF) (hbuf : 0 < l.lineBuf.length)
    (skip : List Nat) (c : Nat) (body : List Nat)
    (hs : l.stream = skip ++ (c :: body))
    (hskip : skipRun false skip = some false) (hc : lineStart c)
    (hbody : ∀ b ∈ body, b ≠ 10 ∧ b ≠ 13)
    (hpb : ∀ pb, bsFlag pb (c :: body) = false) :
    ∃ l' : LineReader, readLine l = .ok (((c :: body).length : Int), l') ∧
      l'.WF ∧ l'.stream = [] ∧ (c :: body).length < l'.lineBuf.length ∧
      l'.lineBuf.take (c :: body).length = c :: body := by
  obtain ⟨l1, len1, pb1, hwf1, hs1, hlen1, h01, hstep1⟩ :=
    readLineLoop_skipRun (c :: body) skip false l 0 false false hwf
      hs hskip hbuf (fun _ => rfl)
  have h0 := h01 rfl
  subst h0
  obtain ⟨l2, hwf2, hs2, hlen2, htake2, hstep2⟩ :=
    readLineLoop_last l1 hwf1 hlen1 c body pb1 hs1 hc hbody (hpb pb1)
  refine ⟨l2, ?_, hwf2, hs2, hlen2, htake2⟩
  unfold readLine
  rw [avail_eq l hwf, hs, Flags.init_eq]
  have e : (skip ++ (c :: body)).length + 1
      = (0 + 1 + body.length + 1) + skip.length := by
    simp only [List.length_append, List.length_cons]
    omega
  rw [e]
  have := hstep1 (0 + 1 + body.length + 1)
  simp only [skipFlags, Bool.false_eq_true, if_false] at this
  rw [this, hstep2]

/-- The call `readLine` when no logical line is left: it returns -1. -/
theorem readLine_eof (l : LineReader) (hwf : l.WF) (hbuf : 0 < l.lineBuf.length)
    (skip : List Nat) (s : Bool) (hs : l.stream = skip) (hskip : skipRun false skip = some s) :
    ∃ l' : LineReader, readLine l = .ok (-1, l') ∧ l'.WF ∧ l'.stream = [] ∧
      0 < l'.lineBuf.length := by
  obtain ⟨l1, len1, pb1, hwf1, hs1, hlen1, h01, hstep1⟩ :=
    readLineLoop_skipRun [] skip false l 0 false s hwf (by simpa using hs) hskip hbuf
      (fun _ => rfl)
  obtain ⟨l2, hwf2, hs2, hlb2, hstep2⟩ := readLineLoop_nil l1 hwf1 hs1
  refine ⟨l2, ?_, hwf2, hs2, by rw [hlb2]; omega⟩
  unfold readLine
  rw [avail_eq l hwf, hs, Flags.init_eq]
  have e : skip.length + 1 = (0 + 1) + skip.length := by omega
  rw [e]
  have := hstep1 (0 + 1)
  simp only [skipFlags, Bool.false_eq_true, if_false] at this
  rw [this, hstep2]
  cases s
  · have := h01 rfl
    subst this
    simp
  · simp [skipFlags, Flags.inLine]

/-! ## load0: splitting a logical line -/

theorem getD_append_stale (ln stale : List Nat) (i : Nat) (h : i < ln.length) :
    (ln ++ stale).getD i 0 = ln[i] := by
  rw [List.getD_eq_getElem?_getD, List.getElem?_append_left h, List.getElem?_eq_getElem h]
  rfl

theorem keyScan_eq (ln stale : List Nat) :
    ∀ (fuel keyLen : Nat) (pb : Bool), ln.length - keyLen ≤ fuel →
      keyScan (ln ++ stale) ln.length fuel keyLen pb
        = (keyLen + (keySpan pb (ln.drop keyLen)).1,
            (match (keySpan pb (ln.drop keyLen)).2 with
              | none => ln.length
              | some _ => keyLen + (keySpan pb (ln.drop keyLen)).1 + 1),
            (keySpan pb (ln.drop keyLen)).2.getD false) := by
  intro fuel
  induction fuel with
  | zero =>
    intro keyLen pb hf
    have : ln.drop keyLen = [] := List.drop_eq_nil_of_le (by omega)
    simp [keyScan, this, keySpan]
  | succ fuel ih =>
    intro keyLen pb hf
    by_cases hlt : keyLen < ln.length
    · have hd : ln.drop keyLen = ln[keyLen] :: ln.drop (keyLen + 1) :=
        List.drop_eq_getElem_cons hlt
      rw [keyScan, if_pos hlt, getD_append_stale ln stale keyLen hlt, hd, keySpan]
      simp only [ih (keyLen + 1) _ (show ln.length - (keyLen + 1) ≤ fuel by omega)]
      generalize keySpan (if ln[keyLen] = 92 then !pb else false) (List.drop (keyLen + 1) ln) = r
      obtain ⟨n, o⟩ := r
      split_ifs
      · simp
      · simp
      · cases o <;> simp <;> omega
    · have : ln.drop keyLen = [] := List.drop_eq_nil_of_le (by omega)
      simp [keyScan, hlt, this, keySpan]

theorem valueScan_eq (ln stale : List Nat) :
    ∀ (fuel valueStart : Nat) (hs : Bool), ln.length - valueStart ≤ fuel →
      valueScan (ln ++ stale) ln.length fuel valueStart hs
        = valueStart + valueSkip hs (ln.drop valueStart) := by
  intro fuel
  induction fuel with
  | zero =>
    intro vs hs hf
    have : ln.drop vs = [] := List.drop_eq_nil_of_le (by omega)
    simp [valueScan, this, valueSkip]
  | succ fuel ih =>
    intro vs hs hf
    by_cases hlt : vs < ln.length
    · have hd : ln.drop vs = ln[vs] :: ln.drop (vs + 1) :=
        List.drop_eq_getElem_cons hlt
      rw [valueScan, if_pos hlt, getD_append_stale ln stale vs hlt, hd, valueSkip]
      simp only [ih (vs + 1) _ (show ln.length - (vs + 1) ≤ fuel by omega)]
      split_ifs <;> omega
    · have : ln.drop vs = [] := List.drop_eq_nil_of_le (by omega)
      simp [valueScan, hlt, this, valueSkip]

theorem keySpan_append (rest : List Nat) :
    ∀ (xs : List Nat) (pb : Bool), noSep pb xs →
      keySpan pb (xs ++ rest)
        = (xs.length + (keySpan (bsFlag pb xs) rest).1, (keySpan (bsFlag pb xs) rest).2) := by
  intro xs
  induction xs with
  | nil => intro pb _; simp [bsFlag]
  | cons c xs ih =>
    intro pb h
    obtain ⟨h1, h2⟩ := h
    have h3 : ¬ ((c = 61 ∨ c = 58) ∧ pb = false) := fun h => h1 ⟨by tauto, h.2⟩
    have h4 : ¬ ((c = 32 ∨ c = 9 ∨ c = 12) ∧ pb = false) := fun h => h1 ⟨by tauto, h.2⟩
    simp only [List.cons_append, keySpan, h3, h4, if_false, List.append_eq]
    rw [ih _ h2]
    simp only [bsFlag, List.foldl_cons, List.length_cons, Prod.mk.injEq, and_true]
    omega

theorem valueSkip_ws (rest : List Nat) (hs : Bool) :
    ∀ (w : List Nat), (∀ b ∈ w, b = 32 ∨ b = 9 ∨ b = 12) →
      valueSkip hs (w ++ rest) = w.length + valueSkip hs rest := by
  intro w
  induction w with
  | nil => intro _; simp
  | cons c w ih =>
    intro h
    have hc : ¬ (c ≠ 32 ∧ c ≠ 9 ∧ c ≠ 12) := by
      have := h c (by simp)
      omega
    simp only [List.cons_append, valueSkip, hc, if_false, List.append_eq]
    rw [ih (fun b hb => h b (by simp [hb]))]
    simp only [List.length_cons]
    omega

/-- Decoding a run without backslash returns it unchanged. -/
theorem loadConvertLoop_noBackslash (inp rest : List Nat) (end_ : Nat) :
    ∀ (xs : List Nat) (fuel off : Nat) (out : List Nat), (∀ b ∈ xs, b ≠ 92) →
      inp.drop off = xs ++ rest → end_ = off + xs.length → xs.length ≤ fuel →
      loadConvertLoop inp end_ fuel off out = .ok (out ++ xs) := by
  intro xs
  induction xs with
  | nil =>
    intro fuel off out _ _ he _
    rw [loadConvertLoop_done inp end_ fuel off out (by simp at he; omega)]
    simp
  | cons c xs ih =>
    intro fuel off out hb hd he hf
    simp only [List.length_cons] at he hf
    obtain ⟨fuel, rfl⟩ : ∃ k, fuel = k + 1 := ⟨fuel - 1, by omega⟩
    have g0 := getElem?_of_drop hd 0
    simp at g0
    rw [loadConvertLoop_plain inp end_ fuel off c out g0 (hb c (by simp)) (by omega)]
    rw [ih fuel (off + 1) _ (fun b hb' => hb b (by simp [hb'])) ?_ (by omega) (by omega)]
    · simp
    · have := congrArg (List.drop 1) hd
      rw [List.drop_drop] at this
      rw [this]
      simp

theorem loadConvert_noBackslash (pre xs rest : List Nat) (h : ∀ b ∈ xs, b ≠ 92) :
    loadConvert (pre ++ xs ++ rest) pre.length xs.length = .ok xs := by
  unfold loadConvert
  rw [loadConvertLoop_noBackslash (pre ++ xs ++ rest) rest _ xs _ _ [] h (by simp) rfl (le_refl _)]
  simp

theorem keySpan_zero_none (pb : Bool) (xs : List Nat) (h1 : (keySpan pb xs).1 = 0)
    (h2 : (keySpan pb xs).2 = none) : xs = [] := by
  cases xs with
  | nil => rfl
  | cons c xs =>
    exfalso
    simp only [keySpan] at h1 h2
    split_ifs at h1 h2 <;> simp at h1 h2

/-- The body of the loop of `load0` on a line made of a key part, a separator and a
value part. -/
theorem loadLine_split (lr : LineReader) (p : Props) (kx sx vx stale key value : List Nat)
    (hbuf : lr.lineBuf = kx ++ sx ++ vx ++ stale)
    (hk : noSep false kx) (hkb : bsFlag false kx = false)
    (hs0 : (keySpan false (sx ++ vx)).1 = 0) (hs1 : sepLen (sx ++ vx) = sx.length)
    (hkey : loadConvert lr.lineBuf 0 kx.length = .ok key)
    (hval : loadConvert lr.lineBuf (kx.length + sx.length) vx.length = .ok value) :
    loadLine lr (kx.length + sx.length + vx.length) p = .ok (p.Put (.str key) (.str value)).2 := by
  have hlen : (kx ++ sx ++ vx).length = kx.length + sx.length + vx.length := by
    simp only [List.length_append]
  have hks : keySpan false (kx ++ sx ++ vx)
      = (kx.length + (keySpan false (sx ++ vx)).1, (keySpan false (sx ++ vx)).2) := by
    rw [List.append_assoc, keySpan_append (sx ++ vx) kx false hk, hkb]
  have hscan := keyScan_eq (kx ++ sx ++ vx) stale (kx ++ sx ++ vx).length 0 false (by omega)
  rw [List.drop_zero, hks, hs0] at hscan
  simp only [Nat.zero_add, Nat.add_zero] at hscan
  unfold loadLine
  rw [← hlen]
  simp only [hbuf] at hkey hval ⊢
  rw [hscan]
  simp only []
  rw [valueScan_eq (kx ++ sx ++ vx) stale (kx ++ sx ++ vx).length _ _ (by omega)]
  cases ho : (keySpan false (sx ++ vx)).2 with
  | none =>
    have hnil := keySpan_zero_none false (sx ++ vx) hs0 ho
    have hsx : sx = [] := (List.append_eq_nil.mp hnil).1
    have hvx : vx = [] := (List.append_eq_nil.mp hnil).2
    subst hsx hvx
    simp only [List.append_nil, List.drop_length, valueSkip, Nat.add_zero, Nat.sub_self,
      List.length_nil, Option.getD_none] at hkey hval ⊢
    rw [hkey]
    simp only []
    rw [hval]
  | some hs =>
    have hd : (kx ++ sx ++ vx).drop (kx.length + 1) = (sx ++ vx).drop 1 := by
      rw [List.append_assoc, ← List.drop_drop, List.drop_left]
    have hsl : 1 + valueSkip hs ((sx ++ vx).drop 1) = sx.length := by
      rw [← hs1, sepLen, ho]
    simp only [Option.getD_some, hd]
    have e1 : kx.length + 1 + valueSkip hs ((sx ++ vx).drop 1) = kx.length + sx.length := by omega
    have e2 : (kx ++ sx ++ vx).length - (kx.length + sx.length) = vx.length := by
      rw [hlen]; omega
    rw [e1, e2, hkey]
    simp only []
    rw [hval]

theorem valueSkip_plain (hs : Bool) (v : List Nat) (hv : ∀ b ∈ v, plainByte b) :
    valueSkip hs v = 0 := by
  cases v with
  | nil => rfl
  | cons c v =>
    have := hv c (by simp)
    unfold plainByte at this
    simp only [valueSkip]
    rw [if_pos (by omega), if_neg (by omega)]

theorem keySpan_sep (sep v : List Nat) (hsep : IsSeparator sep) (hv : ∀ b ∈ v, plainByte b) :
    (keySpan false (sep ++ v)).1 = 0 ∧ sepLen (sep ++ v) = sep.length := by
  rcases hsep with ⟨hne, hw⟩ | ⟨w1, s, w2, rfl, hs, hw1, hw2⟩
  · cases sep with
    | nil => exact absurd rfl hne
    | cons c w =>
      have hc := hw c (by simp)
      have hc1 : ¬ (c = 61 ∨ c = 58) := by omega
      have hww : ∀ b ∈ w, b = 32 ∨ b = 9 ∨ b = 12 := fun b hb => hw b (by simp [hb])
      simp [keySpan, sepLen, hc, hc1, valueSkip_ws v false w hww, valueSkip_plain false v hv]
      omega
  · cases w1 with
    | nil =>
      simp [keySpan, sepLen, hs, valueSkip_ws v true w2 hw2, valueSkip_plain true v hv]
      omega
    | cons c w1 =>
      have hc := hw1 c (by simp)
      have hc1 : ¬ (c = 61 ∨ c = 58) := by omega
      have hww : ∀ b ∈ w1, b = 32 ∨ b = 9 ∨ b = 12 := fun b hb => hw1 b (by simp [hb])
      have hs3 : ¬ (s ≠ 32 ∧ s ≠ 9 ∧ s ≠ 12) ∨ True := Or.inr trivial
      have e : valueSkip false (s :: (w2 ++ v)) = 1 + w2.length := by
        simp only [valueSkip]
        rw [if_pos (by omega), if_pos ⟨trivial, hs⟩, valueSkip_ws v true w2 hw2,
          valueSkip_plain true v hv]
        omega
      simp [keySpan, sepLen, hc, hc1]
      rw [valueSkip_ws (s :: (w2 ++ v)) false w1 hww, e]
      omega

theorem bsFlag_noBackslash (pb : Bool) (xs : List Nat) (hne : xs ≠ [])
    (h : ∀ b ∈ xs, b ≠ 92) : bsFlag pb xs = false := by
  induction xs generalizing pb with
  | nil => exact absurd rfl hne
  | cons c xs ih =>
    have hc := h c (by simp)
    cases xs with
    | nil => simp [bsFlag, hc]
    | cons d xs =>
      have := ih (if c = 92 then !pb else false) (by simp) (fun b hb => h b (by simp [hb]))
      simpa [bsFlag] using this

theorem noSep_plain (pb : Bool) (xs : List Nat) (h : ∀ b ∈ xs, plainByte b) : noSep pb xs := by
  induction xs generalizing pb with
  | nil => trivial
  | cons c xs ih =>
    have hc := h c (by simp)
    unfold plainByte at hc
    refine ⟨fun hh => ?_, ih _ (fun b hb => h b (by simp [hb]))⟩
    omega

/-! ## load0: the loop over the logical lines -/

theorem load0Loop_line (fuel : Nat) (lr lr' : LineReader) (p p' : Props) (n : Nat)
    (h : readLine lr = .ok ((n : Int), lr')) (hl : loadLine lr' n p = .ok p') :
    load0Loop (fuel + 1) lr p = load0Loop fuel lr' p' := by
  simp [load0Loop, h, hl]

theorem load0Loop_fault (fuel : Nat) (lr lr' : LineReader) (p : Props) (n : Nat) (e : Fault)
    (h : readLine lr = .ok ((n : Int), lr')) (hl : loadLine lr' n p = .error e) :
    load0Loop (fuel + 1) lr p = (some e, p) := by
  simp [load0Loop, h, hl]

theorem load0Loop_eof (fuel : Nat) (lr lr' : LineReader) (p : Props)
    (h : readLine lr = .ok (-1, lr')) :
    load0Loop (fuel + 1) lr p = (none, p) := by
  simp [load0Loop, h]

theorem NewLineReader_lineBuf (r : Reader) : 0 < (NewLineReader r).lineBuf.length := by
  simp only [NewLineReader, List.length_replicate]
  omega

theorem take_eq_append_stale (buf ln : List Nat) (n : Nat) (h : buf.take n = ln) :
    buf = ln ++ buf.drop n := by
  rw [← h, List.take_append_drop]

/-- Loading one line `k sep v`, with or without a line terminator, into `p`;
`skip` is what comes before the line and yields no logical line. -/
theorem load0_single (p : Props) (lr : LineReader) (hwf : lr.WF) (hbuf : 0 < lr.lineBuf.length)
    (skip k v sep term : List Nat) (hskip : skipRun false skip = some false)
    (hk : k ≠ []) (hkp : ∀ b ∈ k, plainByte b) (hk0 : ∀ c ∈ k.head?, c ≠ 35 ∧ c ≠ 33)
    (hvp : ∀ b ∈ v, plainByte b) (hsep : IsSeparator sep)
    (hterm : term = [] ∨ term = [10] ∨ term = [13] ∨ term = [13, 10])
    (hin : lr.stream = skip ++ k ++ sep ++ v ++ term) :
    load0 p lr = (none, (p.Put (.str k) (.str v)).2) := by
  obtain ⟨c, k', rfl⟩ : ∃ c k', k = c :: k' := by
    cases k with
    | nil => exact absurd rfl hk
    | cons c k' => exact ⟨c, k', rfl⟩
  have hcp := hkp c (by simp)
  have hc0 := hk0 c (by simp)
  have hstart : lineStart c := by
    unfold plainByte at hcp
    unfold lineStart
    omega
  have hsepb : ∀ b ∈ sep, b ≠ 10 ∧ b ≠ 13 ∧ b ≠ 92 := by
    intro b hb
    rcases hsep with ⟨_, hw⟩ | ⟨w1, s, w2, rfl, hs, hw1, hw2⟩
    · have := hw b hb; omega
    · simp at hb
      rcases hb with hb | rfl | hb
      · have := hw1 b hb; omega
      · omega
      · have := hw2 b hb; omega
  have hbody : ∀ b ∈ k' ++ sep ++ v, b ≠ 10 ∧ b ≠ 13 ∧ b ≠ 92 := by
    intro b hb
    simp at hb
    rcases hb with hb | hb | hb
    · have := hkp b (by simp [hb]); unfold plainByte at this; omega
    · exact hsepb b hb
    · have := hvp b hb; unfold plainByte at this; omega
  have hbody' : ∀ b ∈ k' ++ sep ++ v, b ≠ 10 ∧ b ≠ 13 := fun b hb => ⟨(hbody b hb).1, (hbody b hb).2.1⟩
  have hpb : ∀ pb, bsFlag pb (c :: (k' ++ sep ++ v)) = false := by
    intro pb
    apply bsFlag_noBackslash pb _ (by simp)
    intro b hb
    simp only [List.mem_cons] at hb
    rcases hb with rfl | hb
    · unfold plainByte at hcp; omega
    · exact (hbody b hb).2.2
  have hline : ∀ (l' : LineReader),
      (c :: (k' ++ sep ++ v)).length < l'.lineBuf.length →
      l'.lineBuf.take (c :: (k' ++ sep ++ v)).length = c :: (k' ++ sep ++ v) →
      loadLine l' (c :: (k' ++ sep ++ v)).length p = .ok (p.Put (.str (c :: k')) (.str v)).2 := by
    intro l' hlen htake
    have hb := take_eq_append_stale _ _ _ htake
    have hb2 : l'.lineBuf = (c :: k') ++ sep ++ v ++ l'.lineBuf.drop (c :: (k' ++ sep ++ v)).length := by
      rw [hb]
      simp
    obtain ⟨hs0, hs1⟩ := keySpan_sep sep v hsep hvp
    have e : (c :: (k' ++ sep ++ v)).length = (c :: k').length + sep.length + v.length := by
      simp only [List.length_cons, List.length_append]
      omega
    rw [e]
    apply loadLine_split l' p (c :: k') sep v _ (c :: k') v hb2
      (noSep_plain false _ hkp)
      (bsFlag_noBackslash false _ (by simp) (fun b hb => by
        have := hkp b hb; unfold plainByte at this; omega))
      hs0 hs1
    · rw [hb2]
      have := loadConvert_noBackslash [] (c :: k') (sep ++ v ++ l'.lineBuf.drop (c :: (k' ++ sep ++ v)).length)
        (fun b hb => by have := hkp b hb; unfold plainByte at this; omega)
      simpa using this
    · rw [hb2]
      have := loadConvert_noBackslash ((c :: k') ++ sep) v (l'.lineBuf.drop (c :: (k' ++ sep ++ v)).length)
        (fun b hb => by have := hvp b hb; unfold plainByte at this; omega)
      have e3 : ((c :: k') ++ sep).length = (c :: k').length + sep.length := by
        simp only [List.length_append]
      rw [e3] at this
      simpa using this
  have hav : lr.avail + 1 = (lr.avail - 1) + 1 + 1 := by
    have := avail_eq lr hwf
    rw [hin] at this
    simp only [List.length_append, List.length_cons] at this
    omega
  unfold load0
  rw [hav]
  have hin' : lr.stream = skip ++ (c :: (k' ++ sep ++ v)) ++ term := by
    rw [hin]; simp
  by_cases hte : term = []
  · subst hte
    obtain ⟨l', hrl, hwf', hs', hlen', htake'⟩ :=
      readLine_last lr hwf hbuf skip c (k' ++ sep ++ v) (by simpa using hin') hskip hstart hbody' hpb
    obtain ⟨l'', hrl2, -⟩ := readLine_eof l' hwf' (by omega) [] false hs' rfl
    rw [load0Loop_line _ lr l' p _ _ hrl (hline l' hlen' htake'), load0Loop_eof _ l' l'' _ hrl2]
  · obtain ⟨t, rest, rfl, ht, hrest⟩ : ∃ t rest, term = t :: rest ∧ (t = 10 ∨ t = 13) ∧
        (rest = [] ∨ rest = [10]) := by
      rcases hterm with h | h | h | h
      · exact absurd h hte
      · exact ⟨10, [], h, Or.inl rfl, Or.inl rfl⟩
      · exact ⟨13, [], h, Or.inr rfl, Or.inl rfl⟩
      · exact ⟨13, [10], h, Or.inr rfl, Or.inr rfl⟩
    obtain ⟨l', hrl, hwf', hs', hlen', htake'⟩ :=
      readLine_line lr hwf hbuf skip c (k' ++ sep ++ v) rest t hin' hskip hstart hbody' ht hpb
    have hskip : skipRun false rest = some false := by
      rcases hrest with rfl | rfl <;> simp [skipRun]
    obtain ⟨l'', hrl2, -⟩ := readLine_eof l' hwf' (by omega) rest false hs' hskip
    rw [load0Loop_line _ lr l' p _ _ hrl (hline l' hlen' htake'), load0Loop_eof _ l' l'' _ hrl2]

/-! ## Physical lines: content, comment and blank lines -/

theorem skipRun_ws (w : List Nat) (h : allWs w) : skipRun false w = some false := by
  induction w with
  | nil => rfl
  | cons c w ih =>
    have hc := h c (by simp)
    have : c = 32 ∨ c = 9 ∨ c = 12 ∨ c = 10 ∨ c = 13 := by omega
    simp only [skipRun, this, if_true]
    exact ih (fun b hb => h b (by simp [hb]))

theorem skipRun_text (xs : List Nat) (h : noEol xs) : skipRun true xs = some true := by
  induction xs with
  | nil => rfl
  | cons c xs ih =>
    have hc := h c (by simp)
    have : ¬ (c = 10 ∨ c = 13) := by omega
    simp only [skipRun, this, if_false]
    exact ih (fun b hb => h b (by simp [hb]))

theorem skipRun_terminator (s : Bool) (t : List Nat) (h : isTerminator t) :
    skipRun s t = some false := by
  rcases h with rfl | rfl | rfl <;> cases s <;> simp [skipRun]

theorem skipRun_blank (skip w t : List Nat) (hs : skipRun false skip = some false)
    (hw : allWs w) (ht : isTerminator t) : skipRun false (skip ++ (w ++ t)) = some false := by
  rw [skipRun_append, hs]
  simp only [Option.some_bind]
  rw [skipRun_append, skipRun_ws w hw]
  simp only [Option.some_bind]
  exact skipRun_terminator false t ht

theorem skipRun_comment (skip w : List Nat) (mark : Nat) (text : List Nat)
    (hs : skipRun false skip = some false)
    (hw : allWs w) (hm : mark = 35 ∨ mark = 33) (hx : noEol text) :
    skipRun false (skip ++ (w ++ mark :: text)) = some true := by
  rw [skipRun_append, hs]
  simp only [Option.some_bind]
  rw [skipRun_append, skipRun_ws w hw]
  simp only [Option.some_bind]
  have h1 : ¬ (mark = 32 ∨ mark = 9 ∨ mark = 12 ∨ mark = 10 ∨ mark = 13) := by omega
  simp only [skipRun, h1, hm, if_true, if_false]
  exact skipRun_text text hx

theorem readsLines_of_stream (final : Option PhysLine) (hfinal : ∀ x ∈ final, x.Valid) :
    ∀ (lines : List (PhysLine × List Nat)) (l : LineReader) (skip : List Nat),
      (∀ x ∈ lines, x.1.Valid ∧ isTerminator x.2) →
      l.WF → 0 < l.lineBuf.length → skipRun false skip = some false →
      l.stream = skip ++ renderLines lines ++ (final.map PhysLine.bytes).getD [] →
      readsLines l ((lines.map (fun x => x.1) ++ final.toList).filterMap PhysLine.logical) := by
  intro lines
  induction lines with
  | nil =>
    intro l skip _ hwf hbuf hskip hs
    simp only [renderLines, List.map_nil, List.flatten_nil, List.append_nil, List.nil_append] at hs ⊢
    cases final with
    | none =>
      simp only [Option.map_none', Option.getD_none, List.append_nil] at hs
      obtain ⟨l', h, -⟩ := readLine_eof l hwf hbuf skip false hs hskip
      exact ⟨l', h⟩
    | some x =>
      have hv := hfinal x rfl
      simp only [Option.map_some', Option.getD_some] at hs
      cases x with
      | content ws body =>
        obtain ⟨hw, hb0, hb⟩ := hv
        cases body with
        | nil => exact absurd hb0 id
        | cons c body =>
          have hsk : skipRun false (skip ++ ws) = some false := by
            rw [skipRun_append, hskip]; exact skipRun_ws ws hw
          obtain ⟨l', hrl, hwf', hs', hlen', htake'⟩ :=
            readLine_last l hwf hbuf (skip ++ ws) c body
              (by rw [hs]; simp [PhysLine.bytes]) hsk hb0
              (fun b hb' => ⟨(hb b (by simp [hb'])).2.1, (hb b (by simp [hb'])).2.2⟩)
              (fun pb => bsFlag_noBackslash pb _ (by simp) (fun b hb' => (hb b hb').1))
          obtain ⟨l'', hrl2, -⟩ := readLine_eof l' hwf' (by omega) [] false hs' rfl
          exact ⟨l', hrl, htake', l'', hrl2⟩
      | comment ws mark text =>
        obtain ⟨hw, hm, hx⟩ := hv
        obtain ⟨l', h, -⟩ := readLine_eof l hwf hbuf _ true hs
          (skipRun_comment skip ws mark text hskip hw hm hx)
        exact ⟨l', h⟩
      | blank ws =>
        obtain ⟨l', h, -⟩ := readLine_eof l hwf hbuf _ false hs
          (by rw [skipRun_append, hskip]; exact skipRun_ws ws hv)
        exact ⟨l', h⟩
  | cons x lines ih =>
    intro l skip hv hwf hbuf hskip hs
    obtain ⟨hx, ht⟩ := hv x (by simp)
    have hv' : ∀ y ∈ lines, y.1.Valid ∧ isTerminator y.2 := fun y hy => hv y (by simp [hy])
    obtain ⟨x, t⟩ := x
    simp only [renderLines, List.map_cons, List.flatten_cons] at hs
    cases x with
    | content ws body =>
      obtain ⟨hw, hb0, hb⟩ := hx
      cases body with
      | nil => exact absurd hb0 id
      | cons c body =>
        have hsk : skipRun false (skip ++ ws) = some false := by
          rw [skipRun_append, hskip]; exact skipRun_ws ws hw
        obtain ⟨t0, trest, rfl, ht0, htr⟩ : ∃ t0 trest, t = t0 :: trest ∧ (t0 = 10 ∨ t0 = 13) ∧
            skipRun false trest = some false := by
          rcases ht with rfl | rfl | rfl
          · exact ⟨10, [], rfl, Or.inl rfl, rfl⟩
          · exact ⟨13, [], rfl, Or.inr rfl, rfl⟩
          · exact ⟨13, [10], rfl, Or.inr rfl, by simp [skipRun]⟩
        obtain ⟨l', hrl, hwf', hs', hlen', htake'⟩ :=
          readLine_line l hwf hbuf (skip ++ ws) c body
            (trest ++ renderLines lines ++ (final.map PhysLine.bytes).getD []) t0
            (by rw [hs]; simp [PhysLine.bytes, renderLines]) hsk hb0
            (fun b hb' => ⟨(hb b (by simp [hb'])).2.1, (hb b (by simp [hb'])).2.2⟩) ht0
            (fun pb => bsFlag_noBackslash pb _ (by simp) (fun b hb' => (hb b hb').1))
        have := ih l' trest hv' hwf' (by omega) htr hs'
        exact ⟨l', hrl, htake', this⟩
    | comment ws mark text =>
      obtain ⟨hw, hm, hxx⟩ := hx
      have hsk : skipRun false (skip ++ ((ws ++ mark :: text) ++ t)) = some false := by
        rw [← List.append_assoc, skipRun_append,
          skipRun_comment skip ws mark text hskip hw hm hxx]
        exact skipRun_terminator true t ht
      exact ih l _ hv' hwf hbuf hsk (by rw [hs]; simp [PhysLine.bytes, renderLines])
    | blank ws =>
      have hsk := skipRun_blank skip ws t hskip hx ht
      exact ih l _ hv' hwf hbuf hsk (by rw [hs]; simp [PhysLine.bytes, renderLines])

/-! ## Claims -/

/-- C2: escape round trip. For every string of printable ASCII bytes that holds none of
`=`, `:`, `#`, `!` and no white space, and for either setting of `escapeUnicode`,
`loadConvert` applied to what `saveConvert` wrote returns the string without error, with
`escapeSpace` false (value mode) as well as true (key mode). -/
theorem escape_round_trip (s : List Nat) (eu : Bool)
    (h : ∀ b ∈ s, 32 < b ∧ b < 127 ∧ b ≠ 61 ∧ b ≠ 58 ∧ b ≠ 35 ∧ b ≠ 33) :
    loadConvert (saveConvert s false eu) 0 (saveConvert s false eu).length = .ok s ∧
    loadConvert (saveConvert s true eu) 0 (saveConvert s true eu).length = .ok s := by
  have hb : ∀ b ∈ s, b < 256 := fun b hb => by have := h b hb; omega
  have h1 := loadConvert_saveConvert_at [] [] s false eu hb
  have h2 := loadConvert_saveConvert_at [] [] s true eu hb
  simp only [List.nil_append, List.append_nil, List.length_nil] at h1 h2
  exact ⟨h1, h2⟩

theorem escape_round_trip_witness :
    (∀ b ∈ [97, 92, 98, 126], 32 < b ∧ b < 127 ∧ b ≠ 61 ∧ b ≠ 58 ∧ b ≠ 35 ∧ b ≠ 33) ∧
    loadConvert (saveConvert [97, 92, 98, 126] false true) 0
      (saveConvert [97, 92, 98, 126] false true).length = .ok [97, 92, 98, 126] ∧
    loadConvert (saveConvert [97, 92, 98, 126] true true) 0
      (saveConvert [97, 92, 98, 126] true true).length = .ok [97, 92, 98, 126] :=
  ⟨by decide, escape_round_trip [97, 92, 98, 126] true (by decide)⟩

/-- C3: separator forms. For every non-empty key `k` and every value `v` of plain bytes
(`k` not starting with `#` or `!`), every separator `sep` (a non-empty run of white
space, or one `=` or `:` with optional white space around it), with or without a line
terminator after the line and however the reader cuts the input into chunks, `Load` of
the line `k sep v` into an empty table returns no error and stores exactly the pair
`(k, v)`. -/
theorem load_separator_forms (k v sep term : List Nat) (chunks : Reader)
    (hk : k ≠ []) (hkp : ∀ b ∈ k, plainByte b) (hk0 : ∀ c ∈ k.head?, c ≠ 35 ∧ c ≠ 33)
    (hvp : ∀ b ∈ v, plainByte b) (hsep : IsSeparator sep)
    (hterm : term = [] ∨ term = [10] ∨ term = [13] ∨ term = [13, 10])
    (hch : ∀ ch ∈ chunks, ch ≠ []) (hin : chunks.flatten = k ++ sep ++ v ++ term) :
    Load NewProperties chunks = (none, .mk ⟨[(.str k, .str v)]⟩ none) := by
  unfold Load
  rw [load0_single NewProperties (NewLineReader chunks) (NewLineReader_WF chunks hch)
    (NewLineReader_lineBuf chunks) [] k v sep term rfl hk hkp hk0 hvp hsep hterm
    (by rw [NewLineReader_stream, hin]; simp)]
  rfl

theorem load_separator_forms_witness :
    Load NewProperties [bytes "k :", bytes " v"]
      = (none, .mk ⟨[(.str (bytes "k"), .str (bytes "v"))]⟩ none) :=
  load_separator_forms (bytes "k") (bytes "v") (bytes " : ") [] [bytes "k :", bytes " v"]
    (by decide) (by decide) (by decide) (by decide)
    (Or.inr ⟨[32], 58, [32], by decide, by decide, by decide, by decide⟩)
    (by decide) (by decide) (by decide)

/-- The three examples of the specification: `k : v`, `k=v` and `k v`. -/
theorem load_separator_examples :
    Load NewProperties [bytes "k : v"] = (none, .mk ⟨[(.str (bytes "k"), .str (bytes "v"))]⟩ none) ∧
    Load NewProperties [bytes "k=v"] = (none, .mk ⟨[(.str (bytes "k"), .str (bytes "v"))]⟩ none) ∧
    Load NewProperties [bytes "k v"] = (none, .mk ⟨[(.str (bytes "k"), .str (bytes "v"))]⟩ none) := by
  refine ⟨?_, ?_, ?_⟩ <;> decide!

/-- C4: the continuation is lost when a `Read` ends at the line terminator. The reader
delivers `key=val\` and a carriage return, then a newline and `  ue`: `readLine` returns
`key=val` and then `ue`, not the single logical line `key=value`. -/
theorem continuation_lost_at_chunk_end :
    readLines [bytes "key=val\\\r", bytes "\n  ue"] = .ok [bytes "key=val", bytes "ue"] := by
  decide!

/-- C5: a comment line leaves its bytes in the line buffer, where a later truncated
`\u` escape reads them. After the comment `#xxxx0041` the line `k=\u` loads as the
pair `k` to `A` without error; alone it fails as malformed and stores nothing. -/
theorem comment_line_changes_load :
    Load NewProperties [bytes "#xxxx0041\nk=\\u"]
      = (none, .mk ⟨[(.str (bytes "k"), .str (bytes "A"))]⟩ none) ∧
    Load NewProperties [bytes "k=\\u"] = (some .malformed, NewProperties) := by
  constructor <;> decide!

/-- The example of the specification: a comment line, then `key=val`. -/
theorem comment_example :
    Load NewProperties [bytes "# comment\nkey=val\n"]
      = (none, .mk ⟨[(.str (bytes "key"), .str (bytes "val"))]⟩ none) := by
  decide!

/-- C6: `readLine` skips comment and blank lines and strips leading white space. For
every input made of terminated physical lines (content lines without backslash and
with any leading white space, comment lines, lines of white space only or empty), with
or without a last line that has no terminator, and however the reader cuts the input
into chunks, successive `readLine` calls return exactly the contents of the content
lines, in order, and then -1. -/
theorem readLine_skips_comment_and_blank_lines (lines : List (PhysLine × List Nat))
    (final : Option PhysLine) (chunks : Reader)
    (hlines : ∀ x ∈ lines, x.1.Valid ∧ isTerminator x.2) (hfinal : ∀ x ∈ final, x.Valid)
    (hch : ∀ ch ∈ chunks, ch ≠ [])
    (hin : chunks.flatten = renderLines lines ++ (final.map PhysLine.bytes).getD []) :
    readsLines (NewLineReader chunks)
      ((lines.map (fun x => x.1) ++ final.toList).filterMap PhysLine.logical) :=
  readsLines_of_stream final hfinal lines (NewLineReader chunks) [] hlines
    (NewLineReader_WF chunks hch) (NewLineReader_lineBuf chunks) rfl
    (by rw [NewLineReader_stream, hin]; simp)

theorem readLine_skips_comment_and_blank_lines_witness :
    readsLines
      (NewLineReader [bytes "line1\nli", bytes "ne2\n# comment\n!zzzzzz\nline3\n         \n\t line4\nline5\n"])
      [bytes "line1", bytes "line2", bytes "line3", bytes "line4", bytes "line5"] :=
  readLine_skips_comment_and_blank_lines
    [(.content [] (bytes "line1"), [10]), (.content [] (bytes "line2"), [10]),
      (.comment [] 35 (bytes " comment"), [10]), (.comment [] 33 (bytes "zzzzzz"), [10]),
      (.content [] (bytes "line3"), [10]), (.blank (bytes "         "), [10]),
      (.content (bytes "\t ") (bytes "line4"), [10]), (.content [] (bytes "line5"), [10])]
    none
    [bytes "line1\nli", bytes "ne2\n# comment\n!zzzzzz\nline3\n         \n\t line4\nline5\n"]
    (by decide) (by decide) (by decide) (by decide)

/-- C7, as stated, fails: on the input of three spaces, a newline and `key=val`,
`readLine` returns one logical line, `key=val`, not an empty line first, and `Load`
stores the pair of `key=val` only, no pair with an empty key. -/
theorem whitespace_only_line_yields_no_line :
    readLines [bytes "   \nkey=val\n"] = .ok [bytes "key=val"] ∧
    Load NewProperties [bytes "   \nkey=val\n"]
      = (none, .mk ⟨[(.str (bytes "key"), .str (bytes "val"))]⟩ none) := by
  constructor <;> decide!

/-- C7, amended: a physical line of white space only is skipped like a blank line.
When such a line (white space `w`, terminator `t`) comes before a line `k sep v`,
however the reader cuts the input into chunks, the first `readLine` returns the line
`k sep v`, the second returns -1, and `Load` stores exactly the pair `(k, v)`. -/
theorem whitespace_only_line_is_skipped (w t k v sep term : List Nat) (chunks : Reader)
    (hw : allWs w) (ht : isTerminator t)
    (hk : k ≠ []) (hkp : ∀ b ∈ k, plainByte b) (hk0 : ∀ c ∈ k.head?, c ≠ 35 ∧ c ≠ 33)
    (hvp : ∀ b ∈ v, plainByte b) (hsep : IsSeparator sep)
    (hterm : term = [] ∨ term = [10] ∨ term = [13] ∨ term = [13, 10])
    (hch : ∀ ch ∈ chunks, ch ≠ [])
    (hin : chunks.flatten = w ++ t ++ (k ++ sep ++ v ++ term)) :
    readsLines (NewLineReader chunks) [k ++ sep ++ v] ∧
    Load NewProperties chunks = (none, .mk ⟨[(.str k, .str v)]⟩ none) := by
  have hskip : skipRun false (w ++ t) = some false := by
    have := skipRun_blank [] w t rfl hw ht
    simpa using this
  constructor
  · obtain ⟨c, k', rfl⟩ : ∃ c k', k = c :: k' := by
      cases k with
      | nil => exact absurd rfl hk
      | cons c k' => exact ⟨c, k', rfl⟩
    have hcp := hkp c (by simp)
    have hc0 := hk0 c (by simp)
    have hsepb : ∀ b ∈ sep, b ≠ 92 ∧ b ≠ 10 ∧ b ≠ 13 := by
      intro b hb
      rcases hsep with ⟨_, hw'⟩ | ⟨w1, s, w2, rfl, hs, hw1, hw2⟩
      · have := hw' b hb; omega
      · simp at hb
        rcases hb with hb | rfl | hb
        · have := hw1 b hb; omega
        · omega
        · have := hw2 b hb; omega
    have hvalid : (PhysLine.content [] (c :: k' ++ sep ++ v)).Valid := by
      refine ⟨by simp [allWs], ?_, ?_⟩
      · show lineStart c
        unfold plainByte at hcp
        unfold lineStart
        omega
      · intro b hb
        simp at hb
        rcases hb with rfl | hb | hb | hb
        · unfold plainByte at hcp; omega
        · have := hkp b (by simp [hb]); unfold plainByte at this; omega
        · exact hsepb b hb
        · have := hvp b hb; unfold plainByte at this; omega
    by_cases hte : term = []
    · subst hte
      have := readsLines_of_stream (some (.content [] (c :: k' ++ sep ++ v)))
        (fun x hx => by cases hx; exact hvalid) [(.blank w, t)] (NewLineReader chunks) []
        (fun x hx => by simp at hx; subst hx; exact ⟨hw, ht⟩)
        (NewLineReader_WF chunks hch) (NewLineReader_lineBuf chunks) rfl
        (by rw [NewLineReader_stream, hin]; simp [renderLines, PhysLine.bytes])
      simpa [PhysLine.logical] using this
    · have hterm' : isTerminator term := by
        rcases hterm with h | h | h | h
        · exact absurd h hte
        · exact Or.inl h
        · exact Or.inr (Or.inl h)
        · exact Or.inr (Or.inr h)
      have := readsLines_of_stream none (fun x hx => by cases hx)
        [(.blank w, t), (.content [] (c :: k' ++ sep ++ v), term)] (NewLineReader chunks) []
        (fun x hx => by
          rcases List.mem_cons.mp hx with rfl | hx
          · exact ⟨hw, ht⟩
          · rw [List.mem_singleton] at hx
            subst hx
            exact ⟨hvalid, hterm'⟩)
        (NewLineReader_WF chunks hch) (NewLineReader_lineBuf chunks) rfl
        (by rw [NewLineReader_stream, hin]; simp [renderLines, PhysLine.bytes])
      simpa [PhysLine.logical] using this
  · unfold Load
    rw [load0_single NewProperties (NewLineReader chunks) (NewLineReader_WF chunks hch)
      (NewLineReader_lineBuf chunks) (w ++ t) k v sep term hskip hk hkp hk0 hvp hsep hterm
      (by rw [NewLineReader_stream, hin]; simp)]
    rfl

theorem whitespace_only_line_is_skipped_witness :
    readsLines (NewLineReader [bytes "   \nkey=val\n"]) [bytes "key=val"] ∧
    Load NewProperties [bytes "   \nkey=val\n"]
      = (none, .mk ⟨[(.str (bytes "key"), .str (bytes "val"))]⟩ none) :=
  whitespace_only_line_is_skipped (bytes "   ") [10] (bytes "key") (bytes "val") [61] [10]
    [bytes "   \nkey=val\n"] (by decide) (by decide) (by decide) (by decide) (by decide)
    (by decide) (Or.inr ⟨[], 61, [], by decide, by decide, by decide, by decide⟩)
    (by decide) (by decide) (by decide)

/-- C9: the decoded code unit is cut to its low byte. `loadConvert` on `中` returns
the one byte 0x2D (`-`), the same as on `-`, not the character U+4E2D. -/
theorem loadConvert_unicode_keeps_low_byte :
    loadConvert (bytes "\\u4e2d") 0 6 = .ok [45] ∧
    loadConvert (bytes "\\u002d") 0 6 = .ok [45] := by
  constructor <;> decide

/-- The example of the specification: the value of `k=A` decodes to `A`. -/
theorem loadConvert_unicode_example : loadConvert (bytes "k=\\u0041") 2 6 = .ok (bytes "A") := by
  decide

/-- C10: the logical lines depend on how the reader cuts the input. The bytes
`a=1\`, newline, `2` give the one line `a=12` when delivered in one chunk, and the two
lines `a=1` and `2` when the first chunk ends at the newline. -/
theorem readLine_depends_on_chunking :
    readLines [bytes "a=1\\\n2"] = .ok [bytes "a=12"] ∧
    readLines [bytes "a=1\\\n", bytes "2"] = .ok [bytes "a=1", bytes "2"] := by
  constructor <;> decide!

/-! ## The line reader: what every call keeps -/

theorem fill_avail (l : LineReader) (h : l.inLimit ≤ l.inOff) :
    (fill l).1.avail = l.avail ∧ (fill l).1.lineBuf = l.lineBuf ∧
      ((fill l).2 = false → (fill l).1.inOff < (fill l).1.inLimit) := by
  cases hr : l.reader with
  | nil =>
    rw [fill_nil l hr]
    simp [LineReader.avail, hr]
    omega
  | cons ch rs =>
    by_cases hle : ch.length ≤ l.inByteBuf.length
    · simp [fill, Read, hr, hle, LineReader.avail]
      refine ⟨by omega, ?_⟩
      intro h0
      exact List.length_pos.mpr h0
    · simp [fill, Read, hr, hle, LineReader.avail]
      refine ⟨by omega, ?_⟩
      intro h0
      exact List.length_pos.mpr h0

theorem eolTail_inv (l0 : LineReader) (len0 : Nat) (c : Nat) (l : LineReader) (len : Nat)
    (f : Flags) (ha : l.avail + 1 = l0.avail) (hlen : len < l.lineBuf.length) :
    IterInv l0 len0 (eolTail c l len f) := by
  unfold eolTail
  by_cases h : f.precedingBackslash = true
  · rw [if_pos h]
    refine ⟨ha, ?_⟩
    omega
  · rw [if_neg h]
    refine ⟨by omega, ?_, fun _ _ => by omega⟩
    exact_mod_cast hlen

theorem readLineByte_inv (l0 : LineReader) (c : Nat) (l : LineReader) (len : Nat) (f : Flags)
    (ha : l.avail + 1 = l0.avail) (hlen : len < l.lineBuf.length) :
    IterInv l0 len (readLineByte c l len f) := by
  unfold readLineByte
  by_cases h1 : f.skipLF = true ∧ c = 10
  · rw [if_pos h1]
    exact ⟨ha, hlen⟩
  rw [if_neg h1]
  dsimp only
  by_cases h2 : f.skipWhiteSpace = true ∧ (c = 32 ∨ c = 9 ∨ c = 12)
  · rw [if_pos h2]
    exact ⟨ha, hlen⟩
  rw [if_neg h2]
  by_cases h3 : f.skipWhiteSpace = true ∧ f.appendedLineBegin = false ∧ (c = 13 ∨ c = 10)
  · rw [if_pos h3]
    exact ⟨ha, hlen⟩
  rw [if_neg h3]
  split_ifs with h4 h5 h6 h7 h8 h9 h10 h11 h12 h13 h14 h15 h16
  all_goals first
    | exact ⟨ha, hlen⟩
    | exact ⟨ha, by omega⟩
    | exact eolTail_inv l0 len c _ _ _ ha hlen
    | trivial
    | (refine ⟨ha, ?_⟩
       simp only [List.length_append, List.length_set, List.length_replicate] at *
       omega)
    | (have hf := fill_avail l (by assumption)
       refine eolTail_inv l0 len c _ _ _ (by omega) ?_
       rw [hf.2.1]
       omega)
    | (have hf := fill_avail l (by assumption)
       refine ⟨by omega, ?_, fun _ _ => by omega⟩
       rw [hf.2.1]
       omega)

theorem readLineIter_inv (l : LineReader) (len : Nat) (f : Flags)
    (hlen : len < l.lineBuf.length) : IterInv l len (readLineIter l len f) := by
  unfold readLineIter
  by_cases hge : l.inOff ≥ l.inLimit
  · obtain ⟨fa, fl, fo⟩ := fill_avail l hge
    simp only [hge, if_true]
    by_cases he : (fill l).2 = true
    · simp only [he, if_true]
      split_ifs with h1 h2
      · refine ⟨by omega, ?_, fun _ h0 => ?_⟩
        · rw [fl]; omega
        · omega
      · refine ⟨by omega, ?_, fun _ h0 => ?_⟩
        · rw [fl]; omega
        · exact absurd (Or.inl h0) h1
      · refine ⟨by omega, ?_, fun _ h0 => ?_⟩
        · rw [fl]; omega
        · exact absurd (Or.inl h0) h1
    · simp only [he]
      have hlt := fo (by simpa using he)
      cases hc : (fill l).1.inByteBuf[(fill l).1.inOff]? with
      | none => trivial
      | some c =>
        simp only []
        apply readLineByte_inv
        · simp only [LineReader.avail] at fa ⊢
          omega
        · rw [← fl] at hlen
          exact hlen
  · simp only [hge, if_false]
    cases hc : l.inByteBuf[l.inOff]? with
    | none => trivial
    | some c =>
      simp only []
      apply readLineByte_inv
      · simp only [LineReader.avail]
        omega
      · exact hlen

theorem readLineLoop_inv :
    ∀ (fuel : Nat) (l : LineReader) (len : Nat) (f : Flags) (n : Int) (l' : LineReader),
      len < l.lineBuf.length → readLineLoop fuel l len f = .ok (n, l') →
      l'.avail ≤ l.avail ∧ n < (l'.lineBuf.length : Int) ∧
        (0 ≤ n → len = 0 → l'.avail < l.avail) := by
  intro fuel
  induction fuel with
  | zero => intro l len f n l' _ h; simp [readLineLoop] at h
  | succ fuel ih =>
    intro l len f n l' hlen h
    have hinv := readLineIter_inv l len f hlen
    rw [readLineLoop] at h
    cases hi : readLineIter l len f with
    | next l1 len1 f1 =>
      rw [hi] at h hinv
      obtain ⟨h1, h2⟩ := hinv
      obtain ⟨h3, h4, _⟩ := ih l1 len1 f1 n l' h2 h
      exact ⟨by omega, h4, fun _ _ => by omega⟩
    | ret n1 l1 =>
      rw [hi] at h hinv
      simp only [Except.ok.injEq, Prod.mk.injEq] at h
      obtain ⟨rfl, rfl⟩ := h
      exact hinv
    | fault e =>
      rw [hi] at h
      simp at h

/-- Every call of `readLine` returns a length below the capacity of `lineBuf`, and a
call that returns a line consumes at least one byte. -/
theorem readLine_inv (l l' : LineReader) (n : Int) (hbuf : 0 < l.lineBuf.length)
    (h : readLine l = .ok (n, l')) :
    n < (l'.lineBuf.length : Int) ∧ l'.avail ≤ l.avail ∧ (0 ≤ n → l'.avail < l.avail) := by
  obtain ⟨h1, h2, h3⟩ := readLineLoop_inv _ l 0 Flags.init n l' hbuf h
  exact ⟨h2, h1, fun hn => h3 hn rfl⟩

/-! ## The escape codec: malformed escapes -/

theorem readHex_cases (inp : List Nat) :
    ∀ (n o v : Nat) (ys : List Nat), inp.drop o = ys → n ≤ ys.length →
      (readHex inp n o v = .error .malformed ∧ ∃ b ∈ ys.take n, ¬ isHexDigit b) ∨
      (∃ v', readHex inp n o v = .ok (v', o + n) ∧ ∀ b ∈ ys.take n, isHexDigit b) := by
  intro n
  induction n with
  | zero =>
    intro o v ys _ _
    right
    exact ⟨v, by simp [readHex], by simp⟩
  | succ n ih =>
    intro o v ys hd hn
    cases ys with
    | nil => simp at hn
    | cons c ys =>
      have g0 := getElem?_of_drop hd 0
      simp at g0
      have hd' : inp.drop (o + 1) = ys := by
        have := congrArg (List.drop 1) hd
        rw [List.drop_drop] at this
        simpa using this
      simp only [List.length_cons] at hn
      by_cases hx : isHexDigit c
      · have key : ∀ v2, readHex inp (n + 1) o v = readHex inp n (o + 1) v2 →
            (readHex inp (n + 1) o v = .error .malformed ∧
              ∃ b ∈ (c :: ys).take (n + 1), ¬ isHexDigit b) ∨
            (∃ v', readHex inp (n + 1) o v = .ok (v', o + (n + 1)) ∧
              ∀ b ∈ (c :: ys).take (n + 1), isHexDigit b) := by
          intro v2 he
          rcases ih (o + 1) v2 ys hd' (by omega) with ⟨h1, b, hb, hnb⟩ | ⟨v', h1, h2⟩
          · left
            exact ⟨by rw [he, h1], b, by simp [hb], hnb⟩
          · right
            refine ⟨v', by rw [he, h1]; congr 2; omega, ?_⟩
            intro b hb
            simp only [List.take_succ_cons, List.mem_cons] at hb
            rcases hb with rfl | hb
            · exact hx
            · exact h2 b hb
        rcases hx with h | h | h
        · exact key _ (by rw [readHex, g0]; simp only []; rw [if_pos h])
        · exact key _ (by
            rw [readHex, g0]; simp only []
            rw [if_neg (by omega), if_pos h])
        · exact key _ (by
            rw [readHex, g0]; simp only []
            rw [if_neg (by omega), if_neg (by omega), if_pos h])
      · left
        refine ⟨?_, c, by simp, hx⟩
        unfold isHexDigit at hx
        rw [readHex, g0]
        simp only []
        rw [if_neg (by omega), if_neg (by omega), if_neg (by omega)]

theorem bsFlag_append (pb : Bool) (xs ys : List Nat) :
    bsFlag pb (xs ++ ys) = bsFlag (bsFlag pb xs) ys := by
  simp [bsFlag, List.foldl_append]

/-- Decoding reaches a malformed `\u` escape that starts at an even backslash parity:
the result is the malformed-encoding error. -/
theorem loadConvertLoop_malformed (inp : List Nat) (end_ : Nat) (d post : List Nat)
    (hd4 : d.length = 4) (hbad : ∃ b ∈ d, ¬ isHexDigit b) :
    ∀ (m : Nat) (xs : List Nat) (off fuel : Nat) (out : List Nat), xs.length ≤ m →
      inp.drop off = xs ++ 92 :: 117 :: d ++ post → bsFlag false xs = false →
      off + xs.length < end_ → end_ - off ≤ fuel →
      loadConvertLoop inp end_ fuel off out = .error .malformed := by
  intro m
  induction m with
  | zero =>
    intro xs off fuel out hm hd hpar hlt hf
    have hxs : xs = [] := List.length_eq_zero.mp (by omega)
    subst hxs
    simp only [List.nil_append, List.length_nil, Nat.add_zero] at hd hlt
    obtain ⟨fuel, rfl⟩ : ∃ k, fuel = k + 1 := ⟨fuel - 1, by omega⟩
    have g0 := getElem?_of_drop hd 0
    have g1 := getElem?_of_drop hd 1
    simp at g0 g1
    have hd2 : inp.drop (off + 2) = d ++ post := by
      have := congrArg (List.drop 2) hd
      rw [List.drop_drop] at this
      simpa using this
    rcases readHex_cases inp 4 (off + 2) 0 (d ++ post) hd2 (by simp; omega) with
      ⟨h1, _⟩ | ⟨v', _, h2⟩
    · simp [loadConvertLoop, hlt, g0, g1, h1]
    · exfalso
      obtain ⟨b, hb, hnb⟩ := hbad
      apply hnb
      apply h2 b
      rw [List.take_append_of_le_length (by omega), List.take_of_length_le (by omega)]
      exact hb
  | succ m ih =>
    intro xs off fuel out hm hd hpar hlt hf
    cases xs with
    | nil => exact ih [] off fuel out (by simp) hd hpar hlt hf
    | cons c xs =>
      obtain ⟨fuel, rfl⟩ : ∃ k, fuel = k + 1 := ⟨fuel - 1, by omega⟩
      simp only [List.length_cons] at hm hlt
      have g0 := getElem?_of_drop hd 0
      simp at g0
      have hd1 : inp.drop (off + 1) = xs ++ 92 :: 117 :: d ++ post := by
        have := congrArg (List.drop 1) hd
        rw [List.drop_drop] at this
        simpa using this
      by_cases hc : c = 92
      · subst hc
        cases xs with
        | nil => simp [bsFlag] at hpar
        | cons b xs =>
          simp only [List.length_cons] at hm hlt
          have g1 := getElem?_of_drop hd 1
          simp at g1
          have hd2 : inp.drop (off + 2) = xs ++ 92 :: 117 :: d ++ post := by
            have := congrArg (List.drop 2) hd
            rw [List.drop_drop] at this
            simpa using this
          have hpar2 : bsFlag false xs = false := by
            have : bsFlag false (92 :: b :: xs) = bsFlag false xs := by
              by_cases hb : b = 92 <;> simp [bsFlag, hb]
            rw [← this]; exact hpar
          by_cases hb : b = 117
          · subst hb
            rcases readHex_cases inp 4 (off + 2) 0 _ hd2 (by simp; omega) with
              ⟨h1, _⟩ | ⟨v', h1, h2⟩
            · simp [loadConvertLoop, show off < end_ by omega, g0, g1, h1]
            · have hx4 : 4 ≤ xs.length := by
                by_contra hlt4
                have hmem : (92 : Nat) ∈ (xs ++ 92 :: 117 :: d ++ post).take 4 := by
                  rw [List.append_assoc, List.take_append_eq_append_take]
                  apply List.mem_append_right
                  have : 4 - xs.length = (4 - xs.length - 1) + 1 := by omega
                  rw [this]
                  simp
                have := h2 92 hmem
                unfold isHexDigit at this
                omega
              have htk : ∀ b ∈ xs.take 4, isHexDigit b := by
                intro b hb
                apply h2 b
                rw [List.append_assoc, List.take_append_of_le_length hx4]
                exact hb
              have hd6 : inp.drop (off + 2 + 4) = xs.drop 4 ++ 92 :: 117 :: d ++ post := by
                have := congrArg (List.drop 4) hd2
                rw [List.drop_drop] at this
                rw [this, List.append_assoc, List.drop_append_of_le_length hx4]
                simp
              have hpar6 : bsFlag false (xs.drop 4) = false := by
                have e : xs = xs.take 4 ++ xs.drop 4 := (List.take_append_drop 4 xs).symm
                rw [e, bsFlag_append] at hpar2
                have : bsFlag false (xs.take 4) = false := by
                  apply bsFlag_noBackslash
                  · intro h0
                    have h4 : (xs.take 4).length = 4 := by
                      rw [List.length_take]; omega
                    rw [h0] at h4
                    simp at h4
                  · intro b hb
                    have := htk b hb
                    unfold isHexDigit at this
                    omega
                rw [this] at hpar2
                exact hpar2
              rw [loadConvertLoop_unicode inp end_ fuel off v' (off + 2 + 4) out g0 g1 h1 (by omega)]
              apply ih (xs.drop 4) (off + 2 + 4) fuel _ (by simp; omega) hd6 hpar6
              · simp only [List.length_drop]; omega
              · omega
          · rw [loadConvertLoop_escape inp end_ fuel off b out g0 g1 hb (by omega)]
            exact ih xs (off + 2) fuel _ (by omega) hd2 hpar2 (by omega) (by omega)
      · rw [loadConvertLoop_plain inp end_ fuel off c out g0 hc (by omega)]
        have hpar1 : bsFlag false xs = false := by
          have : bsFlag false (c :: xs) = bsFlag false xs := by simp [bsFlag, hc]
          rw [← this]; exact hpar
        exact ih xs (off + 1) fuel _ (by omega) hd1 hpar1 (by omega) (by omega)

/-- Decoding a region whose reads all stay inside the buffer ends in a result or in
the malformed-encoding error, never in a panic. -/
theorem loadConvertLoop_safe (inp : List Nat) (end_ : Nat) (hend : end_ + 5 ≤ inp.length) :
    ∀ (fuel off : Nat) (out : List Nat), end_ - off ≤ fuel →
      (∃ r, loadConvertLoop inp end_ fuel off out = .ok r) ∨
      loadConvertLoop inp end_ fuel off out = .error .malformed := by
  intro fuel
  induction fuel with
  | zero =>
    intro off out hf
    left
    exact ⟨out, loadConvertLoop_done inp end_ 0 off out (by omega)⟩
  | succ fuel ih =>
    intro off out hf
    by_cases hlt : off < end_
    · have h0 : off < inp.length := by omega
      have h1 : off + 1 < inp.length := by omega
      have g0 : inp[off]? = some inp[off] := List.getElem?_eq_getElem h0
      have g1 : inp[off + 1]? = some inp[off + 1] := List.getElem?_eq_getElem h1
      by_cases hc : inp[off] = 92
      · rw [hc] at g0
        by_cases hb : inp[off + 1] = 117
        · rw [hb] at g1
          rcases readHex_cases inp 4 (off + 2) 0 (inp.drop (off + 2)) rfl
            (by simp; omega) with ⟨hx, _⟩ | ⟨v', hx, _⟩
          · right
            simp [loadConvertLoop, hlt, g0, g1, hx]
          · rw [loadConvertLoop_unicode inp end_ fuel off v' _ out g0 g1 hx hlt]
            exact ih _ _ (by omega)
        · rw [loadConvertLoop_escape inp end_ fuel off _ out g0 g1 hb hlt]
          exact ih _ _ (by omega)
      · rw [loadConvertLoop_plain inp end_ fuel off _ out g0 hc hlt]
        exact ih _ _ (by omega)
    · left
      exact ⟨out, loadConvertLoop_done inp end_ _ off out (by omega)⟩

theorem keySpan_sepAt :
    ∀ (xs : List Nat) (pb : Bool),
      ((keySpan pb xs).2 = none → (keySpan pb xs).1 = xs.length) ∧
      (∀ hs, (keySpan pb xs).2 = some hs →
        ∃ c, xs[(keySpan pb xs).1]? = some c ∧ (c = 61 ∨ c = 58 ∨ c = 32 ∨ c = 9 ∨ c = 12)) := by
  intro xs
  induction xs with
  | nil => intro pb; simp [keySpan]
  | cons c xs ih =>
    intro pb
    simp only [keySpan]
    by_cases h1 : (c = 61 ∨ c = 58) ∧ pb = false
    · rw [if_pos h1]
      simp
      tauto
    rw [if_neg h1]
    by_cases h2 : (c = 32 ∨ c = 9 ∨ c = 12) ∧ pb = false
    · rw [if_pos h2]
      simp
      tauto
    rw [if_neg h2]
    generalize (if c = 92 then !pb else false) = q
    obtain ⟨ih1, ih2⟩ := ih q
    refine ⟨fun h => ?_, fun hs h => ?_⟩
    · simp only [List.length_cons]
      rw [ih1 h]
    · obtain ⟨c', hc', hs'⟩ := ih2 hs h
      exact ⟨c', by simpa using hc', hs'⟩

theorem valueSkip_sepAt :
    ∀ (ys : List Nat) (hs : Bool) (j : Nat), j < valueSkip hs ys →
      ∃ c, ys[j]? = some c ∧ (c = 61 ∨ c = 58 ∨ c = 32 ∨ c = 9 ∨ c = 12) := by
  intro ys
  induction ys with
  | nil => intro hs j h; simp [valueSkip] at h
  | cons c ys ih =>
    intro hs j h
    simp only [valueSkip] at h
    split_ifs at h with h1 h2
    · cases j with
      | zero => exact ⟨c, by simp, by tauto⟩
      | succ j =>
        obtain ⟨c', hc', hs'⟩ := ih true j (by omega)
        exact ⟨c', by simpa using hc', hs'⟩
    · omega
    · cases j with
      | zero => exact ⟨c, by simp, by omega⟩
      | succ j =>
        obtain ⟨c', hc', hs'⟩ := ih hs j (by omega)
        exact ⟨c', by simpa using hc', hs'⟩

theorem bsFlag_snoc (pb : Bool) (xs : List Nat) (c : Nat) :
    bsFlag pb (xs ++ [c]) = if c = 92 then !(bsFlag pb xs) else false := by
  simp [bsFlag, List.foldl_append]

theorem keySpan_le (xs : List Nat) : ∀ pb, (keySpan pb xs).1 ≤ xs.length := by
  induction xs with
  | nil => intro pb; simp [keySpan]
  | cons c xs ih =>
    intro pb
    simp only [keySpan]
    by_cases h1 : (c = 61 ∨ c = 58) ∧ pb = false
    · rw [if_pos h1]; simp
    rw [if_neg h1]
    by_cases h2 : (c = 32 ∨ c = 9 ∨ c = 12) ∧ pb = false
    · rw [if_pos h2]; simp
    rw [if_neg h2]
    simp only [List.length_cons]
    have := ih (if c = 92 then !pb else false)
    omega

/-- The loop body of `load0` on a line with a malformed `\u` escape: the
malformed-encoding error, whether the escape lies in the key or in the value. -/
theorem loadLine_malformed (lr : LineReader) (p : Props) (ln stale : List Nat)
    (hbuf : lr.lineBuf = ln ++ stale) (hm : MalformedEscape ln) :
    loadLine lr ln.length p = .error .malformed := by
  obtain ⟨pre, d, post, hln, hd4, hbad, hpar⟩ := hm
  have hlen : ln.length = pre.length + 2 + 4 + post.length := by
    rw [hln]; simp [hd4]; omega
  have hi : ln[pre.length]? = some 92 := by
    rw [hln, List.append_assoc, List.getElem?_append_right (le_refl _)]
    simp
  have hscan := keyScan_eq ln stale ln.length 0 false (by omega)
  rw [List.drop_zero] at hscan
  simp only [Nat.zero_add] at hscan
  obtain ⟨hnone, hsome⟩ := keySpan_sepAt ln false
  have hkle := keySpan_le ln false
  have hinp : ∀ o, o ≤ pre.length →
      (ln ++ stale).drop o = pre.drop o ++ 92 :: 117 :: d ++ (post ++ stale) := by
    intro o ho
    rw [hln]
    simp only [List.append_assoc, List.cons_append]
    rw [List.drop_append_of_le_length ho]
  unfold loadLine
  simp only [hbuf]
  rw [hscan]
  simp only []
  rw [valueScan_eq ln stale ln.length _ _ (by omega)]
  by_cases hA : pre.length < (keySpan false ln).1
  · -- the escape starts inside the key
    have : loadConvert (ln ++ stale) 0 (keySpan false ln).1 = .error .malformed := by
      unfold loadConvert
      exact loadConvertLoop_malformed _ _ d (post ++ stale) hd4 hbad pre.length pre 0 _ []
        (le_refl _) (by simpa using hinp 0 (Nat.zero_le _)) hpar (by omega) (by omega)
    rw [this]
  · -- the escape starts inside the value
    have hkey : (∃ r, loadConvert (ln ++ stale) 0 (keySpan false ln).1 = .ok r) ∨
        loadConvert (ln ++ stale) 0 (keySpan false ln).1 = .error .malformed := by
      unfold loadConvert
      exact loadConvertLoop_safe _ _ (by simp; omega) _ _ _ (by omega)
    rcases hkey with ⟨key, hkey⟩ | hkey
    · rw [hkey]
      simp only []
      cases ho : (keySpan false ln).2 with
      | none =>
        exfalso
        have := hnone ho
        omega
      | some hs =>
        obtain ⟨c0, hc0, hs0⟩ := hsome hs ho
        simp only [Option.getD_some]
        have hvs : ∀ j, (keySpan false ln).1 ≤ j →
            j < (keySpan false ln).1 + 1 + valueSkip hs (ln.drop ((keySpan false ln).1 + 1)) →
            ∃ c, ln[j]? = some c ∧ (c = 61 ∨ c = 58 ∨ c = 32 ∨ c = 9 ∨ c = 12) := by
          intro j h1 h2
          by_cases hj : j = (keySpan false ln).1
          · subst hj; exact ⟨c0, hc0, hs0⟩
          · obtain ⟨c, hc, hcs⟩ := valueSkip_sepAt (ln.drop ((keySpan false ln).1 + 1)) hs
              (j - ((keySpan false ln).1 + 1)) (by omega)
            rw [List.getElem?_drop] at hc
            have e : (keySpan false ln).1 + 1 + (j - ((keySpan false ln).1 + 1)) = j := by omega
            rw [e] at hc
            exact ⟨c, hc, hcs⟩
        have hB : (keySpan false ln).1 + 1 + valueSkip hs (ln.drop ((keySpan false ln).1 + 1))
            ≤ pre.length := by
          by_contra hlt
          obtain ⟨c, hc, hcs⟩ := hvs pre.length (by omega) (by omega)
          rw [hi] at hc
          simp only [Option.some.injEq] at hc
          omega
        generalize hvdef :
          (keySpan false ln).1 + 1 + valueSkip hs (ln.drop ((keySpan false ln).1 + 1)) = vs at hB hvs
        have hvpos : 1 ≤ vs := by omega
        obtain ⟨c1, hc1, hcs1⟩ := hvs (vs - 1) (by omega) (by omega)
        have hpre1 : pre[vs - 1]? = some c1 := by
          rw [hln, List.append_assoc, List.getElem?_append_left (by omega)] at hc1
          exact hc1
        have hpar2 : bsFlag false (pre.drop vs) = false := by
          have e : pre = (pre.take (vs - 1) ++ [c1]) ++ pre.drop vs := by
            have h1 : pre.take vs = pre.take (vs - 1) ++ [c1] := by
              have : vs = (vs - 1) + 1 := by omega
              rw [this, List.take_succ, hpre1]
              simp
            rw [← h1, List.take_append_drop]
          rw [e, bsFlag_append, bsFlag_snoc, if_neg (by omega)] at hpar
          exact hpar
        have : loadConvert (ln ++ stale) vs (ln.length - vs) = .error .malformed := by
          unfold loadConvert
          exact loadConvertLoop_malformed _ _ d (post ++ stale) hd4 hbad (pre.drop vs).length
            (pre.drop vs) vs _ [] (le_refl _) (hinp vs hB) hpar2
            (by simp only [List.length_drop]; omega) (by omega)
        rw [this]
    · rw [hkey]

theorem loadSteps_load0Loop :
    ∀ (n fuel : Nat) (lr lr1 : LineReader) (p p1 : Props), 0 < lr.lineBuf.length →
      loadSteps n lr p = some (lr1, p1) →
      load0Loop (fuel + n) lr p = load0Loop fuel lr1 p1 ∧ lr1.avail + n ≤ lr.avail ∧
        0 < lr1.lineBuf.length := by
  intro n
  induction n with
  | zero =>
    intro fuel lr lr1 p p1 hb h
    simp only [loadSteps, Option.some.injEq, Prod.mk.injEq] at h
    obtain ⟨rfl, rfl⟩ := h
    exact ⟨rfl, by omega, hb⟩
  | succ n ih =>
    intro fuel lr lr1 p p1 hb h
    rw [loadSteps] at h
    cases hr : readLine lr with
    | error e => rw [hr] at h; simp at h
    | ok r =>
      obtain ⟨limit, lr'⟩ := r
      rw [hr] at h
      simp only [] at h
      by_cases hl : limit ≥ 0
      · rw [if_pos hl] at h
        cases hll : loadLine lr' limit.toNat p with
        | error e => rw [hll] at h; simp at h
        | ok p' =>
          rw [hll] at h
          simp only [] at h
          obtain ⟨hi1, hi2, hi3⟩ := readLine_inv lr lr' limit hb hr
          have hb' : 0 < lr'.lineBuf.length := by omega
          obtain ⟨h1, h2, h3⟩ := ih fuel lr' lr1 p' p1 hb' h
          refine ⟨?_, ?_, h3⟩
          · have e : fuel + (n + 1) = (fuel + n) + 1 := by omega
            rw [e, load0Loop, hr]
            simp only [hl, if_true, hll]
            exact h1
          · have := hi3 hl
            omega
      · rw [if_neg hl] at h
        simp at h

/-- C8: a malformed escape is atomic. When the first `n` logical lines of the input
load into the table `p1` and the next logical line holds, in its key or its value, a
`\u` escape whose 4 following bytes are not all hexadecimal digits, `Load` returns the
malformed-encoding error and leaves exactly the table `p1`: no pair is stored for
that line. -/
theorem load_malformed_escape_is_atomic (n : Nat) (reader : Reader) (p p1 : Props)
    (ln : List Nat) (hsteps : lineAfter n (NewLineReader reader) p = some (p1, ln))
    (hbad : MalformedEscape ln) :
    Load p reader = (some .malformed, p1) := by
  unfold lineAfter at hsteps
  cases hs : loadSteps n (NewLineReader reader) p with
  | none => rw [hs] at hsteps; simp at hsteps
  | some r =>
    obtain ⟨lr1, p1'⟩ := r
    rw [hs] at hsteps
    simp only [] at hsteps
    cases hr : readLine lr1 with
    | error e => rw [hr] at hsteps; simp at hsteps
    | ok r2 =>
      obtain ⟨limit, lr2⟩ := r2
      rw [hr] at hsteps
      simp only [] at hsteps
      by_cases hl : limit ≥ 0
      · rw [if_pos hl] at hsteps
        simp only [Option.some.injEq, Prod.mk.injEq] at hsteps
        obtain ⟨rfl, hln⟩ := hsteps
        obtain ⟨m, rfl⟩ : ∃ m : Nat, limit = (m : Int) := ⟨limit.toNat, by omega⟩
        simp only [Int.toNat_ofNat] at hln
        obtain ⟨h1, h2, h3⟩ := loadSteps_load0Loop n (lr1.avail + 1) (NewLineReader reader) lr1 p
          p1' (NewLineReader_lineBuf reader) hs
        obtain ⟨i1, i2, i3⟩ := readLine_inv lr1 lr2 m h3 hr
        have hm : m < lr2.lineBuf.length := by exact_mod_cast i1
        have hlen : ln.length = m := by
          rw [← hln, List.length_take]; omega
        have hb := take_eq_append_stale _ _ _ hln
        have hll : loadLine lr2 m p1' = .error .malformed := by
          rw [← hlen]
          exact loadLine_malformed lr2 p1' ln _ hb hbad
        have e : (NewLineReader reader).avail + 1
            = ((NewLineReader reader).avail - n - lr1.avail) + (lr1.avail + 1) + n := by omega
        unfold Load load0
        rw [e]
        obtain ⟨h1', -, -⟩ := loadSteps_load0Loop n
          (((NewLineReader reader).avail - n - lr1.avail) + (lr1.avail + 1))
          (NewLineReader reader) lr1 p p1' (NewLineReader_lineBuf reader) hs
        rw [h1']
        have e2 : (NewLineReader reader).avail - n - lr1.avail + (lr1.avail + 1)
            = ((NewLineReader reader).avail - n - lr1.avail + lr1.avail) + 1 := by omega
        rw [e2]
        exact load0Loop_fault _ lr1 lr2 p1' m _ hr hll
      · rw [if_neg hl] at hsteps
        simp at hsteps

theorem load_malformed_escape_is_atomic_witness :
    Load NewProperties [bytes "a=1\nk=\\uZZZZ"]
      = (some .malformed, .mk ⟨[(.str (bytes "a"), .str (bytes "1"))]⟩ none) :=
  load_malformed_escape_is_atomic 1 [bytes "a=1\nk=\\uZZZZ"] NewProperties
    (.mk ⟨[(.str (bytes "a"), .str (bytes "1"))]⟩ none) (bytes "k=\\uZZZZ") (by decide!)
    ⟨bytes "k=", bytes "ZZZZ", [], by decide, by decide, ⟨90, by decide, by decide⟩, by decide⟩

/-- The example of the specification: `k=ZZZZ` after a backslash and `u` fails and no pair is stored. -/
theorem load_malformed_example :
    Load NewProperties [bytes "k=\\uZZZZ"] = (some .malformed, NewProperties) := by
  decide!

/-! ## Claims: the save side, the tables, the defaults -/

theorem saveConvertLoop_append (es eu : Bool) (post : List Nat) (a : Nat) :
    ∀ (pre : List Nat) (x : Nat),
      saveConvertLoop es eu x (pre ++ a :: post)
        = saveConvertLoop es eu x pre ++ saveConvertChar es eu (x + pre.length) a
            ++ saveConvertLoop es eu (x + pre.length + 1) post := by
  intro pre
  induction pre with
  | nil => intro x; simp [saveConvertLoop]
  | cons c pre ih =>
    intro x
    have e1 : x + 1 + pre.length = x + (pre.length + 1) := by omega
    simp only [List.cons_append, saveConvertLoop, List.length_cons, List.append_eq, ih (x + 1), e1,
      List.append_assoc]

theorem saveConvertLoop_plain (es eu : Bool) :
    ∀ (s : List Nat) (x : Nat),
      (∀ b ∈ s, b ≠ 92 ∧ b ≠ 61 ∧ b ≠ 58 ∧ b ≠ 35 ∧ b ≠ 33 ∧ b ≠ 9 ∧ b ≠ 10 ∧ b ≠ 13 ∧ b ≠ 12) →
      (x = 0 → s.head? ≠ some 32) → (es = true → 32 ∉ s) →
      (eu = true → ∀ b ∈ s, 32 ≤ b ∧ b ≤ 126) →
      saveConvertLoop es eu x s = s := by
  intro s
  induction s with
  | nil => intro x _ _ _ _; rfl
  | cons a s ih =>
    intro x h1 h2 h3 h4
    have ha := h1 a (by simp)
    have htok : saveConvertChar es eu x a = [a] := by
      unfold saveConvertChar
      by_cases c1 : 61 < a ∧ a < 127
      · rw [if_pos c1, if_neg (by omega)]
      rw [if_neg c1]
      by_cases c2 : a = 32
      · rw [if_pos c2]
        have : ¬ (x = 0 ∨ es = true) := by
          rintro (hx | he)
          · exact h2 hx (by simp [c2])
          · exact h3 he (by simp [c2])
        rw [if_neg this, c2]
      rw [if_neg c2, if_neg (by omega), if_neg (by omega), if_neg (by omega), if_neg (by omega),
        if_neg (by omega)]
      have : ¬ ((a < 32 ∨ 126 < a) ∧ eu = true) := by
        rintro ⟨hr, he⟩
        have := h4 he a (by simp)
        omega
      rw [if_neg this]
    simp only [saveConvertLoop, htok]
    rw [ih (x + 1) (fun b hb => h1 b (by simp [hb])) (by omega)
      (fun he hm => h3 he (by simp [hm])) (fun he b hb => h4 he b (by simp [hb]))]
    rfl

/-- C12, as stated, fails: in key mode a space inside the string is escaped, and with
`escapeUnicode` a byte outside printable ASCII is escaped. -/
theorem saveConvert_changes_space_and_unicode :
    saveConvert (bytes "a b") true false = bytes "a\\ b" ∧
    saveConvert [233] false true = bytes "\\u00E9" := by
  constructor <;> decide

/-- C12, amended: a string that holds none of backslash, `=`, `:`, `#`, `!`, tab,
newline, carriage return and form feed, does not start with a space, holds no space at
all when `escapeSpace` is true and only printable ASCII when `escapeUnicode` is true,
is returned unchanged by `saveConvert`. -/
theorem saveConvert_plain_unchanged (s : List Nat) (es eu : Bool)
    (h1 : ∀ b ∈ s, b ≠ 92 ∧ b ≠ 61 ∧ b ≠ 58 ∧ b ≠ 35 ∧ b ≠ 33 ∧ b ≠ 9 ∧ b ≠ 10 ∧ b ≠ 13 ∧ b ≠ 12)
    (h2 : s.head? ≠ some 32) (h3 : es = true → 32 ∉ s)
    (h4 : eu = true → ∀ b ∈ s, 32 ≤ b ∧ b ≤ 126) :
    saveConvert s es eu = s :=
  saveConvertLoop_plain es eu s 0 h1 (fun _ => h2) h3 h4

theorem saveConvert_plain_unchanged_witness :
    saveConvert (bytes "a b") false true = bytes "a b" :=
  saveConvert_plain_unchanged (bytes "a b") false true (by decide) (by decide) (by decide)
    (by decide)

/-- C13: structural characters are always escaped on save. For every string and flag
setting, the output for a byte `a` of the string stands between the output for the
bytes before it and the output for the bytes after it, and it is a backslash followed
by `a` when `a` is `=`, `:`, `#` or `!`, two backslashes when `a` is a backslash, and,
when `a` is a space, a backslash and the space if it is the first byte or `escapeSpace`
is true, the space alone otherwise. -/
theorem saveConvert_escapes_structural (pre post : List Nat) (a : Nat) (es eu : Bool) :
    ∃ tok, saveConvert (pre ++ a :: post) es eu
        = saveConvert pre es eu ++ tok ++ saveConvertLoop es eu (pre.length + 1) post ∧
      (a = 61 ∨ a = 58 ∨ a = 35 ∨ a = 33 → tok = [92, a]) ∧
      (a = 92 → tok = [92, 92]) ∧
      (a = 32 → (pre = [] ∨ es = true → tok = [92, 32]) ∧ (pre ≠ [] ∧ es = false → tok = [32])) := by
  refine ⟨saveConvertChar es eu pre.length a, ?_, ?_, ?_, ?_⟩
  · have := saveConvertLoop_append es eu post a pre 0
    simpa [saveConvert] using this
  · intro h
    unfold saveConvertChar
    rw [if_neg (by omega), if_neg (by omega), if_neg (by omega), if_neg (by omega),
      if_neg (by omega), if_neg (by omega), if_pos h]
  · intro h
    subst h
    simp [saveConvertChar]
  · intro h
    subst h
    refine ⟨fun h => ?_, fun h => ?_⟩
    · have : pre.length = 0 ∨ es = true := by
        rcases h with h | h
        · left; simp [h]
        · right; exact h
      simp only [saveConvertChar]
      rw [if_neg (by omega), if_pos trivial, if_pos this]
    · have : ¬ (pre.length = 0 ∨ es = true) := by
        rintro (h' | h')
        · exact h.1 (List.length_eq_zero.mp h')
        · rw [h.2] at h'; exact absurd h' (by decide)
      simp only [saveConvertChar]
      rw [if_neg (by omega), if_pos trivial, if_neg this]

/-- C14: `saveConvert` escapes each byte, not each character. For the character U+4E2D,
the three UTF-8 bytes E4 B8 AD, with `escapeUnicode` true, it writes the three escapes
`00E4`, `00B8`, `00AD` where the statement and the comment on `saveConvert` give the one
escape with the four digits `4E2D`: the loop indexes the string by byte, so the shifts by
12 and by 8 are always 0. -/
theorem saveConvert_escapes_each_byte :
    saveConvert [228, 184, 173] false true = bytes "\\u00E4\\u00B8\\u00AD" := by
  decide

theorem toHex_upper (n : Int) (d : Nat) (hd : d < 16) (h : n % 16 = (d : Int)) :
    toHex n = upperHex d := by
  unfold toHex
  rw [h]
  simp only [Int.toNat_ofNat]
  interval_cases d <;> rfl

/-- What the code writes for one byte: for every byte `c` outside printable ASCII (below
0x20 other than tab, newline, carriage return and form feed, or above 0x7E),
`saveConvert` writes for `c` a
backslash, `u`, `00` and the two uppercase hexadecimal digits of the byte when
`escapeUnicode` is true, and the byte itself when it is false; `toHex n` is the
uppercase hexadecimal digit of `n mod 16` for every integer `n`. -/
theorem saveConvert_unicode_escape (pre post : List Nat) (c : Nat) (es : Bool)
    (hc : c < 256)
    (hout : (c < 32 ∧ c ≠ 9 ∧ c ≠ 10 ∧ c ≠ 13 ∧ c ≠ 12) ∨ 126 < c) :
    saveConvert (pre ++ c :: post) es true
      = saveConvert pre es true ++ [92, 117, 48, 48, upperHex (c / 16), upperHex (c % 16)]
          ++ saveConvertLoop es true (pre.length + 1) post ∧
    saveConvert (pre ++ c :: post) es false
      = saveConvert pre es false ++ [c] ++ saveConvertLoop es false (pre.length + 1) post ∧
    ∀ (n : Int) (d : Nat), d < 16 → n % 16 = (d : Int) → toHex n = upperHex d := by
  have htok : ∀ eu, saveConvertChar es eu pre.length c
      = if eu = true then [92, 117, 48, 48, upperHex (c / 16), upperHex (c % 16)] else [c] := by
    intro eu
    unfold saveConvertChar
    rw [if_neg (by omega), if_neg (by omega), if_neg (by omega), if_neg (by omega),
      if_neg (by omega), if_neg (by omega), if_neg (by omega)]
    cases eu
    · simp
    · have hr : c < 32 ∨ 126 < c := by omega
      simp only [hr, and_self, if_true]
      rw [toHex_upper _ 0 (by omega) (by omega), toHex_upper _ 0 (by omega) (by omega),
        toHex_upper _ (c / 16) (by omega) (by omega), toHex_upper _ (c % 16) (by omega) (by omega)]
      rfl
  refine ⟨?_, ?_, toHex_upper⟩
  · have := saveConvertLoop_append es true post c pre 0
    simp only [Nat.zero_add, htok true, if_true] at this
    exact this
  · have := saveConvertLoop_append es false post c pre 0
    simp only [Nat.zero_add, htok false] at this
    exact this

theorem saveConvert_unicode_escape_witness :
    saveConvert ([97] ++ 233 :: [98]) false true
      = saveConvert [97] false true ++ [92, 117, 48, 48, upperHex (233 / 16), upperHex (233 % 16)]
          ++ saveConvertLoop false true (([97] : List Nat).length + 1) [98] ∧
    saveConvert ([97] ++ 233 :: [98]) false false
      = saveConvert [97] false false ++ [233] ++ saveConvertLoop false false (([97] : List Nat).length + 1) [98] ∧
    ∀ (n : Int) (d : Nat), d < 16 → n % 16 = (d : Int) → toHex n = upperHex d :=
  saveConvert_unicode_escape [97] [98] 233 false (by decide) (by decide)

/-- C16: a second `Put` of a key pushes the key on the list again. After `Put(k, a)` and
`Put(k, b)` on the sequence table `Keys()` lists `k` twice and `Size()` is 2; after one
`Remove(k)` the key is still listed though the table no longer holds it. -/
theorem sequenceTable_put_twice :
    ((NewHashtable2.Put (.str (bytes "k")) (.str (bytes "a"))).2.Put (.str (bytes "k"))
        (.str (bytes "b"))).2.Keys = [.str (bytes "k"), .str (bytes "k")] ∧
    ((NewHashtable2.Put (.str (bytes "k")) (.str (bytes "a"))).2.Put (.str (bytes "k"))
        (.str (bytes "b"))).2.Size = 2 ∧
    (((NewHashtable2.Put (.str (bytes "k")) (.str (bytes "a"))).2.Put (.str (bytes "k"))
        (.str (bytes "b"))).2.Remove (.str (bytes "k"))).map
          (fun s => (s.Keys, s.Size, s.Get (.str (bytes "k"))))
      = .ok ([.str (bytes "k")], 1, .nil) := by
  refine ⟨?_, ?_, ?_⟩ <;> decide

/-- C17: the two tables differ. After `Put(k, a)` and `Put(k, b)` the unordered table
has size 1 and the sequence table has size 2; `Remove` of an absent key leaves the
unordered table as it is and panics on the sequence table. -/
theorem tables_not_interchangeable :
    ((NewHashtable.Put (.str (bytes "k")) (.str (bytes "a"))).2.Put (.str (bytes "k"))
        (.str (bytes "b"))).2.Size = 1 ∧
    ((NewHashtable2.Put (.str (bytes "k")) (.str (bytes "a"))).2.Put (.str (bytes "k"))
        (.str (bytes "b"))).2.Size = 2 ∧
    NewHashtable.Remove (.str (bytes "k")) = NewHashtable ∧
    NewHashtable2.Remove (.str (bytes "k")) = .error .nilDereference := by
  refine ⟨?_, ?_, ?_, ?_⟩ <;> decide

theorem GetProperty_step (h : hashtable) (d : Option Props) (key : List Nat) :
    (∀ v, h.Get (.str key) = .str v → GetProperty (.mk h d) key = (v, true)) ∧
    ((∀ v, h.Get (.str key) ≠ .str v) →
      GetProperty (.mk h d) key
        = match d with
          | some q => GetProperty q key
          | none => ([], false)) := by
  constructor
  · intro v hv
    cases d <;> rw [GetProperty, hv]
  · intro hn
    cases hg : h.Get (.str key) with
    | str v => exact absurd hg (hn v)
    | nil => cases d <;> rw [GetProperty, hg]
    | other n => cases d <;> rw [GetProperty, hg]

theorem GetProperty_chain : ∀ (p : Props) (key : List Nat),
    ((∀ q ∈ p.chain, ¬ q.holds key) → GetProperty p key = ([], false)) ∧
    ((∃ q ∈ p.chain, q.holds key) → (GetProperty p key).2 = true)
  | .mk h none, key => by
    obtain ⟨h1, h2⟩ := GetProperty_step h none key
    constructor
    · intro hq
      have := hq (.mk h none) (by simp [Props.chain])
      rw [h2 (fun v hv => this ⟨v, hv⟩)]
    · rintro ⟨q, hq, v, hv⟩
      simp only [Props.chain, List.mem_singleton] at hq
      subst hq
      rw [h1 v hv]
  | .mk h (some d), key => by
    obtain ⟨h1, h2⟩ := GetProperty_step h (some d) key
    obtain ⟨i1, i2⟩ := GetProperty_chain d key
    constructor
    · intro hq
      have := hq (.mk h (some d)) (by simp [Props.chain])
      rw [h2 (fun v hv => this ⟨v, hv⟩)]
      exact i1 (fun q hq' => hq q (by simp [Props.chain, hq']))
    · rintro ⟨q, hq, hh⟩
      by_cases hown : ∃ v, h.Get (.str key) = .str v
      · obtain ⟨v, hv⟩ := hown
        rw [h1 v hv]
      · rw [h2 (fun v hv => hown ⟨v, hv⟩)]
        simp only [Props.chain, List.mem_cons] at hq
        rcases hq with rfl | hq
        · exact absurd hh hown
        · exact i2 ⟨q, hq, hh⟩

/-- C18: defaults fallback. `GetProperty` returns `(v, true)` when the own table maps
the key to the string `v`; otherwise it returns what `GetProperty` of the defaults
returns, and `("", false)` without defaults; it returns `("", false)` when no list of
the chain maps the key to a string, and `GetPropertyByDefault` returns the given
default in that case and the value found in the other. -/
theorem GetProperty_defaults (h : hashtable) (d : Option Props) (key dv : List Nat) :
    (∀ v, h.Get (.str key) = .str v → GetProperty (.mk h d) key = (v, true)) ∧
    ((∀ v, h.Get (.str key) ≠ .str v) →
      GetProperty (.mk h d) key
        = match d with
          | some q => GetProperty q key
          | none => ([], false)) ∧
    ((∀ q ∈ (Props.mk h d).chain, ¬ q.holds key) →
      GetProperty (.mk h d) key = ([], false) ∧ GetPropertyByDefault (.mk h d) key dv = dv) ∧
    ((∃ q ∈ (Props.mk h d).chain, q.holds key) →
      (GetProperty (.mk h d) key).2 = true ∧
        GetPropertyByDefault (.mk h d) key dv = (GetProperty (.mk h d) key).1) := by
  obtain ⟨h1, h2⟩ := GetProperty_step h d key
  obtain ⟨c1, c2⟩ := GetProperty_chain (.mk h d) key
  refine ⟨h1, h2, fun hq => ?_, fun hq => ?_⟩
  · have := c1 hq
    exact ⟨this, by simp [GetPropertyByDefault, this]⟩
  · have := c2 hq
    exact ⟨this, by simp [GetPropertyByDefault, this]⟩

/-- The defaults are used for a key the own table lacks, and hidden by an own value, an
empty string included. -/
theorem GetProperty_example :
    GetProperty (.mk ⟨[(.str (bytes "a"), .str [])]⟩
        (some (.mk ⟨[(.str (bytes "a"), .str (bytes "x")), (.str (bytes "b"), .str (bytes "y"))]⟩ none)))
      (bytes "a") = ([], true) ∧
    GetProperty (.mk ⟨[(.str (bytes "a"), .str [])]⟩
        (some (.mk ⟨[(.str (bytes "a"), .str (bytes "x")), (.str (bytes "b"), .str (bytes "y"))]⟩ none)))
      (bytes "b") = (bytes "y", true) ∧
    GetPropertyByDefault (.mk ⟨[(.str (bytes "a"), .str [])]⟩
        (some (.mk ⟨[(.str (bytes "a"), .str (bytes "x")), (.str (bytes "b"), .str (bytes "y"))]⟩ none)))
      (bytes "c") (bytes "dflt") = bytes "dflt" := by
  refine ⟨?_, ?_, ?_⟩ <;> decide

/-- C21: an even run of backslashes continues the line when the flag is stale. After a
comment line that ends in one backslash, the line of two backslashes is joined with the
next line: `readLine` returns one backslash followed by `foo`. -/
theorem even_backslashes_continue_after_comment :
    readLines [bytes "#\\\n\\\\\nfoo"] = .ok [bytes "\\foo"] := by
  decide!

/-- Without the comment line the two backslashes are kept and the line is not joined. -/
theorem even_backslashes_example :
    readLines [bytes "\\\\\nfoo"] = .ok [bytes "\\\\", bytes "foo"] := by
  decide!

/-- C23: general escape round trip. For every byte string and every setting of
`escapeSpace` and `escapeUnicode`, `loadConvert` applied to the whole of what
`saveConvert` wrote succeeds and returns the string. -/
theorem escape_round_trip_all_bytes (s : List Nat) (es eu : Bool) (hb : ∀ b ∈ s, b < 256) :
    loadConvert (saveConvert s es eu) 0 (saveConvert s es eu).length = .ok s := by
  have h := loadConvert_saveConvert_at [] [] s es eu hb
  simp only [List.nil_append, List.append_nil, List.length_nil] at h
  exact h

theorem escape_round_trip_all_bytes_witness :
    loadConvert (saveConvert [0, 32, 61, 92, 10, 200, 255] true false) 0
      (saveConvert [0, 32, 61, 92, 10, 200, 255] true false).length
      = .ok [0, 32, 61, 92, 10, 200, 255] :=
  escape_round_trip_all_bytes [0, 32, 61, 92, 10, 200, 255] true false (by decide)

/-- C24: the outcome of a line depends on the earlier lines. The second logical line
is `k=` followed by a truncated escape in both inputs: after the line `abcd0041` it
loads as the pair `k` to `A`, after the line `zz` it fails as malformed. -/
theorem load_line_depends_on_earlier_lines :
    Load NewProperties [bytes "abcd0041\nk=\\u"]
      = (none, .mk ⟨[(.str (bytes "abcd0041"), .str []), (.str (bytes "k"), .str (bytes "A"))]⟩ none) ∧
    Load NewProperties [bytes "zz\nk=\\u"]
      = (some .malformed, .mk ⟨[(.str (bytes "zz"), .str [])]⟩ none) := by
  constructor <;> decide!

/-! ## Claims: the key boundary -/

theorem trailingBackslashes_snoc (xs : List Nat) (c : Nat) :
    trailingBackslashes (xs ++ [c]) = if c = 92 then trailingBackslashes xs + 1 else 0 := by
  unfold trailingBackslashes
  simp only [List.reverse_append, List.reverse_cons, List.reverse_nil, List.nil_append,
    List.singleton_append]
  by_cases h : c = 92
  · simp [List.takeWhile, h]
  · simp [List.takeWhile, h]

theorem bsFlag_parity (xs : List Nat) :
    bsFlag false xs = decide (trailingBackslashes xs % 2 = 1) := by
  induction xs using List.reverseRecOn with
  | nil => simp [bsFlag, trailingBackslashes]
  | append_singleton xs c ih =>
    rw [bsFlag_snoc, trailingBackslashes_snoc, ih]
    by_cases h : c = 92
    · simp only [h, if_true]
      by_cases hp : trailingBackslashes xs % 2 = 1
      · simp [hp]; omega
      · simp [hp]; omega
    · simp [h]

theorem bsFlag_false_iff (xs : List Nat) :
    bsFlag false xs = false ↔ trailingBackslashes xs % 2 = 0 := by
  rw [bsFlag_parity]
  simp

theorem keySpan_isKeyEnd :
    ∀ (xs pre : List Nat) (pb : Bool), bsFlag false pre = pb →
      (∀ i, i < (keySpan pb xs).1 → ¬ isKeyEnd (pre ++ xs) (pre.length + i)) ∧
      ((keySpan pb xs).2 = none → (keySpan pb xs).1 = xs.length) ∧
      (∀ hs, (keySpan pb xs).2 = some hs → isKeyEnd (pre ++ xs) (pre.length + (keySpan pb xs).1)) := by
  intro xs
  induction xs with
  | nil =>
    intro pre pb _
    simp [keySpan]
  | cons c xs ih =>
    intro pre pb hpb
    have hget : (pre ++ c :: xs)[pre.length]? = some c := by
      rw [List.getElem?_append_right (le_refl _)]
      simp
    have htake : (pre ++ c :: xs).take pre.length = pre := by
      rw [List.take_append_of_le_length (le_refl _), List.take_length]
    simp only [keySpan]
    by_cases h1 : (c = 61 ∨ c = 58) ∧ pb = false
    · rw [if_pos h1]
      refine ⟨fun i hi => by simp at hi, fun h => by simp at h, fun hs _ => ?_⟩
      refine ⟨c, by simpa using hget, by tauto, ?_⟩
      simp only [Nat.add_zero, htake]
      rw [← bsFlag_false_iff, hpb]
      exact h1.2
    rw [if_neg h1]
    by_cases h2 : (c = 32 ∨ c = 9 ∨ c = 12) ∧ pb = false
    · rw [if_pos h2]
      refine ⟨fun i hi => by simp at hi, fun h => by simp at h, fun hs _ => ?_⟩
      refine ⟨c, by simpa using hget, by tauto, ?_⟩
      simp only [Nat.add_zero, htake]
      rw [← bsFlag_false_iff, hpb]
      exact h2.2
    rw [if_neg h2]
    have hpb' : bsFlag false (pre ++ [c]) = (if c = 92 then !pb else false) := by
      rw [bsFlag_snoc, hpb]
    obtain ⟨i1, i2, i3⟩ := ih (pre ++ [c]) _ hpb'
    have e : pre ++ [c] ++ xs = pre ++ c :: xs := by simp
    rw [e] at i1 i3
    simp only [List.length_append, List.length_singleton] at i1 i3
    refine ⟨fun i hi => ?_, fun h => ?_, fun hs h => ?_⟩
    · cases i with
      | zero =>
        rintro ⟨c', hc', hsep, hpar⟩
        simp only [Nat.add_zero] at hc' hpar
        rw [hget] at hc'
        simp only [Option.some.injEq] at hc'
        subst hc'
        rw [htake, ← bsFlag_false_iff, hpb] at hpar
        rcases hsep with h | h | h | h | h
        · exact h1 ⟨Or.inl h, hpar⟩
        · exact h1 ⟨Or.inr h, hpar⟩
        · exact h2 ⟨Or.inl h, hpar⟩
        · exact h2 ⟨Or.inr (Or.inl h), hpar⟩
        · exact h2 ⟨Or.inr (Or.inr h), hpar⟩
      | succ i =>
        have := i1 i (by simpa using hi)
        have e2 : pre.length + 1 + i = pre.length + (i + 1) := by omega
        rw [e2] at this
        exact this
    · simp only [List.length_cons]
      rw [i2 h]
    · have := i3 hs h
      have e2 : pre.length + 1 + (keySpan (if c = 92 then !pb else false) xs).1
          = pre.length + ((keySpan (if c = 92 then !pb else false) xs).1 + 1) := by omega
      rw [e2] at this
      exact this

/-- C19: key boundary by backslash parity. For every logical line (the first `limit`
bytes of the line buffer), the key length that `load0` finds is at most the length of
the line, no byte before it is an unescaped terminator (`=`, `:`, space, tab or form
feed preceded by an even number of consecutive backslashes), the byte at it is one
when it is inside the line, and when the line has no unescaped terminator the key is
the whole line and the value starts at the end of the line: it is empty. -/
theorem key_is_longest_prefix_without_unescaped_terminator (ln stale : List Nat) :
    (keyScan (ln ++ stale) ln.length ln.length 0 false).1 ≤ ln.length ∧
    (∀ i, i < (keyScan (ln ++ stale) ln.length ln.length 0 false).1 → ¬ isKeyEnd ln i) ∧
    ((keyScan (ln ++ stale) ln.length ln.length 0 false).1 < ln.length →
      isKeyEnd ln (keyScan (ln ++ stale) ln.length ln.length 0 false).1) ∧
    ((∀ i, i < ln.length → ¬ isKeyEnd ln i) →
      (keyScan (ln ++ stale) ln.length ln.length 0 false).1 = ln.length ∧
      valueScan (ln ++ stale) ln.length ln.length
        (keyScan (ln ++ stale) ln.length ln.length 0 false).2.1
        (keyScan (ln ++ stale) ln.length ln.length 0 false).2.2 = ln.length) := by
  have hscan := keyScan_eq ln stale ln.length 0 false (by omega)
  rw [List.drop_zero] at hscan
  simp only [Nat.zero_add] at hscan
  obtain ⟨i1, i2, i3⟩ := keySpan_isKeyEnd ln [] false rfl
  simp only [List.nil_append, List.length_nil, Nat.zero_add] at i1 i3
  have hle := keySpan_le ln false
  rw [hscan]
  simp only []
  have hlt : (keySpan false ln).1 < ln.length → isKeyEnd ln (keySpan false ln).1 := by
    intro h
    cases ho : (keySpan false ln).2 with
    | none => have := i2 ho; omega
    | some hs => exact i3 hs ho
  refine ⟨hle, i1, hlt, fun hno => ?_⟩
  have hk : (keySpan false ln).1 = ln.length := by
    by_contra hne
    exact hno _ (by omega) (hlt (by omega))
  refine ⟨hk, ?_⟩
  have hnone : (keySpan false ln).2 = none := by
    cases ho : (keySpan false ln).2 with
    | none => rfl
    | some hs =>
      exfalso
      obtain ⟨c, hc, -⟩ := i3 hs ho
      rw [hk] at hc
      simp at hc
  rw [hnone]
  simp only []
  rw [valueScan_eq ln stale ln.length _ _ (by omega), List.drop_eq_nil_of_le (le_refl _)]
  simp [valueSkip]

/-- Examples of C19: `a\=b=c` has the key `a\=b`, and in `a\\=c` the key ends at the `=`. -/
theorem key_boundary_examples :
    (keyScan (bytes "a\\=b=c") 6 6 0 false).1 = 4 ∧
    (keyScan (bytes "a\\\\=c") 5 5 0 false).1 = 3 ∧
    Load NewProperties [bytes "a\\=b=c"]
      = (none, .mk ⟨[(.str (bytes "a=b"), .str (bytes "c"))]⟩ none) := by
  refine ⟨by decide, by decide, by decide!⟩

/-! ## load0: one entry line in a longer input -/

theorem loadLine_entry (p : Props) (l' : LineReader) (ln kx sx vx key value : List Nat)
    (hsplit : ln = kx ++ sx ++ vx)
    (hk : noSep false kx) (hkb : bsFlag false kx = false)
    (hs0 : (keySpan false (sx ++ vx)).1 = 0) (hs1 : sepLen (sx ++ vx) = sx.length)
    (hkey : ∀ stale, loadConvert (kx ++ sx ++ vx ++ stale) 0 kx.length = .ok key)
    (hval : ∀ stale, loadConvert (kx ++ sx ++ vx ++ stale) (kx.length + sx.length) vx.length
      = .ok value)
    (htake : l'.lineBuf.take ln.length = ln) :
    loadLine l' ln.length p = .ok (p.Put (.str key) (.str value)).2 := by
  have hb := take_eq_append_stale _ _ _ htake
  have hb2 : l'.lineBuf = kx ++ sx ++ vx ++ l'.lineBuf.drop ln.length := by
    rw [← hsplit]; exact hb
  have e : ln.length = kx.length + sx.length + vx.length := by
    rw [hsplit]; simp only [List.length_append]
  rw [e]
  apply loadLine_split l' p kx sx vx _ key value hb2 hk hkb hs0 hs1
  · rw [hb2]; exact hkey _
  · rw [hb2]; exact hval _

/-- One entry line followed by a line terminator: `load0` stores its pair and goes on
with the rest of the input. -/
theorem load0Loop_entry (fuel : Nat) (p : Props) (lr : LineReader) (hwf : lr.WF)
    (hbuf : 0 < lr.lineBuf.length)
    (skip : List Nat) (c : Nat) (body rest : List Nat) (t : Nat) (kx sx vx key value : List Nat)
    (hs : lr.stream = skip ++ (c :: body) ++ t :: rest)
    (hskip : skipRun false skip = some false) (hc : lineStart c)
    (hbody : ∀ b ∈ body, b ≠ 10 ∧ b ≠ 13) (ht : t = 10 ∨ t = 13)
    (hpb : ∀ pb, bsFlag pb (c :: body) = false)
    (hsplit : c :: body = kx ++ sx ++ vx)
    (hk : noSep false kx) (hkb : bsFlag false kx = false)
    (hs0 : (keySpan false (sx ++ vx)).1 = 0) (hs1 : sepLen (sx ++ vx) = sx.length)
    (hkey : ∀ stale, loadConvert (kx ++ sx ++ vx ++ stale) 0 kx.length = .ok key)
    (hval : ∀ stale, loadConvert (kx ++ sx ++ vx ++ stale) (kx.length + sx.length) vx.length
      = .ok value) :
    ∃ lr' : LineReader,
      load0Loop (fuel + 1) lr p = load0Loop fuel lr' (p.Put (.str key) (.str value)).2 ∧
      lr'.WF ∧ lr'.stream = rest ∧ 0 < lr'.lineBuf.length := by
  obtain ⟨l', hrl, hwf', hs', hlen', htake'⟩ :=
    readLine_line lr hwf hbuf skip c body rest t hs hskip hc hbody ht hpb
  refine ⟨l', ?_, hwf', hs', by omega⟩
  exact load0Loop_line _ lr l' p _ _ hrl
    (loadLine_entry p l' (c :: body) kx sx vx key value hsplit hk hkb hs0 hs1 hkey hval htake')

/-- One entry line at the end of the input, without a line terminator. -/
theorem load0Loop_entry_last (fuel : Nat) (p : Props) (lr : LineReader) (hwf : lr.WF)
    (hbuf : 0 < lr.lineBuf.length)
    (skip : List Nat) (c : Nat) (body : List Nat) (kx sx vx key value : List Nat)
    (hs : lr.stream = skip ++ (c :: body))
    (hskip : skipRun false skip = some false) (hc : lineStart c)
    (hbody : ∀ b ∈ body, b ≠ 10 ∧ b ≠ 13)
    (hpb : ∀ pb, bsFlag pb (c :: body) = false)
    (hsplit : c :: body = kx ++ sx ++ vx)
    (hk : noSep false kx) (hkb : bsFlag false kx = false)
    (hs0 : (keySpan false (sx ++ vx)).1 = 0) (hs1 : sepLen (sx ++ vx) = sx.length)
    (hkey : ∀ stale, loadConvert (kx ++ sx ++ vx ++ stale) 0 kx.length = .ok key)
    (hval : ∀ stale, loadConvert (kx ++ sx ++ vx ++ stale) (kx.length + sx.length) vx.length
      = .ok value) :
    ∃ lr' : LineReader,
      load0Loop (fuel + 1) lr p = load0Loop fuel lr' (p.Put (.str key) (.str value)).2 ∧
      lr'.WF ∧ lr'.stream = [] ∧ 0 < lr'.lineBuf.length := by
  obtain ⟨l', hrl, hwf', hs', hlen', htake'⟩ :=
    readLine_last lr hwf hbuf skip c body hs hskip hc hbody hpb
  refine ⟨l', ?_, hwf', hs', by omega⟩
  exact load0Loop_line _ lr l' p _ _ hrl
    (loadLine_entry p l' (c :: body) kx sx vx key value hsplit hk hkb hs0 hs1 hkey hval htake')

/-- The rest of the input yields no logical line: `load0` ends without an error. -/
theorem load0Loop_end (fuel : Nat) (p : Props) (lr : LineReader) (hwf : lr.WF)
    (hbuf : 0 < lr.lineBuf.length) (skip : List Nat) (s : Bool)
    (hs : lr.stream = skip) (hskip : skipRun false skip = some s) :
    load0Loop (fuel + 1) lr p = (none, p) := by
  obtain ⟨l'', hrl2, -⟩ := readLine_eof lr hwf hbuf skip s hs hskip
  exact load0Loop_eof _ lr l'' _ hrl2

theorem bsFlag_noBackslash_any (xs : List Nat) (hne : xs ≠ [])
    (h : ∀ b ∈ xs, b ≠ 92) : ∀ pb, bsFlag pb xs = false :=
  fun pb => bsFlag_noBackslash pb xs hne h

/-- The separator scan when the value starts with something that ends the
separator: a byte that is no white space, and no `=` or `:` unless one was consumed. -/
theorem keySpan_sep_stop (w1 w2 v : List Nat) (s : Nat) (hs : s = 61 ∨ s = 58)
    (hw1 : ∀ b ∈ w1, b = 32 ∨ b = 9 ∨ b = 12) (hw2 : ∀ b ∈ w2, b = 32 ∨ b = 9 ∨ b = 12)
    (hv : valueSkip true v = 0) :
    (keySpan false ((w1 ++ s :: w2) ++ v)).1 = 0 ∧
      sepLen ((w1 ++ s :: w2) ++ v) = (w1 ++ s :: w2).length := by
  have e : (w1 ++ s :: w2) ++ v = w1 ++ (s :: (w2 ++ v)) := by simp
  rw [e]
  cases w1 with
  | nil =>
    have h1 : (s = 61 ∨ s = 58) := hs
    simp only [List.nil_append, keySpan, sepLen, h1, and_self, if_true, List.drop_one,
      List.tail_cons, List.length_cons, true_and]
    rw [valueSkip_ws v true w2 hw2, hv]
    omega
  | cons c w =>
    have hc := hw1 c (by simp)
    have hc1 : ¬ (c = 61 ∨ c = 58) := by omega
    have hww : ∀ b ∈ w, b = 32 ∨ b = 9 ∨ b = 12 := fun b hb => hw1 b (by simp [hb])
    have hs3 : s ≠ 32 ∧ s ≠ 9 ∧ s ≠ 12 := by omega
    have hv2 : valueSkip false (s :: (w2 ++ v)) = w2.length + 1 := by
      simp only [valueSkip, hs3, hs, ne_eq, not_false_eq_true, and_self, if_true]
      rw [valueSkip_ws v true w2 hw2, hv]
    simp only [List.cons_append, keySpan, sepLen, hc1, false_and, if_false, hc, and_self,
      if_true, List.drop_one, List.tail_cons, List.length_cons, List.length_append, true_and]
    rw [valueSkip_ws (s :: (w2 ++ v)) false w hww, hv2]
    omega

/-- Loading an input that holds one entry line, with or without a line terminator. -/
theorem load0_entry (p : Props) (lr : LineReader) (hwf : lr.WF) (hbuf : 0 < lr.lineBuf.length)
    (skip : List Nat) (c : Nat) (body term kx sx vx key value : List Nat)
    (hin : lr.stream = skip ++ (c :: body) ++ term)
    (hterm : term = [] ∨ term = [10] ∨ term = [13] ∨ term = [13, 10])
    (hskip : skipRun false skip = some false) (hc : lineStart c)
    (hbody : ∀ b ∈ body, b ≠ 10 ∧ b ≠ 13)
    (hpb : ∀ pb, bsFlag pb (c :: body) = false)
    (hsplit : c :: body = kx ++ sx ++ vx)
    (hk : noSep false kx) (hkb : bsFlag false kx = false)
    (hs0 : (keySpan false (sx ++ vx)).1 = 0) (hs1 : sepLen (sx ++ vx) = sx.length)
    (hkey : ∀ stale, loadConvert (kx ++ sx ++ vx ++ stale) 0 kx.length = .ok key)
    (hval : ∀ stale, loadConvert (kx ++ sx ++ vx ++ stale) (kx.length + sx.length) vx.length
      = .ok value) :
    load0 p lr = (none, (p.Put (.str key) (.str value)).2) := by
  have hav : lr.avail + 1 = (lr.avail - 1) + 1 + 1 := by
    have := avail_eq lr hwf
    rw [hin] at this
    simp only [List.length_append, List.length_cons] at this
    omega
  unfold load0
  rw [hav]
  by_cases hte : term = []
  · subst hte
    obtain ⟨l', hstep, hwf', hs', hbuf'⟩ :=
      load0Loop_entry_last (lr.avail - 1 + 1) p lr hwf hbuf skip c body kx sx vx key value
        (by simpa using hin) hskip hc hbody hpb hsplit hk hkb hs0 hs1 hkey hval
    rw [hstep, load0Loop_end _ _ l' hwf' hbuf' [] false hs' rfl]
  · obtain ⟨t, rest, rfl, ht, hrest⟩ : ∃ t rest, term = t :: rest ∧ (t = 10 ∨ t = 13) ∧
        (rest = [] ∨ rest = [10]) := by
      rcases hterm with h | h | h | h
      · exact absurd h hte
      · exact ⟨10, [], h, Or.inl rfl, Or.inl rfl⟩
      · exact ⟨13, [], h, Or.inr rfl, Or.inl rfl⟩
      · exact ⟨13, [10], h, Or.inr rfl, Or.inr rfl⟩
    obtain ⟨l', hstep, hwf', hs', hbuf'⟩ :=
      load0Loop_entry (lr.avail - 1 + 1) p lr hwf hbuf skip c body rest t kx sx vx key value
        hin hskip hc hbody ht hpb hsplit hk hkb hs0 hs1 hkey hval
    have hskip2 : skipRun false rest = some false := by
      rcases hrest with rfl | rfl <;> simp [skipRun]
    rw [hstep, load0Loop_end _ _ l' hwf' hbuf' rest false hs' hskip2]

theorem valueSkip_punct (s : Nat) (v : List Nat) (hs : s = 61 ∨ s = 58) :
    valueSkip true (s :: v) = 0 := by
  have hs3 : s ≠ 32 ∧ s ≠ 9 ∧ s ≠ 12 := by omega
  simp [valueSkip, hs3]

/-- C20: at most one punctuation separator is consumed. For every non-empty plain key
`k` (not starting with `#` or `!`), every `s1` and `s2` among `=` and `:`, every runs
`w1`, `w2` of spaces, tabs and form feeds and every text `v` without backslash and line
terminator, with or without a line terminator after the line and however the reader
cuts the input, `Load` of `k w1 s1 w2 s2 v` into an empty table returns no error and
stores exactly the pair of `k` and `s2 v`: the second punctuation character starts the
value and what follows it, white space included, is kept. -/
theorem second_separator_starts_value (k w1 w2 v term : List Nat) (s1 s2 : Nat)
    (chunks : Reader)
    (hk : k ≠ []) (hkp : ∀ b ∈ k, plainByte b) (hk0 : ∀ c ∈ k.head?, c ≠ 35 ∧ c ≠ 33)
    (hs1 : s1 = 61 ∨ s1 = 58) (hs2 : s2 = 61 ∨ s2 = 58)
    (hw1 : ∀ b ∈ w1, b = 32 ∨ b = 9 ∨ b = 12) (hw2 : ∀ b ∈ w2, b = 32 ∨ b = 9 ∨ b = 12)
    (hv : ∀ b ∈ v, b ≠ 92 ∧ b ≠ 10 ∧ b ≠ 13)
    (hterm : term = [] ∨ term = [10] ∨ term = [13] ∨ term = [13, 10])
    (hch : ∀ ch ∈ chunks, ch ≠ [])
    (hin : chunks.flatten = k ++ w1 ++ [s1] ++ w2 ++ [s2] ++ v ++ term) :
    Load NewProperties chunks = (none, .mk ⟨[(.str k, .str (s2 :: v))]⟩ none) := by
  obtain ⟨c, k', rfl⟩ : ∃ c k', k = c :: k' := by
    cases k with
    | nil => exact absurd rfl hk
    | cons c k' => exact ⟨c, k', rfl⟩
  have hcp := hkp c (by simp)
  have hc0 := hk0 c (by simp)
  have hstart : lineStart c := by
    unfold plainByte at hcp
    unfold lineStart
    omega
  have hall : ∀ b ∈ c :: (k' ++ (w1 ++ s1 :: w2) ++ s2 :: v), b ≠ 10 ∧ b ≠ 13 ∧ b ≠ 92 := by
    intro b hb
    simp only [List.mem_cons, List.mem_append] at hb
    rcases hb with rfl | (hb | hb | rfl | hb) | rfl | hb
    · unfold plainByte at hcp; omega
    · have := hkp b (by simp [hb]); unfold plainByte at this; omega
    · have := hw1 b hb; omega
    · omega
    · have := hw2 b hb; omega
    · omega
    · have := hv b hb; omega
  obtain ⟨hs0, hsl⟩ := keySpan_sep_stop w1 w2 (s2 :: v) s1 hs1 hw1 hw2 (valueSkip_punct s2 v hs2)
  unfold Load
  rw [load0_entry NewProperties (NewLineReader chunks) (NewLineReader_WF chunks hch)
    (NewLineReader_lineBuf chunks) [] c (k' ++ (w1 ++ s1 :: w2) ++ s2 :: v) term
    (c :: k') (w1 ++ s1 :: w2) (s2 :: v) (c :: k') (s2 :: v)
    (by rw [NewLineReader_stream, hin]; simp) hterm rfl hstart
    (fun b hb => by have := hall b (by simp only [List.mem_cons]; exact Or.inr hb); omega)
    (fun pb => bsFlag_noBackslash pb _ (by simp) (fun b hb => (hall b hb).2.2))
    (by simp)
    (noSep_plain false _ hkp)
    (bsFlag_noBackslash false _ (by simp) (fun b hb => by
      have := hkp b hb; unfold plainByte at this; omega))
    hs0 hsl
    (fun stale => by
      have := loadConvert_noBackslash [] (c :: k') ((w1 ++ s1 :: w2) ++ (s2 :: v) ++ stale)
        (fun b hb => by have := hkp b hb; unfold plainByte at this; omega)
      simpa using this)
    (fun stale => by
      have := loadConvert_noBackslash ((c :: k') ++ (w1 ++ s1 :: w2)) (s2 :: v) stale
        (fun b hb => by
          simp only [List.mem_cons] at hb
          rcases hb with rfl | hb
          · omega
          · exact (hv b hb).1)
      have e3 : ((c :: k') ++ (w1 ++ s1 :: w2)).length
          = (c :: k').length + (w1 ++ s1 :: w2).length := by
        simp only [List.length_append]
      rw [e3] at this
      simpa using this)]
  rfl

theorem second_separator_starts_value_witness :
    Load NewProperties [bytes "k =", bytes " : v"]
      = (none, .mk ⟨[(.str (bytes "k"), .str (bytes ": v"))]⟩ none) :=
  second_separator_starts_value (bytes "k") [32] [32] (bytes " v") [] 61 58
    [bytes "k =", bytes " : v"]
    (by decide) (by decide) (by decide) (by decide) (by decide) (by decide) (by decide)
    (by decide) (by decide) (by decide) (by decide)

/-- The example of C20: `k==v` gives the value `=v`. -/
theorem second_separator_example :
    Load NewProperties [bytes "k==v"]
      = (none, .mk ⟨[(.str (bytes "k"), .str (bytes "=v"))]⟩ none) := by
  decide!

/-! ## Input that ends in a dangling backslash -/

/-- The loop from the first byte of a logical line that the end of input ends, when
the last byte is an unpaired backslash: the backslash is retracted. -/
theorem readLineLoop_last_bs (l : LineReader) (hwf : l.WF) (hbuf : 0 < l.lineBuf.length)
    (c : Nat) (body : List Nat) (pb : Bool)
    (hs : l.stream = c :: body) (hc : lineStart c)
    (hbody : ∀ b ∈ body, b ≠ 10 ∧ b ≠ 13)
    (hpb : bsFlag pb (c :: body) = true) :
    ∃ l' : LineReader, l'.WF ∧ l'.stream = [] ∧ (c :: body).length < l'.lineBuf.length ∧
      l'.lineBuf.take (c :: body).length = c :: body ∧
      ∀ fuel, readLineLoop (fuel + 1 + body.length + 1) l 0 (Flags.fresh pb)
        = .ok ((body.length : Int), l') := by
  obtain ⟨l1, hwf1, hs1, hlb1, hstep1⟩ :=
    readLineLoop_cons l hwf c (body ++ []) (by simpa using hs)
  have hlen1 : 0 < l1.lineBuf.length := by rw [hlb1]; exact hbuf
  obtain ⟨l2, hwf2, hs2, hlen2, htake2, hstep2⟩ :=
    readLineLoop_append [] body { l1 with lineBuf := pushByte l1.lineBuf 0 c } (0 + 1)
      false (if c = 92 then !pb else false) (WF_lineBuf l1 _ hwf1)
      (by rw [stream_lineBuf]; exact hs1) hbody (pushByte_length _ _ _ hlen1)
  obtain ⟨l3, hwf3, hs3, hlb3, hstep3⟩ := readLineLoop_nil l2 hwf2 hs2
  refine ⟨l3, hwf3, hs3, ?_, ?_, fun fuel => ?_⟩
  · rw [hlb3]
    simp only [List.length_cons]
    omega
  · rw [hlb3]
    have e : (c :: body).length = 0 + 1 + body.length := by simp only [List.length_cons]; omega
    rw [e, htake2]
    show List.take (0 + 1) (pushByte l1.lineBuf 0 c) ++ body = _
    rw [pushByte_take _ _ _ hlen1]
    simp
  · have e : fuel + 1 + body.length + 1 = (fuel + 1 + body.length) + 1 := rfl
    rw [e, hstep1, readLineByte_start c l1 0 pb hc hlen1]
    simp only []
    rw [hstep2 (fuel + 1), hstep3]
    have hpb' : bsFlag (if c = 92 then !pb else false) body = true := by
      simpa [bsFlag] using hpb
    rw [hpb']
    simp [Flags.inLine]

/-- The call `readLine` on the last line of an input that ends in an unpaired
backslash, after lines that yield no logical line. -/
theorem readLine_last_bs (l : LineReader) (hwf : l.WF) (hbuf : 0 < l.lineBuf.length)
    (skip : List Nat) (c : Nat) (body : List Nat)
    (hs : l.stream = skip ++ (c :: body))
    (hskip : skipRun false skip = some false) (hc : lineStart c)
    (hbody : ∀ b ∈ body, b ≠ 10 ∧ b ≠ 13)
    (hpb : ∀ pb, bsFlag pb (c :: body) = true) :
    ∃ l' : LineReader, readLine l = .ok ((body.length : Int), l') ∧
      l'.WF ∧ l'.stream = [] ∧ (c :: body).length < l'.lineBuf.length ∧
      l'.lineBuf.take (c :: body).length = c :: body := by
  obtain ⟨l1, len1, pb1, hwf1, hs1, hlen1, h01, hstep1⟩ :=
    readLineLoop_skipRun (c :: body) skip false l 0 false false hwf
      hs hskip hbuf (fun _ => rfl)
  have h0 := h01 rfl
  subst h0
  obtain ⟨l2, hwf2, hs2, hlen2, htake2, hstep2⟩ :=
    readLineLoop_last_bs l1 hwf1 hlen1 c body pb1 hs1 hc hbody (hpb pb1)
  refine ⟨l2, ?_, hwf2, hs2, hlen2, htake2⟩
  unfold readLine
  rw [avail_eq l hwf, hs, Flags.init_eq]
  have e : (skip ++ (c :: body)).length + 1
      = (0 + 1 + body.length + 1) + skip.length := by
    simp only [List.length_append, List.length_cons]
    omega
  rw [e]
  have := hstep1 (0 + 1 + body.length + 1)
  simp only [skipFlags, Bool.false_eq_true, if_false] at this
  rw [this, hstep2]

theorem bsFlag_replicate (n : Nat) : ∀ pb, bsFlag pb (List.replicate n 92) = (pb != decide (n % 2 = 1)) := by
  induction n with
  | zero => intro pb; simp [bsFlag]
  | succ n ih =>
    intro pb
    have e : bsFlag pb (List.replicate (n + 1) 92) = bsFlag (!pb) (List.replicate n 92) := by
      simp [bsFlag, List.replicate_succ]
    rw [e, ih]
    by_cases h : n % 2 = 1
    · have h2 : ¬ (n + 1) % 2 = 1 := by omega
      cases pb <;> simp [h, h2]
    · have h2 : (n + 1) % 2 = 1 := by omega
      cases pb <;> simp [h, h2]

theorem bsFlag_getLast (xs : List Nat) (hne : xs ≠ []) (h : ∀ b ∈ xs.getLast?, b ≠ 92) :
    ∀ pb, bsFlag pb xs = false := by
  intro pb
  obtain ⟨ys, b, rfl⟩ : ∃ ys b, xs = ys ++ [b] :=
    ⟨xs.dropLast, xs.getLast hne, (List.dropLast_append_getLast hne).symm⟩
  have hb : b ≠ 92 := h b (by simp)
  simp [bsFlag, List.foldl_append, hb]

/-- Pairs of backslashes after bytes without backslash: `loadConvert` halves them. -/
theorem loadConvertLoop_pairs (inp rest : List Nat) (end_ : Nat) :
    ∀ (m fuel off : Nat) (out : List Nat),
      inp.drop off = List.replicate (2 * m) 92 ++ rest → end_ = off + 2 * m → m ≤ fuel →
      loadConvertLoop inp end_ fuel off out = .ok (out ++ List.replicate m 92) := by
  intro m
  induction m with
  | zero =>
    intro fuel off out _ he _
    rw [loadConvertLoop_done inp end_ fuel off out (by omega)]
    simp
  | succ m ih =>
    intro fuel off out hd he hf
    obtain ⟨fuel, rfl⟩ : ∃ k, fuel = k + 1 := ⟨fuel - 1, by omega⟩
    have e2 : 2 * (m + 1) = 2 * m + 1 + 1 := by omega
    rw [e2, List.replicate_succ, List.replicate_succ] at hd
    have g0 := getElem?_of_drop hd 0
    have g1 := getElem?_of_drop hd 1
    simp at g0 g1
    rw [loadConvertLoop_escape inp end_ fuel off 92 out g0 g1 (by decide) (by omega)]
    rw [ih fuel (off + 2) _ ?_ (by omega) (by omega)]
    · simp [unescape, List.replicate_succ]
    · have := congrArg (List.drop 2) hd
      rw [List.drop_drop] at this
      rw [this]
      simp

theorem loadConvertLoop_plain_pairs (inp rest : List Nat) (end_ m : Nat) :
    ∀ (xs : List Nat) (fuel off : Nat) (out : List Nat), (∀ b ∈ xs, b ≠ 92) →
      inp.drop off = xs ++ List.replicate (2 * m) 92 ++ rest →
      end_ = off + xs.length + 2 * m → xs.length + m ≤ fuel →
      loadConvertLoop inp end_ fuel off out = .ok (out ++ xs ++ List.replicate m 92) := by
  intro xs
  induction xs with
  | nil =>
    intro fuel off out _ hd he hf
    rw [loadConvertLoop_pairs inp rest end_ m fuel off out (by simpa using hd)
      (by simpa using he) (by simpa using hf)]
    simp
  | cons c xs ih =>
    intro fuel off out hb hd he hf
    simp only [List.length_cons] at he hf
    obtain ⟨fuel, rfl⟩ : ∃ k, fuel = k + 1 := ⟨fuel - 1, by omega⟩
    have g0 := getElem?_of_drop hd 0
    simp at g0
    rw [loadConvertLoop_plain inp end_ fuel off c out g0 (hb c (by simp)) (by omega)]
    rw [ih fuel (off + 1) _ (fun b hb' => hb b (by simp [hb'])) ?_ (by omega) (by omega)]
    · simp
    · have := congrArg (List.drop 1) hd
      rw [List.drop_drop] at this
      rw [this]
      simp

theorem loadConvert_plain_pairs (pre xs rest : List Nat) (m : Nat) (h : ∀ b ∈ xs, b ≠ 92) :
    loadConvert (pre ++ (xs ++ List.replicate (2 * m) 92) ++ rest) pre.length
      (xs ++ List.replicate (2 * m) 92).length = .ok (xs ++ List.replicate m 92) := by
  unfold loadConvert
  rw [loadConvertLoop_plain_pairs (pre ++ (xs ++ List.replicate (2 * m) 92) ++ rest) rest _ m xs
    _ _ [] h (by simp) (by simp; omega) (by simp; omega)]
  simp

/-! ## Claim: truncated input -/

/-- Loading an input whose last line ends in an unpaired backslash, without a line
terminator: the line without that backslash is parsed. -/
theorem load0_entry_truncated (p : Props) (lr : LineReader) (hwf : lr.WF)
    (hbuf : 0 < lr.lineBuf.length)
    (skip : List Nat) (c : Nat) (body kx sx vx key value : List Nat)
    (hin : lr.stream = skip ++ (c :: body))
    (hskip : skipRun false skip = some false) (hc : lineStart c)
    (hbody : ∀ b ∈ body, b ≠ 10 ∧ b ≠ 13)
    (hpb : ∀ pb, bsFlag pb (c :: body) = true)
    (hsplit : c :: body = kx ++ sx ++ vx ++ [92])
    (hk : noSep false kx) (hkb : bsFlag false kx = false)
    (hs0 : (keySpan false (sx ++ vx)).1 = 0) (hs1 : sepLen (sx ++ vx) = sx.length)
    (hkey : ∀ stale, loadConvert (kx ++ sx ++ vx ++ stale) 0 kx.length = .ok key)
    (hval : ∀ stale, loadConvert (kx ++ sx ++ vx ++ stale) (kx.length + sx.length) vx.length
      = .ok value) :
    load0 p lr = (none, (p.Put (.str key) (.str value)).2) := by
  have hav : lr.avail + 1 = (lr.avail - 1) + 1 + 1 := by
    have := avail_eq lr hwf
    rw [hin] at this
    simp only [List.length_append, List.length_cons] at this
    omega
  obtain ⟨l', hrl, hwf', hs', hlen', htake'⟩ :=
    readLine_last_bs lr hwf hbuf skip c body hin hskip hc hbody hpb
  have hlen : body.length = (kx ++ sx ++ vx).length := by
    have := congrArg List.length hsplit
    simp only [List.length_cons, List.length_append, List.length_nil] at this ⊢
    omega
  have htake : l'.lineBuf.take (kx ++ sx ++ vx).length = kx ++ sx ++ vx := by
    have hmin : min (kx ++ sx ++ vx).length (c :: body).length = (kx ++ sx ++ vx).length := by
      rw [hsplit]; simp
    have := congrArg (List.take (kx ++ sx ++ vx).length) htake'
    rw [List.take_take, hmin] at this
    rw [this, hsplit, List.take_append_of_le_length (le_refl _), List.take_length]
  unfold load0
  rw [hav, load0Loop_line _ lr l' p _ body.length hrl
    (by rw [hlen]; exact loadLine_entry p l' _ kx sx vx key value rfl hk hkb hs0 hs1 hkey hval htake),
    load0Loop_end _ _ l' hwf' (by omega) [] false hs' rfl]

/-- The separator scan when the value starts with something that is neither white
space nor `=` or `:`, or is empty. -/
theorem keySpan_sep_gen (sep v : List Nat) (hsep : IsSeparator sep)
    (hv : ∀ hs, valueSkip hs v = 0) :
    (keySpan false (sep ++ v)).1 = 0 ∧ sepLen (sep ++ v) = sep.length := by
  rcases hsep with ⟨hne, hw⟩ | ⟨w1, s, w2, rfl, hs, hw1, hw2⟩
  · cases sep with
    | nil => exact absurd rfl hne
    | cons c w =>
      have hc := hw c (by simp)
      have hc1 : ¬ (c = 61 ∨ c = 58) := by omega
      have hww : ∀ b ∈ w, b = 32 ∨ b = 9 ∨ b = 12 := fun b hb => hw b (by simp [hb])
      simp [keySpan, sepLen, hc, hc1, valueSkip_ws v false w hww, hv false]
      omega
  · exact keySpan_sep_stop w1 w2 v s hs hw1 hw2 (hv true)

theorem valueSkip_plain_bs (v : List Nat) (m : Nat) (hv : ∀ b ∈ v, plainByte b) :
    ∀ hs, valueSkip hs (v ++ List.replicate m 92) = 0 := by
  intro hs
  cases v with
  | nil =>
    cases m with
    | zero => rfl
    | succ m => simp [valueSkip, List.replicate_succ]
  | cons c v =>
    have := hv c (by simp)
    unfold plainByte at this
    have h3 : c ≠ 32 ∧ c ≠ 9 ∧ c ≠ 12 := by omega
    have h4 : ¬ (c = 61 ∨ c = 58) := by omega
    simp [valueSkip, h3, h4]

/-- Truncated input whose last line has a content. The input ends, with no line
terminator, in a line `c body` (a first byte that starts a logical line, then bytes without line
terminator, the last byte of the content not a backslash) followed by an odd number
`n` of backslashes, after bytes `skip` that yield no logical line, however the reader
cuts the input. Then `readLine` returns the length of the content plus `n - 1`, never
-1 or a failure, and the line buffer holds the content followed by `n - 1` backslashes:
the one dangling backslash is removed. And when the content is `k sep v` with a plain
key and value, `Load` returns no error and stores exactly the pair of `k` and `v`
followed by the `(n - 1) / 2` backslashes that the pairs decode to. -/
theorem truncated_input_is_not_an_error (chunks : Reader) (skip body : List Nat) (c n : Nat)
    (hch : ∀ ch ∈ chunks, ch ≠ [])
    (hin : chunks.flatten = skip ++ (c :: body) ++ List.replicate n 92)
    (hskip : skipRun false skip = some false) (hc : lineStart c)
    (hbody : ∀ b ∈ body, b ≠ 10 ∧ b ≠ 13)
    (hlast : ∀ b ∈ (c :: body).getLast?, b ≠ 92) (hn : n % 2 = 1) :
    (∃ l' : LineReader,
      readLine (NewLineReader chunks) = .ok ((((c :: body).length + (n - 1) : Nat) : Int), l') ∧
      l'.lineBuf.take ((c :: body).length + (n - 1)) = (c :: body) ++ List.replicate (n - 1) 92) ∧
    (∀ k sep v : List Nat, c :: body = k ++ sep ++ v → k ≠ [] → (∀ b ∈ k, plainByte b) →
      IsSeparator sep → (∀ b ∈ v, plainByte b) →
      Load NewProperties chunks
        = (none, .mk ⟨[(.str k, .str (v ++ List.replicate ((n - 1) / 2) 92))]⟩ none)) := by
  obtain ⟨m, rfl⟩ : ∃ m, n = 2 * m + 1 := ⟨n / 2, by omega⟩
  have hm1 : 2 * m + 1 - 1 = 2 * m := by omega
  have hm2 : 2 * m / 2 = m := by omega
  rw [hm1, hm2]
  have hrep : List.replicate (2 * m + 1) 92 = List.replicate (2 * m) 92 ++ [92] := by
    rw [List.replicate_succ']
  have hwf := NewLineReader_WF chunks hch
  have hbuf := NewLineReader_lineBuf chunks
  have hstream : (NewLineReader chunks).stream
      = skip ++ (c :: (body ++ List.replicate (2 * m + 1) 92)) := by
    rw [NewLineReader_stream, hin]; simp
  have hbody2 : ∀ b ∈ body ++ List.replicate (2 * m + 1) 92, b ≠ 10 ∧ b ≠ 13 := by
    intro b hb
    rw [List.mem_append] at hb
    rcases hb with hb | hb
    · exact hbody b hb
    · have := List.eq_of_mem_replicate hb
      omega
  have hpb : ∀ pb, bsFlag pb (c :: (body ++ List.replicate (2 * m + 1) 92)) = true := by
    intro pb
    have e : c :: (body ++ List.replicate (2 * m + 1) 92)
        = (c :: body) ++ List.replicate (2 * m + 1) 92 := by simp
    rw [e, bsFlag_append, bsFlag_getLast (c :: body) (by simp) hlast pb, bsFlag_replicate]
    have : (2 * m + 1) % 2 = 1 := by omega
    simp [this]
  refine ⟨?_, ?_⟩
  · obtain ⟨l', hrl, hwf', hs', hlen', htake'⟩ :=
      readLine_last_bs _ hwf hbuf skip c _ hstream hskip hc hbody2 hpb
    refine ⟨l', ?_, ?_⟩
    · rw [hrl]
      congr 2
      simp only [List.length_append, List.length_cons, List.length_replicate]
      push_cast
      omega
    · have := congrArg (List.take ((c :: body).length + 2 * m)) htake'
      rw [List.take_take] at this
      have e1 : min ((c :: body).length + 2 * m)
          (c :: (body ++ List.replicate (2 * m + 1) 92)).length = (c :: body).length + 2 * m := by
        simp only [List.length_append, List.length_cons, List.length_replicate]
        omega
      rw [e1] at this
      rw [this]
      have e : c :: (body ++ List.replicate (2 * m + 1) 92)
          = ((c :: body) ++ List.replicate (2 * m) 92) ++ [92] := by
        rw [hrep]; simp
      rw [e, List.take_append_of_le_length
        (by simp only [List.length_append, List.length_cons, List.length_replicate]; omega),
        List.take_of_length_le
        (by simp only [List.length_append, List.length_cons, List.length_replicate]; omega)]
  · intro k sep v hsplit hk hkp hsep hvp
    have hk0 : noSep false k := noSep_plain false _ hkp
    have hkb : bsFlag false k = false :=
      bsFlag_noBackslash false _ hk (fun b hb => by
        have := hkp b hb; unfold plainByte at this; omega)
    obtain ⟨hs0, hs1⟩ := keySpan_sep_gen sep (v ++ List.replicate (2 * m) 92) hsep
      (valueSkip_plain_bs v (2 * m) hvp)
    unfold Load
    rw [load0_entry_truncated NewProperties (NewLineReader chunks) hwf hbuf skip c
      (body ++ List.replicate (2 * m + 1) 92) k sep (v ++ List.replicate (2 * m) 92)
      k (v ++ List.replicate m 92) hstream hskip hc hbody2 hpb
      (by
        have e : c :: (body ++ List.replicate (2 * m + 1) 92)
            = (c :: body) ++ List.replicate (2 * m + 1) 92 := by simp
        rw [e, hsplit, hrep]
        simp)
      hk0 hkb hs0 hs1
      (fun stale => by
        have := loadConvert_noBackslash [] k (sep ++ (v ++ List.replicate (2 * m) 92) ++ stale)
          (fun b hb => by have := hkp b hb; unfold plainByte at this; omega)
        simpa using this)
      (fun stale => by
        have := loadConvert_plain_pairs (k ++ sep) v stale m
          (fun b hb => by have := hvp b hb; unfold plainByte at this; omega)
        have e3 : (k ++ sep).length = k.length + sep.length := by
          simp only [List.length_append]
        rw [e3] at this
        exact this)]
    rfl

theorem truncated_input_is_not_an_error_witness :
    (∃ l' : LineReader,
      readLine (NewLineReader [bytes "#c\nk=", bytes "v\\\\\\"]) = .ok (((3 + (3 - 1) : Nat) : Int), l') ∧
      l'.lineBuf.take (3 + (3 - 1)) = bytes "k=v" ++ List.replicate (3 - 1) 92) ∧
    Load NewProperties [bytes "#c\nk=", bytes "v\\\\\\"]
      = (none, .mk ⟨[(.str (bytes "k"), .str (bytes "v" ++ List.replicate ((3 - 1) / 2) 92))]⟩ none) :=
  ⟨(truncated_input_is_not_an_error [bytes "#c\nk=", bytes "v\\\\\\"] (bytes "#c\n") (bytes "=v")
      107 3 (by decide) (by decide) (by decide) (by decide) (by decide) (by decide) (by decide)).1,
    (truncated_input_is_not_an_error [bytes "#c\nk=", bytes "v\\\\\\"] (bytes "#c\n") (bytes "=v")
      107 3 (by decide) (by decide) (by decide) (by decide) (by decide) (by decide) (by decide)).2
      (bytes "k") (bytes "=") (bytes "v") (by decide) (by decide) (by decide)
      (Or.inr ⟨[], 61, [], by decide, by decide, by decide, by decide⟩) (by decide)⟩

/-- Examples of truncated input: `k=v\` loads as the pair of `k` and `v`, and `k=v\\\` as the pair
of `k` and `v\`. -/
theorem truncated_input_examples :
    readLines [bytes "k=v\\"] = .ok [bytes "k=v"] ∧
    Load NewProperties [bytes "k=v\\"]
      = (none, .mk ⟨[(.str (bytes "k"), .str (bytes "v"))]⟩ none) ∧
    Load NewProperties [bytes "k=v\\\\\\"]
      = (none, .mk ⟨[(.str (bytes "k"), .str (bytes "v\\"))]⟩ none) := by
  refine ⟨?_, ?_, ?_⟩ <;> decide!

/-! ## The line reader never fails -/

theorem fill_limit (l : LineReader) : (fill l).1.inLimit ≤ (fill l).1.inByteBuf.length := by
  cases hr : l.reader with
  | nil => simp [fill, Read, hr]
  | cons ch rs =>
    by_cases hle : ch.length ≤ l.inByteBuf.length
    · simp [fill, Read, hr, hle]
    · simp [fill, Read, hr, hle]
      omega

theorem fill_lineBuf (l : LineReader) : (fill l).1.lineBuf = l.lineBuf := by
  simp [fill]

theorem eolTail_ok (c : Nat) (l : LineReader) (len : Nat) (f : Flags)
    (hl : l.inLimit ≤ l.inByteBuf.length ∧ 0 < l.lineBuf.length) :
    IterOk (eolTail c l len f) := by
  unfold eolTail
  by_cases h : f.precedingBackslash = true
  · rw [if_pos h]; exact hl
  · rw [if_neg h]; exact hl

theorem readLineByte_ok (c : Nat) (l : LineReader) (len : Nat) (f : Flags)
    (hl : l.inLimit ≤ l.inByteBuf.length) (hlen : len < l.lineBuf.length) :
    IterOk (readLineByte c l len f) := by
  have hpos : 0 < l.lineBuf.length := by omega
  have hf : (fill l).1.inLimit ≤ (fill l).1.inByteBuf.length ∧ 0 < (fill l).1.lineBuf.length :=
    ⟨fill_limit l, by rw [fill_lineBuf]; exact hpos⟩
  unfold readLineByte
  by_cases h1 : f.skipLF = true ∧ c = 10
  · rw [if_pos h1]
    exact ⟨hl, hpos⟩
  rw [if_neg h1]
  dsimp only
  by_cases h2 : f.skipWhiteSpace = true ∧ (c = 32 ∨ c = 9 ∨ c = 12)
  · rw [if_pos h2]
    exact ⟨hl, hpos⟩
  rw [if_neg h2]
  by_cases h3 : f.skipWhiteSpace = true ∧ f.appendedLineBegin = false ∧ (c = 13 ∨ c = 10)
  · rw [if_pos h3]
    exact ⟨hl, hpos⟩
  rw [if_neg h3]
  split_ifs with h4 h5 h6 h7 h8 h9 h10 h11 h12 h13 h14 h15 h16
  all_goals first
    | exact ⟨hl, hpos⟩
    | exact eolTail_ok c _ _ _ ⟨hl, hpos⟩
    | exact hf
    | exact eolTail_ok c _ _ _ hf
    | exact absurd hlen (by assumption)
    | (refine ⟨hl, ?_⟩
       simp only [List.length_append, List.length_set, List.length_replicate]
       omega)

theorem readLineIter_ok (l : LineReader) (len : Nat) (f : Flags)
    (hl : l.inLimit ≤ l.inByteBuf.length) (hlen : len < l.lineBuf.length) :
    IterOk (readLineIter l len f) := by
  unfold readLineIter
  by_cases hge : l.inOff ≥ l.inLimit
  · obtain ⟨fa, fl, fo⟩ := fill_avail l hge
    have hfl := fill_limit l
    have hfp : 0 < (fill l).1.lineBuf.length := by rw [fl]; omega
    simp only [hge, if_true]
    by_cases he : (fill l).2 = true
    · simp only [he, if_true]
      split_ifs <;> exact ⟨hfl, hfp⟩
    · simp only [he]
      have hlt := fo (by simpa using he)
      cases hc : (fill l).1.inByteBuf[(fill l).1.inOff]? with
      | none =>
        exfalso
        rw [List.getElem?_eq_none_iff] at hc
        omega
      | some c =>
        simp only []
        apply readLineByte_ok
        · exact hfl
        · rw [fl]; exact hlen
  · simp only [hge, if_false]
    cases hc : l.inByteBuf[l.inOff]? with
    | none =>
      exfalso
      rw [List.getElem?_eq_none_iff] at hc
      omega
    | some c =>
      simp only []
      apply readLineByte_ok
      · exact hl
      · exact hlen

/-- With enough fuel the loop of `readLine` returns: it never fails and never writes
outside `lineBuf`. -/
theorem readLineLoop_total :
    ∀ (fuel : Nat) (l : LineReader) (len : Nat) (f : Flags),
      l.avail < fuel → l.inLimit ≤ l.inByteBuf.length → len < l.lineBuf.length →
      ∃ (n : Int) (l' : LineReader), readLineLoop fuel l len f = .ok (n, l') ∧
        l'.inLimit ≤ l'.inByteBuf.length ∧ 0 < l'.lineBuf.length := by
  intro fuel
  induction fuel with
  | zero => intro l len f h; omega
  | succ fuel ih =>
    intro l len f hf hl hlen
    have hinv := readLineIter_inv l len f hlen
    have hok := readLineIter_ok l len f hl hlen
    rw [readLineLoop]
    cases hi : readLineIter l len f with
    | next l1 len1 f1 =>
      rw [hi] at hinv hok
      obtain ⟨h1, h2⟩ := hinv
      exact ih l1 len1 f1 (by omega) hok.1 h2
    | ret n1 l1 =>
      rw [hi] at hok
      exact ⟨n1, l1, rfl, hok⟩
    | fault e =>
      rw [hi] at hok
      exact absurd hok id

theorem readLine_total (l : LineReader) (hl : l.inLimit ≤ l.inByteBuf.length)
    (hbuf : 0 < l.lineBuf.length) :
    ∃ (n : Int) (l' : LineReader), readLine l = .ok (n, l') ∧
      l'.inLimit ≤ l'.inByteBuf.length ∧ 0 < l'.lineBuf.length ∧
      n < (l'.lineBuf.length : Int) ∧ l'.avail ≤ l.avail := by
  obtain ⟨n, l', h, hl', hp'⟩ :=
    readLineLoop_total (l.avail + 1) l 0 Flags.init (by omega) hl hbuf
  have hinv := readLine_inv l l' n hbuf h
  exact ⟨n, l', h, hl', hp', hinv.1, hinv.2.1⟩

/-! ## Claim: line buffer growth -/

/-- C22: line buffer growth loses nothing. For every logical line `c body` of any
length (a first byte that starts a line, then bytes without line terminator, not
ending in an unpaired backslash), ended by a line terminator or by the end of the
input, after bytes `skip` that yield no logical line and however the reader cuts the
input: `readLine` returns the length of the line, the capacity of `lineBuf` is above
it and `lineBuf[0:n]` is the line byte for byte, whatever number of doublings the
length forces. And from every reader state with `inLimit` within the input buffer and
a non-empty `lineBuf` (the new reader is one), `readLine` returns: the bounds check
before the write `lineBuf[length] = c` never fails, the returned length is below the
capacity, and the state after the call is again such a state. -/
theorem line_buffer_growth_loses_nothing (chunks : Reader) (skip body rest : List Nat) (c : Nat)
    (hch : ∀ ch ∈ chunks, ch ≠ [])
    (hin : chunks.flatten = skip ++ (c :: body) ++ rest)
    (hskip : skipRun false skip = some false) (hc : lineStart c)
    (hbody : ∀ b ∈ body, b ≠ 10 ∧ b ≠ 13)
    (hrest : ∀ t ∈ rest.head?, t = 10 ∨ t = 13)
    (hpb : ∀ pb, bsFlag pb (c :: body) = false) :
    (∃ l' : LineReader,
      readLine (NewLineReader chunks) = .ok (((c :: body).length : Int), l') ∧
      (c :: body).length < l'.lineBuf.length ∧
      l'.lineBuf.take (c :: body).length = c :: body) ∧
    ((NewLineReader chunks).inLimit ≤ (NewLineReader chunks).inByteBuf.length ∧
      0 < (NewLineReader chunks).lineBuf.length) ∧
    (∀ l : LineReader, l.inLimit ≤ l.inByteBuf.length → 0 < l.lineBuf.length →
      ∃ (n : Int) (l' : LineReader), readLine l = .ok (n, l') ∧
        n < (l'.lineBuf.length : Int) ∧
        l'.inLimit ≤ l'.inByteBuf.length ∧ 0 < l'.lineBuf.length) := by
  have hwf := NewLineReader_WF chunks hch
  have hbuf := NewLineReader_lineBuf chunks
  refine ⟨?_, ⟨hwf.limit_le, hbuf⟩, fun l hl hb => ?_⟩
  · cases rest with
    | nil =>
      obtain ⟨l', hrl, -, -, hlen', htake'⟩ :=
        readLine_last _ hwf hbuf skip c body (by rw [NewLineReader_stream, hin]; simp)
          hskip hc hbody hpb
      exact ⟨l', hrl, hlen', htake'⟩
    | cons t rest' =>
      obtain ⟨l', hrl, -, -, hlen', htake'⟩ :=
        readLine_line _ hwf hbuf skip c body rest' t (by rw [NewLineReader_stream, hin])
          hskip hc hbody (hrest t (by simp)) hpb
      exact ⟨l', hrl, hlen', htake'⟩
  · obtain ⟨n, l', h, h1, h2, h3, -⟩ := readLine_total l hl hb
    exact ⟨n, l', h, h3, h1, h2⟩

theorem line_buffer_growth_loses_nothing_witness :
    (∃ l' : LineReader,
      readLine (NewLineReader [List.replicate 1500 97, [10, 98]])
        = .ok (((97 :: List.replicate 1499 97).length : Int), l') ∧
      (97 :: List.replicate 1499 97).length < l'.lineBuf.length ∧
      l'.lineBuf.take (97 :: List.replicate 1499 97).length = 97 :: List.replicate 1499 97) ∧
    ((NewLineReader [List.replicate 1500 97, [10, 98]]).inLimit
        ≤ (NewLineReader [List.replicate 1500 97, [10, 98]]).inByteBuf.length ∧
      0 < (NewLineReader [List.replicate 1500 97, [10, 98]]).lineBuf.length) ∧
    (∀ l : LineReader, l.inLimit ≤ l.inByteBuf.length → 0 < l.lineBuf.length →
      ∃ (n : Int) (l' : LineReader), readLine l = .ok (n, l') ∧
        n < (l'.lineBuf.length : Int) ∧
        l'.inLimit ≤ l'.inByteBuf.length ∧ 0 < l'.lineBuf.length) :=
  line_buffer_growth_loses_nothing [List.replicate 1500 97, [10, 98]] []
    (List.replicate 1499 97) [10, 98] 97
    (fun ch h => by
      rcases List.mem_cons.1 h with rfl | h
      · intro h2
        have := congrArg List.length h2
        rw [List.length_replicate, List.length_nil] at this
        exact absurd this (by decide)
      · rcases List.mem_cons.1 h with rfl | h
        · exact List.cons_ne_nil _ _
        · exact absurd h (List.not_mem_nil _))
    (by
      have e : List.replicate 1500 97 = 97 :: List.replicate 1499 97 := rfl
      rw [List.flatten_cons, List.flatten_cons, List.flatten_nil, e]
      simp only [List.nil_append, List.append_nil])
    rfl (by decide)
    (fun b hb => by have := List.eq_of_mem_replicate hb; omega)
    (by simp)
    (fun pb => bsFlag_noBackslash pb _ (List.cons_ne_nil _ _) (fun b hb => by
      have : b = 97 := by
        rcases List.mem_cons.1 hb with h | h
        · exact h
        · exact List.eq_of_mem_replicate h
      omega))

/-- An example of C22 by evaluation: a line of 5 bytes more than a capacity of 4. -/
theorem line_buffer_growth_example :
    (readLine { (NewLineReader [bytes "abcdefghi\nx"]) with lineBuf := [0, 0, 0, 0] }).map
        (fun r => (r.1, r.2.lineBuf.take 9, r.2.lineBuf.length))
      = .ok (9, bytes "abcdefghi", 16) := by
  decide!

/-! ## writeComments: the loop as a function of the rest of the comment text -/

theorem getD_at_append (pre rest : List Nat) (c : Nat) :
    (pre ++ c :: rest).getD pre.length 0 = c := by
  rw [List.getD_eq_getElem?_getD, List.getElem?_append_right (le_refl _)]
  simp

theorem getD_at_append_succ (pre rest : List Nat) (c d : Nat) :
    (pre ++ c :: d :: rest).getD (pre.length + 1) 0 = d := by
  rw [List.getD_eq_getElem?_getD, List.getElem?_append_right (by omega)]
  simp

theorem take_drop_snoc (pre rest : List Nat) (c last : Nat) (h : last ≤ pre.length) :
    ((pre ++ c :: rest).take (pre.length + 1)).drop last = pre.drop last ++ [c] := by
  have e : pre ++ c :: rest = (pre ++ [c]) ++ rest := by simp
  rw [e, List.take_append_of_le_length (by simp), List.take_of_length_le (by simp),
    List.drop_append_of_le_length h]

theorem take_drop_pre (pre rest : List Nat) (last : Nat) :
    ((pre ++ rest).take pre.length).drop last = pre.drop last := by
  rw [List.take_append_of_le_length (le_refl _), List.take_length]

theorem hashPrefix_eq (comments : List Nat) (n : Nat) (rest : List Nat)
    (hd : comments.drop (n + 1) = rest) (hn : n < comments.length) :
    (if n = comments.length - 1 ∨
        (comments.getD (n + 1) 0 ≠ 35 ∧ comments.getD (n + 1) 0 ≠ 33) then [35] else [])
      = hashPrefix rest := by
  cases rest with
  | nil =>
    have : comments.length ≤ n + 1 := by
      by_contra h
      have := congrArg List.length hd
      simp at this
      omega
    have h1 : n = comments.length - 1 := by omega
    simp [hashPrefix, h1]
  | cons d rest' =>
    have hl : n + 1 < comments.length := by
      have := congrArg List.length hd
      simp at this
      omega
    have hg : comments.getD (n + 1) 0 = d := by
      have := getElem?_of_drop hd 0
      rw [List.getD_eq_getElem?_getD]
      simp at this
      rw [this]
      rfl
    have h1 : ¬ n = comments.length - 1 := by omega
    rw [hg]
    by_cases hd2 : d = 35 ∨ d = 33
    · have : ¬ (d ≠ 35 ∧ d ≠ 33) := by omega
      simp [hashPrefix, h1, hd2, this]
    · have : (d ≠ 35 ∧ d ≠ 33) := by omega
      simp [hashPrefix, h1, hd2, this]

theorem commentsTail_nil (nl : List Nat) : commentsTail nl [] = nl := by
  rw [commentsTail.eq_def]

theorem commentsTail_lf (nl rest : List Nat) :
    commentsTail nl (10 :: rest) = nl ++ hashPrefix rest ++ commentsTail nl rest := by
  rw [commentsTail.eq_def]; simp

theorem commentsTail_cr_nil (nl : List Nat) : commentsTail nl [13] = nl ++ [35] ++ nl := by
  rw [commentsTail]; simp

theorem commentsTail_cr_lf (nl rest : List Nat) :
    commentsTail nl (13 :: 10 :: rest) = nl ++ hashPrefix rest ++ commentsTail nl rest := by
  rw [commentsTail]; simp

theorem commentsTail_cr (nl rest : List Nat) (d : Nat) (hd : d ≠ 10) :
    commentsTail nl (13 :: d :: rest)
      = nl ++ hashPrefix (d :: rest) ++ commentsTail nl (d :: rest) := by
  rw [commentsTail]; simp [hd]

theorem commentsTail_other (nl rest : List Nat) (c : Nat) (h10 : c ≠ 10) (h13 : c ≠ 13) :
    commentsTail nl (c :: rest) = c :: commentsTail nl rest := by
  rw [commentsTail.eq_def]; simp [h10, h13]

theorem flush_eq (pre rest out : List Nat) (last : Nat) (h : last ≤ pre.length) :
    (if last ≠ pre.length then out ++ ((pre ++ rest).take pre.length).drop last else out)
      = out ++ pre.drop last := by
  rw [take_drop_pre]
  by_cases hl : last = pre.length
  · simp [hl]
  · simp [hl]

/-- What `writeComments` writes after the loop, from the result of the loop. -/
theorem writeCommentsLoop_tail (nl comments : List Nat) (hb : ∀ b ∈ comments, b ≤ 255) :
    ∀ (fuel : Nat) (pre rest : List Nat) (last : Nat) (out : List Nat),
      comments = pre ++ rest → last ≤ pre.length → rest.length ≤ fuel →
      (if (writeCommentsLoop nl comments fuel pre.length last out).2.2
            ≠ (writeCommentsLoop nl comments fuel pre.length last out).2.1 then
          (writeCommentsLoop nl comments fuel pre.length last out).1 ++
            (comments.take (writeCommentsLoop nl comments fuel pre.length last out).2.1).drop
              (writeCommentsLoop nl comments fuel pre.length last out).2.2
        else (writeCommentsLoop nl comments fuel pre.length last out).1) ++ nl
      = out ++ pre.drop last ++ commentsTail nl rest := by
  intro fuel
  induction fuel with
  | zero =>
    intro pre rest last out hc hl hf
    have hr : rest = [] := List.length_eq_zero.mp (by omega)
    subst hr
    simp only [writeCommentsLoop, commentsTail]
    rw [hc, flush_eq pre [] out last hl]
  | succ fuel ih =>
    intro pre rest last out hc hl hf
    cases rest with
    | nil =>
      have hlt : ¬ pre.length < comments.length := by rw [hc]; simp
      simp only [writeCommentsLoop, hlt, if_false, commentsTail]
      rw [hc, flush_eq pre [] out last hl]
    | cons c rest1 =>
      have hlt : pre.length < comments.length := by rw [hc]; simp
      have hget : comments.getD pre.length 0 = c := by rw [hc]; exact getD_at_append pre rest1 c
      have hc255 : ¬ c > 255 := by
        have := hb c (by rw [hc]; simp)
        omega
      have hflush : (if last ≠ pre.length then out ++ (comments.take pre.length).drop last else out)
          = out ++ pre.drop last := by
        rw [hc]; exact flush_eq pre _ out last hl
      have hc1 : comments = (pre ++ [c]) ++ rest1 := by rw [hc]; simp
      have hl1 : (pre ++ [c]).length = pre.length + 1 := by simp
      rw [writeCommentsLoop]
      simp only [hlt, if_true, hget, hc255, false_or]
      by_cases h10 : c = 10
      · have h13 : ¬ c = 13 := by omega
        simp only [h10, true_or, if_true, hflush]
        have h13' : ¬ ((10 : Nat) = 13 ∧ pre.length ≠ comments.length - 1 ∧
            comments.getD (pre.length + 1) 0 = 10) := by omega
        simp only [h13', if_false]
        have hp := hashPrefix_eq comments pre.length rest1 (by rw [hc1, ← hl1]; simp) hlt
        have hout : (if pre.length = comments.length - 1 ∨
              (comments.getD (pre.length + 1) 0 ≠ 35 ∧ comments.getD (pre.length + 1) 0 ≠ 33) then
              out ++ pre.drop last ++ nl ++ [35] else out ++ pre.drop last ++ nl)
            = out ++ pre.drop last ++ nl ++ hashPrefix rest1 := by
          rw [← hp]
          split_ifs <;> simp
        rw [hout]
        have := ih (pre ++ [c]) rest1 (pre.length + 1) (out ++ pre.drop last ++ nl ++ hashPrefix rest1)
          hc1 (by simp) (by simp at hf; omega)
        rw [hl1] at this
        rw [this]
        subst h10
        simp [commentsTail_lf]
      · by_cases h13 : c = 13
        · subst h13
          simp only [or_true, if_true, if_false, hflush, true_and]
          cases rest1 with
          | nil =>
            have hlen : pre.length = comments.length - 1 := by rw [hc]; simp
            have h1 : ¬ (pre.length ≠ comments.length - 1 ∧
                comments.getD (pre.length + 1) 0 = 10) := by
              intro h; exact h.1 hlen
            rw [if_neg h1, if_pos (Or.inl hlen)]
            have := ih (pre ++ [13]) [] (pre.length + 1) (out ++ pre.drop last ++ nl ++ [35])
              hc1 (by simp) (by simp)
            rw [hl1] at this
            rw [this]
            simp [commentsTail_cr_nil, commentsTail_nil]
          | cons d rest2 =>
            have hlen : pre.length ≠ comments.length - 1 := by rw [hc]; simp
            have hget2 : comments.getD (pre.length + 1) 0 = d := by
              rw [hc]; exact getD_at_append_succ pre rest2 13 d
            by_cases hd : d = 10
            · subst hd
              have h1 : (pre.length ≠ comments.length - 1 ∧
                  comments.getD (pre.length + 1) 0 = 10) := ⟨hlen, hget2⟩
              rw [if_pos h1]
              have hc2 : comments = (pre ++ [13, 10]) ++ rest2 := by rw [hc]; simp
              have hl2 : (pre ++ [13, 10]).length = pre.length + 1 + 1 := by simp
              have hp := hashPrefix_eq comments (pre.length + 1) rest2
                (by rw [hc2, ← hl2]; simp) (by rw [hc]; simp)
              have hout : (if pre.length + 1 = comments.length - 1 ∨
                    (comments.getD (pre.length + 1 + 1) 0 ≠ 35 ∧
                      comments.getD (pre.length + 1 + 1) 0 ≠ 33) then
                    out ++ pre.drop last ++ nl ++ [35] else out ++ pre.drop last ++ nl)
                  = out ++ pre.drop last ++ nl ++ hashPrefix rest2 := by
                rw [← hp]
                split_ifs <;> simp
              rw [hout]
              have := ih (pre ++ [13, 10]) rest2 (pre.length + 1 + 1)
                (out ++ pre.drop last ++ nl ++ hashPrefix rest2)
                hc2 (by simp) (by simp at hf; omega)
              rw [hl2] at this
              rw [this]
              simp [commentsTail_cr_lf]
            · have h1 : ¬ (pre.length ≠ comments.length - 1 ∧
                  comments.getD (pre.length + 1) 0 = 10) := by
                rw [hget2]; intro h; exact hd h.2
              rw [if_neg h1]
              have hp := hashPrefix_eq comments pre.length (d :: rest2)
                (by rw [hc1, ← hl1]; simp) hlt
              have hout : (if pre.length = comments.length - 1 ∨
                    (comments.getD (pre.length + 1) 0 ≠ 35 ∧
                      comments.getD (pre.length + 1) 0 ≠ 33) then
                    out ++ pre.drop last ++ nl ++ [35] else out ++ pre.drop last ++ nl)
                  = out ++ pre.drop last ++ nl ++ hashPrefix (d :: rest2) := by
                rw [← hp]
                split_ifs <;> simp
              rw [hout]
              have := ih (pre ++ [13]) (d :: rest2) (pre.length + 1)
                (out ++ pre.drop last ++ nl ++ hashPrefix (d :: rest2))
                hc1 (by simp) (by simp at hf ⊢; omega)
              rw [hl1] at this
              rw [this]
              simp [commentsTail_cr _ _ _ hd]
        · simp only [h10, h13, or_self, if_false]
          have := ih (pre ++ [c]) rest1 last out hc1 (by simp; omega) (by simp at hf; omega)
          rw [hl1] at this
          rw [this, List.drop_append_of_le_length hl]
          simp [commentsTail_other _ _ _ h10 h13]

/-! ## Claim: the comment block -/

theorem writeComments_eq (GOOS : String) (comments : List Nat) (hb : ∀ b ∈ comments, b ≤ 255) :
    writeComments GOOS (some comments) = 35 :: commentsTail (newLine GOOS) comments := by
  have := writeCommentsLoop_tail (newLine GOOS) comments hb comments.length [] comments 0 [35]
    rfl (by simp) (le_refl _)
  simp only [List.length_nil, List.drop_nil, List.append_nil] at this
  unfold writeComments
  simp only []
  rw [this]
  rfl

theorem splitLines_nil : splitLines [] = [[]] := by
  rw [splitLines.eq_def]

theorem splitLines_lf (rest : List Nat) : splitLines (10 :: rest) = [] :: splitLines rest := by
  rw [splitLines.eq_def]; simp

theorem splitLines_cr_nil : splitLines [13] = [[], []] := by
  rw [splitLines.eq_def]; simp

theorem splitLines_cr_lf (rest : List Nat) :
    splitLines (13 :: 10 :: rest) = [] :: splitLines rest := by
  rw [splitLines.eq_def]; simp

theorem splitLines_cr (rest : List Nat) (d : Nat) (hd : d ≠ 10) :
    splitLines (13 :: d :: rest) = [] :: splitLines (d :: rest) := by
  rw [splitLines.eq_def]; simp [hd]

theorem splitLines_other (rest l : List Nat) (lss : List (List Nat)) (c : Nat)
    (h10 : c ≠ 10) (h13 : c ≠ 13) (h : splitLines rest = l :: lss) :
    splitLines (c :: rest) = (c :: l) :: lss := by
  rw [splitLines.eq_def]; simp [h10, h13, h]

/-- The bytes that `writeComments` writes from inside a line on are the rest of the
line, the newline, and the later lines, each behind its `#` when it has none. -/
theorem commentsTail_splitLines (nl : List Nat) :
    ∀ (n : Nat) (xs : List Nat), xs.length ≤ n →
      ∃ l ls, splitLines xs = l :: ls ∧
        commentsTail nl xs = l ++ nl ++ (ls.map (fun ln => prefixLine ln ++ nl)).flatten ∧
        hashPrefix xs ++ l = prefixLine l := by
  intro n
  induction n with
  | zero =>
    intro xs hx
    have : xs = [] := List.length_eq_zero.mp (by omega)
    subst this
    exact ⟨[], [], splitLines_nil, by simp [commentsTail_nil], rfl⟩
  | succ n ih =>
    intro xs hx
    cases xs with
    | nil => exact ⟨[], [], splitLines_nil, by simp [commentsTail_nil], rfl⟩
    | cons c rest =>
      simp only [List.length_cons] at hx
      by_cases h10 : c = 10
      · subst h10
        obtain ⟨l, ls, h1, h2, h3⟩ := ih rest (by omega)
        refine ⟨[], l :: ls, by rw [splitLines_lf, h1], ?_, rfl⟩
        rw [commentsTail_lf, h2]
        simp only [List.map_cons, List.flatten_cons, List.nil_append, ← h3]
        simp
      by_cases h13 : c = 13
      · subst h13
        cases rest with
        | nil =>
          refine ⟨[], [[]], splitLines_cr_nil, ?_, rfl⟩
          rw [commentsTail_cr_nil]
          simp [prefixLine]
        | cons d rest' =>
          simp only [List.length_cons] at hx
          by_cases hd : d = 10
          · subst hd
            obtain ⟨l, ls, h1, h2, h3⟩ := ih rest' (by omega)
            refine ⟨[], l :: ls, by rw [splitLines_cr_lf, h1], ?_, rfl⟩
            rw [commentsTail_cr_lf, h2]
            simp only [List.map_cons, List.flatten_cons, List.nil_append, ← h3]
            simp
          · obtain ⟨l, ls, h1, h2, h3⟩ := ih (d :: rest') (by simp only [List.length_cons]; omega)
            refine ⟨[], l :: ls, by rw [splitLines_cr _ _ hd, h1], ?_, rfl⟩
            rw [commentsTail_cr _ _ _ hd, h2]
            simp only [List.map_cons, List.flatten_cons, List.nil_append, ← h3]
            simp
      · obtain ⟨l, ls, h1, h2, h3⟩ := ih rest (by omega)
        refine ⟨c :: l, ls, splitLines_other rest l ls c h10 h13 h1, ?_, ?_⟩
        · rw [commentsTail_other _ _ _ h10 h13, h2]
          simp
        · by_cases hc : c = 35 ∨ c = 33
          · simp [hashPrefix, prefixLine, hc]
          · simp [hashPrefix, prefixLine, hc]

theorem commentBlock_eq (nl comments : List Nat) :
    commentBlock nl comments = 35 :: commentsTail nl comments := by
  obtain ⟨l, ls, h1, h2, -⟩ := commentsTail_splitLines nl comments.length comments (le_refl _)
  unfold commentBlock
  rw [h1, h2]
  simp

/-- C15 as stated fails: a first line that already starts with `#` still gets a `#`
in front of it. For the comment `#a` the code writes `##a` and the newline, where the
statement gives `#a` and the newline. -/
theorem writeComments_first_line_always_prefixed :
    writeComments "linux" (some (bytes "#a")) = bytes "##a\n" ∧
    claimedCommentBlock (newLine "linux") (bytes "#a") = bytes "#a\n" ∧
    writeComments "linux" (some (bytes "#a"))
      ≠ claimedCommentBlock (newLine "linux") (bytes "#a") := by
  refine ⟨by decide, by decide, by decide⟩

/-- C15, amended: comment block emission. For every platform and every non-nil comment
byte string (bytes up to 255), `writeComments` writes a `#`, then the lines of the
comment split at each `\n`, `\r` or `\r\n`, each followed by the platform newline; the
first line always stands behind that `#`, every later line gets a `#` in front of it
unless it already starts with `#` or `!`. -/
theorem writeComments_is_commentBlock (GOOS : String) (comments : List Nat)
    (hb : ∀ b ∈ comments, b ≤ 255) :
    writeComments GOOS (some comments) = commentBlock (newLine GOOS) comments := by
  rw [writeComments_eq GOOS comments hb, commentBlock_eq]

theorem writeComments_is_commentBlock_witness :
    writeComments "windows" (some (bytes "#a\r\n\rb\n!c"))
      = commentBlock (newLine "windows") (bytes "#a\r\n\rb\n!c") :=
  writeComments_is_commentBlock "windows" (bytes "#a\r\n\rb\n!c") (by decide)

/-- The examples of C15: the comment of `TestWriteComments` gives its three lines, and
a comment with one embedded newline gives two lines behind a `#`. -/
theorem writeComments_examples :
    writeComments "windows" (some (bytes "comment1\n!comment2\n#comment3"))
      = bytes "#comment1\r\n!comment2\r\n#comment3\r\n" ∧
    writeComments "linux" (some (bytes "a\nb")) = bytes "#a\n#b\n" ∧
    writeComments "linux" none = [] ∧
    claimedCommentBlock (newLine "windows") (bytes "comment1\n!comment2\n#comment3")
      = bytes "#comment1\r\n!comment2\r\n#comment3\r\n" := by
  refine ⟨by decide!, by decide!, by decide, by decide!⟩

/-! ## saveConvert: what the written bytes look like to the reader -/

theorem toHex_range (n : Int) :
    (48 ≤ toHex n ∧ toHex n ≤ 57) ∨ (65 ≤ toHex n ∧ toHex n ≤ 70) := by
  have h : (n % 16).toNat < 16 := by omega
  unfold toHex
  generalize (n % 16).toNat = k at h
  interval_cases k <;> simp [hexDigit]

/-- The three shapes of what `saveConvert` writes for one byte. -/
theorem saveConvertChar_shape (es eu : Bool) (x a : Nat) :
    (saveConvertChar es eu x a = [a] ∧ a ≠ 92 ∧ a ≠ 9 ∧ a ≠ 10 ∧ a ≠ 13 ∧ a ≠ 12 ∧ a ≠ 61 ∧
        a ≠ 58 ∧ a ≠ 35 ∧ a ≠ 33 ∧ (a = 32 → x ≠ 0 ∧ es = false))
    ∨ (∃ b, saveConvertChar es eu x a = [92, b] ∧ b ≠ 10 ∧ b ≠ 13)
    ∨ (∃ h1 h2 h3 h4, saveConvertChar es eu x a = [92, 117, h1, h2, h3, h4] ∧
        ((48 ≤ h1 ∧ h1 ≤ 57) ∨ (65 ≤ h1 ∧ h1 ≤ 70)) ∧
        ((48 ≤ h2 ∧ h2 ≤ 57) ∨ (65 ≤ h2 ∧ h2 ≤ 70)) ∧
        ((48 ≤ h3 ∧ h3 ≤ 57) ∨ (65 ≤ h3 ∧ h3 ≤ 70)) ∧
        ((48 ≤ h4 ∧ h4 ≤ 57) ∨ (65 ≤ h4 ∧ h4 ≤ 70))) := by
  suffices H : ∀ t, saveConvertChar es eu x a = t →
      ((t = [a] ∧ a ≠ 92 ∧ a ≠ 9 ∧ a ≠ 10 ∧ a ≠ 13 ∧ a ≠ 12 ∧ a ≠ 61 ∧
          a ≠ 58 ∧ a ≠ 35 ∧ a ≠ 33 ∧ (a = 32 → x ≠ 0 ∧ es = false))
      ∨ (∃ b, t = [92, b] ∧ b ≠ 10 ∧ b ≠ 13)
      ∨ (∃ h1 h2 h3 h4, t = [92, 117, h1, h2, h3, h4] ∧
          ((48 ≤ h1 ∧ h1 ≤ 57) ∨ (65 ≤ h1 ∧ h1 ≤ 70)) ∧
          ((48 ≤ h2 ∧ h2 ≤ 57) ∨ (65 ≤ h2 ∧ h2 ≤ 70)) ∧
          ((48 ≤ h3 ∧ h3 ≤ 57) ∨ (65 ≤ h3 ∧ h3 ≤ 70)) ∧
          ((48 ≤ h4 ∧ h4 ≤ 57) ∨ (65 ≤ h4 ∧ h4 ≤ 70)))) from H _ rfl
  intro t ht
  unfold saveConvertChar at ht
  split_ifs at ht with h1 h2 h3 h4 h5 h6 h7 h8 h9 h10
  · right; left; exact ⟨92, ht.symm, by decide, by decide⟩
  · left; refine ⟨ht.symm, ?_⟩; omega
  · right; left; exact ⟨32, ht.symm, by decide, by decide⟩
  · left
    refine ⟨by rw [← ht, h3], by omega, by omega, by omega, by omega, by omega, by omega,
      by omega, by omega, by omega, fun _ => ?_⟩
    constructor
    · intro hx; exact h4 (Or.inl hx)
    · cases es
      · rfl
      · exact absurd (Or.inr rfl) h4
  · right; left; exact ⟨116, ht.symm, by decide, by decide⟩
  · right; left; exact ⟨110, ht.symm, by decide, by decide⟩
  · right; left; exact ⟨114, ht.symm, by decide, by decide⟩
  · right; left; exact ⟨102, ht.symm, by decide, by decide⟩
  · right; left; exact ⟨a, ht.symm, by omega, by omega⟩
  · right; right
    exact ⟨_, _, _, _, ht.symm, toHex_range _, toHex_range _, toHex_range _, toHex_range _⟩
  · left
    refine ⟨ht.symm, by omega, by omega, by omega, by omega, by omega, by omega, by omega,
      by omega, by omega, fun h => ?_⟩
    exact absurd h h3

theorem noSep_append (xs ys : List Nat) :
    ∀ pb, noSep pb xs → noSep (bsFlag pb xs) ys → noSep pb (xs ++ ys) := by
  induction xs with
  | nil => intro pb _ h; simpa [bsFlag] using h
  | cons c xs ih =>
    intro pb h1 h2
    simp only [List.cons_append, noSep]
    refine ⟨h1.1, ih _ h1.2 ?_⟩
    simpa [bsFlag] using h2

/-- What one written token is to the reader: no line terminator in it, the backslash
parity is even after it, in a key no byte of it ends the key, and at the start of a
key or a value its first byte is nothing that the reader skips or takes for a
separator or a comment mark. -/
theorem saveConvertChar_props (es eu : Bool) (x a : Nat) :
    (∀ b ∈ saveConvertChar es eu x a, b ≠ 10 ∧ b ≠ 13) ∧
    bsFlag false (saveConvertChar es eu x a) = false ∧
    (es = true → noSep false (saveConvertChar es eu x a)) ∧
    ((x = 0 ∨ es = true) → ∃ c t, saveConvertChar es eu x a = c :: t ∧ c ≠ 32 ∧ c ≠ 9 ∧
      c ≠ 12 ∧ c ≠ 61 ∧ c ≠ 58 ∧ c ≠ 35 ∧ c ≠ 33 ∧ c ≠ 10 ∧ c ≠ 13) := by
  rcases saveConvertChar_shape es eu x a with ⟨h, ha⟩ | ⟨b, h, hb⟩ | ⟨h1, h2, h3, h4, h, r1, r2, r3, r4⟩
  · rw [h]
    refine ⟨?_, ?_, ?_, ?_⟩
    · intro b hb
      simp only [List.mem_singleton] at hb
      subst hb
      omega
    · simp [bsFlag, ha.1]
    · intro he
      refine ⟨?_, trivial⟩
      rintro ⟨hs, -⟩
      have h32 : a ≠ 32 := by
        intro h32
        have := (ha.2.2.2.2.2.2.2.2.2 h32).2
        rw [he] at this
        cases this
      omega
    · intro hx
      refine ⟨a, [], rfl, ?_⟩
      have h32 : a ≠ 32 := by
        intro h32
        have := ha.2.2.2.2.2.2.2.2.2 h32
        rcases hx with hx | hx
        · exact this.1 hx
        · rw [hx] at this
          cases this.2
      omega
  · rw [h]
    refine ⟨?_, ?_, ?_, ?_⟩
    · intro c hc
      simp only [List.mem_cons, List.mem_singleton, List.not_mem_nil, or_false] at hc
      rcases hc with rfl | rfl
      · omega
      · exact hb
    · by_cases h92 : b = 92 <;> simp [bsFlag, h92]
    · intro _
      simp [noSep]
    · intro _
      exact ⟨92, [b], rfl, by decide⟩
  · rw [h]
    refine ⟨?_, ?_, ?_, ?_⟩
    · intro c hc
      simp only [List.mem_cons, List.mem_singleton, List.not_mem_nil, or_false] at hc
      rcases hc with rfl | rfl | rfl | rfl | rfl | rfl <;> omega
    · have e4 : h4 ≠ 92 := by omega
      simp [bsFlag, e4]
    · intro _
      have e1 : h1 ≠ 92 := by omega
      have e2 : h2 ≠ 92 := by omega
      have e3 : h3 ≠ 92 := by omega
      simp only [noSep, e1, e2, e3, if_false, if_true, Bool.not_false, and_true]
      refine ⟨by omega, by simp, ?_, ?_, ?_, ?_⟩ <;> (intro hs; omega)
    · intro _
      exact ⟨92, _, rfl, by decide⟩

/-- What the bytes written for a string are to the reader. -/
theorem saveConvertLoop_props (es eu : Bool) :
    ∀ (s : List Nat) (x : Nat),
      (∀ b ∈ saveConvertLoop es eu x s, b ≠ 10 ∧ b ≠ 13) ∧
      bsFlag false (saveConvertLoop es eu x s) = false ∧
      (es = true → noSep false (saveConvertLoop es eu x s)) ∧
      ((x = 0 ∨ es = true) → s ≠ [] → ∃ c t, saveConvertLoop es eu x s = c :: t ∧ c ≠ 32 ∧
        c ≠ 9 ∧ c ≠ 12 ∧ c ≠ 61 ∧ c ≠ 58 ∧ c ≠ 35 ∧ c ≠ 33 ∧ c ≠ 10 ∧ c ≠ 13) := by
  intro s
  induction s with
  | nil =>
    intro x
    simp [saveConvertLoop, bsFlag, noSep]
  | cons a s ih =>
    intro x
    obtain ⟨t1, t2, t3, t4⟩ := saveConvertChar_props es eu x a
    obtain ⟨i1, i2, i3, -⟩ := ih (x + 1)
    simp only [saveConvertLoop]
    refine ⟨?_, ?_, ?_, ?_⟩
    · intro b hb
      rw [List.mem_append] at hb
      rcases hb with hb | hb
      · exact t1 b hb
      · exact i1 b hb
    · rw [bsFlag_append, t2, i2]
    · intro he
      exact noSep_append _ _ false (t3 he) (by rw [t2]; exact i3 he)
    · intro hx _
      obtain ⟨c, t, h, hc⟩ := t4 hx
      exact ⟨c, t ++ saveConvertLoop es eu (x + 1) s, by rw [h]; rfl, hc⟩

/-! ## A written entry line, read back -/

theorem valueSkip_saveConvert (v : List Nat) (eu : Bool) :
    ∀ hs, valueSkip hs (saveConvert v false eu) = 0 := by
  intro hs
  cases v with
  | nil => rfl
  | cons a v =>
    obtain ⟨-, -, -, h4⟩ := saveConvertLoop_props false eu (a :: v) 0
    obtain ⟨c, t, h, hc⟩ := h4 (Or.inl rfl) (by simp)
    unfold saveConvert
    rw [h]
    have h3 : c ≠ 32 ∧ c ≠ 9 ∧ c ≠ 12 := by omega
    have h4 : ¬ (c = 61 ∨ c = 58) := by omega
    simp [valueSkip, h3, h4]

theorem bsFlag_entry (kx sv : List Nat) (hsv : bsFlag false sv = false) :
    ∀ pb, bsFlag pb (kx ++ [32, 61, 32] ++ sv) = false := by
  intro pb
  have e : kx ++ [32, 61, 32] = (kx ++ [32, 61]) ++ [32] := by simp
  rw [bsFlag_append, e, bsFlag_snoc]
  simpa using hsv

/-- The line that `store0` writes for one entry, followed by a line terminator:
`load0` stores the entry and goes on with the rest of the input. -/
theorem load0Loop_saved_entry (fuel : Nat) (p : Props) (lr : LineReader) (hwf : lr.WF)
    (hbuf : 0 < lr.lineBuf.length) (skip k v rest : List Nat) (eu : Bool) (t : Nat)
    (hkb : ∀ b ∈ k, b < 256) (hvb : ∀ b ∈ v, b < 256)
    (hs : lr.stream
      = skip ++ (saveConvert k true eu ++ [32, 61, 32] ++ saveConvert v false eu) ++ t :: rest)
    (hskip : skipRun false skip = some false) (ht : t = 10 ∨ t = 13) :
    ∃ lr' : LineReader,
      load0Loop (fuel + 1) lr p = load0Loop fuel lr' (p.Put (.str k) (.str v)).2 ∧
      lr'.WF ∧ lr'.stream = rest ∧ 0 < lr'.lineBuf.length := by
  obtain ⟨k1, k2, k3, k4⟩ := saveConvertLoop_props true eu k 0
  obtain ⟨v1, v2, -, -⟩ := saveConvertLoop_props false eu v 0
  have hvs := valueSkip_saveConvert v eu
  have hval : ∀ (pre stale : List Nat),
      loadConvert (pre ++ saveConvert v false eu ++ stale) pre.length
        (saveConvert v false eu).length = .ok v :=
    fun pre stale => loadConvert_saveConvert_at pre stale v false eu hvb
  cases k with
  | nil =>
    have hsk : saveConvert [] true eu = [] := rfl
    rw [hsk] at hs
    refine load0Loop_entry fuel p lr hwf hbuf (skip ++ [32]) 61 (32 :: saveConvert v false eu)
      rest t [] [61, 32] (saveConvert v false eu) [] v (by rw [hs]; simp) ?_ (by decide) ?_ ht
      ?_ (by simp) trivial rfl ?_ ?_ ?_ ?_
    · rw [skipRun_append, hskip]
      rfl
    · intro b hb
      simp only [List.mem_cons] at hb
      rcases hb with rfl | hb
      · omega
      · exact v1 b hb
    · intro pb
      have := bsFlag_entry [] (saveConvert v false eu) v2 pb
      have e : (61 :: 32 :: saveConvert v false eu) = [61, 32] ++ saveConvert v false eu := rfl
      rw [e, bsFlag_append]
      have e2 : bsFlag pb [61, 32] = false := by simp [bsFlag]
      rw [e2]
      exact v2
    · simp [keySpan]
    · simp [sepLen, keySpan, valueSkip, hvs true]
    · intro stale
      simp [loadConvert, loadConvertLoop]
    · intro stale
      have := hval [61, 32] stale
      simpa using this
  | cons a k' =>
    obtain ⟨c, tl, hsk, hc⟩ := k4 (Or.inl rfl) (by simp)
    have hsk' : saveConvert (a :: k') true eu = c :: tl := hsk
    have hline : c :: (tl ++ [32, 61, 32] ++ saveConvert v false eu)
        = saveConvert (a :: k') true eu ++ [32, 61, 32] ++ saveConvert v false eu := by
      rw [hsk']; simp
    refine load0Loop_entry fuel p lr hwf hbuf skip c (tl ++ [32, 61, 32] ++ saveConvert v false eu)
      rest t (saveConvert (a :: k') true eu) [32, 61, 32] (saveConvert v false eu) (a :: k') v
      (by rw [hs, hsk']; simp) hskip (by unfold lineStart; omega) ?_ ht ?_ hline (k3 rfl) k2
      ?_ ?_ ?_ ?_
    · intro b hb
      have hb2 : b ∈ c :: (tl ++ [32, 61, 32] ++ saveConvert v false eu) := by
        simp only [List.mem_cons]; exact Or.inr hb
      rw [hline] at hb2
      simp only [List.mem_append, List.mem_cons, List.not_mem_nil, or_false] at hb2
      rcases hb2 with (hb2 | hb2 | hb2 | hb2) | hb2
      · exact k1 b hb2
      · omega
      · omega
      · omega
      · exact v1 b hb2
    · intro pb
      rw [hline]
      exact bsFlag_entry _ _ v2 pb
    · simp [keySpan]
    · simp [sepLen, keySpan, valueSkip, hvs true]
    · intro stale
      have := loadConvert_saveConvert_at [] ([32, 61, 32] ++ saveConvert v false eu ++ stale)
        (a :: k') true eu hkb
      simpa using this
    · intro stale
      have := hval (saveConvert (a :: k') true eu ++ [32, 61, 32]) stale
      have e3 : (saveConvert (a :: k') true eu ++ [32, 61, 32]).length
          = (saveConvert (a :: k') true eu).length + [32, 61, 32].length := by
        simp only [List.length_append]
      rw [e3] at this
      exact this

theorem newLine_cases (GOOS : String) : newLine GOOS = [10] ∨ newLine GOOS = [13, 10] := by
  unfold newLine
  split_ifs
  · exact Or.inr rfl
  · exact Or.inl rfl

/-- C25: a saved line splits back at the written separator. For every pair of byte
strings `k` and `v` (bytes below 256), either setting `e` of `escUnicode`, either
platform newline and however the reader cuts the input, `Load` of the single line
`saveConvert(k, true, e) + " = " + saveConvert(v, false, e) + newline` into an empty
table returns no error and stores exactly one pair, with key `k` and value `v`. -/
theorem saved_line_loads_back (k v : List Nat) (e : Bool) (GOOS : String) (chunks : Reader)
    (hkb : ∀ b ∈ k, b < 256) (hvb : ∀ b ∈ v, b < 256)
    (hch : ∀ ch ∈ chunks, ch ≠ [])
    (hin : chunks.flatten
      = saveConvert k true e ++ [32, 61, 32] ++ saveConvert v false e ++ newLine GOOS) :
    Load NewProperties chunks = (none, .mk ⟨[(.str k, .str v)]⟩ none) := by
  have hwf := NewLineReader_WF chunks hch
  have hbuf := NewLineReader_lineBuf chunks
  obtain ⟨t, rest, hnl, ht, hrest⟩ : ∃ t rest, newLine GOOS = t :: rest ∧ (t = 10 ∨ t = 13) ∧
      skipRun false rest = some false := by
    rcases newLine_cases GOOS with h | h
    · exact ⟨10, [], h, Or.inl rfl, rfl⟩
    · exact ⟨13, [10], h, Or.inr rfl, rfl⟩
  have hstream : (NewLineReader chunks).stream
      = [] ++ (saveConvert k true e ++ [32, 61, 32] ++ saveConvert v false e) ++ t :: rest := by
    rw [NewLineReader_stream, hin, hnl]; simp
  have hav : (NewLineReader chunks).avail + 1 = ((NewLineReader chunks).avail - 1) + 1 + 1 := by
    have := avail_eq _ hwf
    rw [hstream] at this
    simp only [List.length_append, List.length_cons] at this
    omega
  obtain ⟨l', hstep, hwf', hs', hbuf'⟩ :=
    load0Loop_saved_entry ((NewLineReader chunks).avail - 1 + 1) NewProperties
      (NewLineReader chunks) hwf hbuf [] k v rest e t hkb hvb hstream rfl ht
  unfold Load load0
  rw [hav, hstep, load0Loop_end _ _ l' hwf' hbuf' rest false hs' hrest]
  rfl

theorem saved_line_loads_back_witness :
    Load NewProperties [saveConvert (bytes " #k\\") true true ++ [32, 61, 32] ++
        saveConvert (bytes " v=\\") false true ++ newLine "windows"]
      = (none, .mk ⟨[(.str (bytes " #k\\"), .str (bytes " v=\\"))]⟩ none) :=
  saved_line_loads_back (bytes " #k\\") (bytes " v=\\") true "windows" _
    (by decide) (by decide) (by decide) (by decide)

/-- Examples of C25 by evaluation: an empty key and an empty value. -/
theorem saved_line_examples :
    Load NewProperties
        [saveConvert [] true true ++ [32, 61, 32] ++ saveConvert (bytes "v") false true ++ [10]]
      = (none, .mk ⟨[(.str [], .str (bytes "v"))]⟩ none) ∧
    Load NewProperties
        [saveConvert (bytes "k") true true ++ [32, 61, 32] ++ saveConvert [] false true ++ [10]]
      = (none, .mk ⟨[(.str (bytes "k"), .str [])]⟩ none) := by
  refine ⟨by decide!, by decide!⟩

/-! ## store0: the header is skipped by the reader -/

theorem skipRun_newline (nl : List Nat) (hnl : nl = [10] ∨ nl = [13, 10]) (s : Bool) (xs : List Nat) :
    skipRun s (nl ++ xs) = skipRun false xs := by
  rcases hnl with rfl | rfl <;> cases s <;> simp [skipRun]

theorem skipRun_hash (xs : List Nat) : skipRun false (35 :: xs) = skipRun true xs := by
  simp [skipRun]

/-- The comment block after its first `#` ends at the start of a line. -/
theorem skipRun_commentsTail (nl : List Nat) (hnl : nl = [10] ∨ nl = [13, 10]) :
    ∀ (n : Nat) (xs : List Nat), xs.length ≤ n →
      ∀ rest, skipRun true (commentsTail nl xs ++ rest) = skipRun false rest := by
  intro n
  induction n with
  | zero =>
    intro xs hx rest
    have : xs = [] := List.length_eq_zero.mp (by omega)
    subst this
    rw [commentsTail_nil, skipRun_newline nl hnl]
  | succ n ih =>
    have aux : ∀ r : List Nat, r.length ≤ n → ∀ rest,
        skipRun false (hashPrefix r ++ commentsTail nl r ++ rest) = skipRun false rest := by
      intro r hr rest
      cases r with
      | nil =>
        simp only [hashPrefix, commentsTail_nil, List.append_assoc, List.singleton_append,
          List.cons_append, List.nil_append]
        rw [skipRun_hash, skipRun_newline nl hnl]
      | cons c r' =>
        simp only [List.length_cons] at hr
        by_cases hc : c = 35 ∨ c = 33
        · have h10 : c ≠ 10 := by omega
          have h13 : c ≠ 13 := by omega
          have e : skipRun false (c :: (commentsTail nl r' ++ rest))
              = skipRun true (commentsTail nl r' ++ rest) := by
            have h5 : ¬ (c = 32 ∨ c = 9 ∨ c = 12 ∨ c = 10 ∨ c = 13) := by omega
            simp [skipRun, h5, hc]
          simp only [hashPrefix, hc, if_true, List.nil_append,
            commentsTail_other nl r' c h10 h13, List.cons_append]
          rw [e, ih r' (by omega)]
        · simp only [hashPrefix, hc, if_false, List.append_assoc, List.singleton_append,
            List.cons_append, List.nil_append]
          rw [skipRun_hash, ih (c :: r') (by simp only [List.length_cons]; omega)]
    intro xs hx rest
    cases xs with
    | nil => rw [commentsTail_nil, skipRun_newline nl hnl]
    | cons c xs' =>
      simp only [List.length_cons] at hx
      by_cases h10 : c = 10
      · subst h10
        rw [commentsTail_lf, List.append_assoc, List.append_assoc, skipRun_newline nl hnl,
          ← List.append_assoc, aux xs' (by omega)]
      by_cases h13 : c = 13
      · subst h13
        cases xs' with
        | nil =>
          rw [commentsTail_cr_nil]
          simp only [List.append_assoc, List.singleton_append, List.cons_append, List.nil_append]
          rw [skipRun_newline nl hnl, skipRun_hash, skipRun_newline nl hnl]
        | cons d r =>
          simp only [List.length_cons] at hx
          by_cases hd : d = 10
          · subst hd
            rw [commentsTail_cr_lf, List.append_assoc, List.append_assoc, skipRun_newline nl hnl,
              ← List.append_assoc, aux r (by omega)]
          · rw [commentsTail_cr _ _ _ hd, List.append_assoc, List.append_assoc,
              skipRun_newline nl hnl, ← List.append_assoc,
              aux (d :: r) (by simp only [List.length_cons]; omega)]
      · rw [commentsTail_other nl xs' c h10 h13]
        have e : skipRun true (c :: (commentsTail nl xs' ++ rest))
            = skipRun true (commentsTail nl xs' ++ rest) := by
          have : ¬ (c = 10 ∨ c = 13) := by omega
          simp [skipRun, this]
        rw [List.cons_append, e, ih xs' (by omega)]

/-- The header that `store0` writes, the comment block and the timestamp line, yields
no logical line and ends at the start of a line. -/
theorem skipRun_header (GOOS : String) (comments : Option (List Nat)) (now : List Nat)
    (hcomm : ∀ c ∈ comments, ∀ b ∈ c, b < 256) (hnow : ∀ b ∈ now, b ≠ 10 ∧ b ≠ 13) :
    skipRun false (writeComments GOOS comments ++ ([35, 32] ++ now) ++ newLine GOOS)
      = some false := by
  have hnl := newLine_cases GOOS
  have h2 : skipRun false (([35, 32] ++ now) ++ newLine GOOS) = some false := by
    have e : ([35, 32] ++ now) ++ newLine GOOS = 35 :: ((32 :: now) ++ newLine GOOS) := by simp
    rw [e, skipRun_hash, skipRun_append, skipRun_text (32 :: now) (by
      intro b hb
      simp only [List.mem_cons] at hb
      rcases hb with rfl | hb
      · omega
      · exact hnow b hb)]
    simp only [Option.some_bind]
    have := skipRun_newline (newLine GOOS) hnl true []
    simpa using this
  cases comments with
  | none =>
    simp only [writeComments, List.nil_append]
    exact h2
  | some c =>
    rw [writeComments_eq GOOS c (fun b hb => by
      have := hcomm c rfl b hb
      omega)]
    rw [List.append_assoc, List.cons_append, skipRun_hash,
      skipRun_commentsTail (newLine GOOS) hnl c.length c (le_refl _)]
    exact h2

/-! ## Store then Load -/

theorem mapGet_entries :
    ∀ (entries : List (List Nat × List Nat)), (entries.map Prod.fst).Nodup →
      ∀ k v, (k, v) ∈ entries →
        mapGet (entries.map (fun e => (Any.str e.1, Any.str e.2))) (.str k) = .str v := by
  intro entries
  induction entries with
  | nil => intro _ k v h; simp at h
  | cons e es ih =>
    intro hnd k v hmem
    simp only [List.map_cons, List.nodup_cons] at hnd
    simp only [List.map_cons, mapGet]
    by_cases hk : e.1 = k
    · have hv : e.2 = v := by
        rcases List.mem_cons.1 hmem with h | h
        · rw [← h]
        · exfalso
          apply hnd.1
          rw [hk]
          exact List.mem_map.2 ⟨(k, v), h, rfl⟩
      simp [hk, hv]
    · have hne : ¬ (Any.str e.1 = Any.str k) := by
        intro h; injection h with h; exact hk h
      rw [if_neg hne]
      rcases List.mem_cons.1 hmem with h | h
      · exfalso; apply hk; rw [← h]
      · exact ih hnd.2 k v h

/-- The loop of `store0` writes one line per entry. -/
theorem storeEntries_eq (p : Props) (eu : Bool) (nl : List Nat) :
    ∀ (es : List (List Nat × List Nat)) (out : List Nat),
      (∀ e ∈ es, p.Get (.str e.1) = .str e.2) →
      storeEntries p eu nl (es.map (fun e => Any.str e.1)) out
        = .ok (out ++ (es.map (fun e =>
            saveConvert e.1 true eu ++ [32, 61, 32] ++ saveConvert e.2 false eu ++ nl)).flatten) := by
  intro es
  induction es with
  | nil => intro out _; simp [storeEntries]
  | cons e es ih =>
    intro out h
    have he := h e (by simp)
    simp only [List.map_cons, storeEntries, he]
    rw [ih _ (fun e' he' => h e' (by simp [he']))]
    simp

/-- The lines that `store0` writes for the entries, read back one after the other. -/
theorem load0Loop_saved_entries (eu : Bool) (t : Nat) (nlrest : List Nat)
    (ht : t = 10 ∨ t = 13) (hnl : skipRun false nlrest = some false) :
    ∀ (es : List (List Nat × List Nat)) (fuel : Nat) (p : Props) (lr : LineReader)
      (skip tail : List Nat),
      lr.WF → 0 < lr.lineBuf.length →
      (∀ e ∈ es, (∀ b ∈ e.1, b < 256) ∧ ∀ b ∈ e.2, b < 256) →
      lr.stream = skip ++ (es.map (fun e =>
        saveConvert e.1 true eu ++ [32, 61, 32] ++ saveConvert e.2 false eu ++ t :: nlrest)).flatten
          ++ tail →
      skipRun false skip = some false →
      ∃ (lr' : LineReader) (skip' : List Nat),
        load0Loop (fuel + es.length) lr p
          = load0Loop fuel lr' (es.foldl (fun q e => (q.Put (.str e.1) (.str e.2)).2) p) ∧
        lr'.WF ∧ 0 < lr'.lineBuf.length ∧ lr'.stream = skip' ++ tail ∧
        skipRun false skip' = some false := by
  intro es
  induction es with
  | nil =>
    intro fuel p lr skip tail hwf hbuf _ hs hskip
    exact ⟨lr, skip, rfl, hwf, hbuf, by simpa using hs, hskip⟩
  | cons e es ih =>
    intro fuel p lr skip tail hwf hbuf hb hs hskip
    obtain ⟨hkb, hvb⟩ := hb e (by simp)
    obtain ⟨lr1, hstep, hwf1, hs1, hbuf1⟩ :=
      load0Loop_saved_entry (fuel + es.length) p lr hwf hbuf skip e.1 e.2
        (nlrest ++ (es.map (fun e =>
          saveConvert e.1 true eu ++ [32, 61, 32] ++ saveConvert e.2 false eu ++ t :: nlrest)).flatten
          ++ tail) eu t hkb hvb (by rw [hs]; simp) hskip ht
    obtain ⟨lr2, skip', hstep2, hwf2, hbuf2, hs2, hskip2⟩ :=
      ih fuel (p.Put (.str e.1) (.str e.2)).2 lr1 nlrest tail hwf1 hbuf1
        (fun e' he' => hb e' (by simp [he'])) hs1 hnl
    refine ⟨lr2, skip', ?_, hwf2, hbuf2, hs2, hskip2⟩
    have e1 : fuel + (e :: es).length = fuel + es.length + 1 := by
      simp only [List.length_cons]; omega
    rw [e1, hstep, hstep2]
    rfl

theorem mapSet_new (m : List (Any × Any)) (key value : Any) (h : key ∉ m.map Prod.fst) :
    mapSet m key value = m ++ [(key, value)] := by
  induction m with
  | nil => rfl
  | cons kv m ih =>
    obtain ⟨k, v⟩ := kv
    simp only [List.map_cons, List.mem_cons, not_or] at h
    have hne : ¬ k = key := fun h' => h.1 h'.symm
    simp only [mapSet, hne, if_false, List.cons_append]
    rw [ih h.2]

/-- Putting entries with distinct new keys one after the other appends them. -/
theorem foldl_Put_entries (d : Option Props) :
    ∀ (es : List (List Nat × List Nat)) (m : List (Any × Any)),
      (es.map Prod.fst).Nodup → (∀ e ∈ es, Any.str e.1 ∉ m.map Prod.fst) →
      es.foldl (fun (q : Props) (e : List Nat × List Nat) => (q.Put (.str e.1) (.str e.2)).2)
          (Props.mk ⟨m⟩ d)
        = Props.mk ⟨m ++ es.map (fun e => (Any.str e.1, Any.str e.2))⟩ d := by
  intro es
  induction es with
  | nil => intro m _ _; simp
  | cons e es ih =>
    intro m hnd hnew
    simp only [List.map_cons, List.nodup_cons] at hnd
    have hstep : ((Props.mk ⟨m⟩ d).Put (.str e.1) (.str e.2)).2
        = .mk ⟨m ++ [(Any.str e.1, Any.str e.2)]⟩ d := by
      simp only [Props.Put, Props.Hashtable, Props.defaults, hashtable.Put]
      rw [mapSet_new m _ _ (hnew e (by simp))]
    simp only [List.foldl_cons, hstep]
    rw [ih _ hnd.2 ?_]
    · simp
    · intro e' he'
      simp only [List.map_append, List.map_cons, List.map_nil, List.mem_append,
        List.mem_singleton, not_or]
      refine ⟨hnew e' (by simp [he']), ?_⟩
      intro h
      injection h with h
      apply hnd.1
      rw [← h]
      exact List.mem_map.2 ⟨e', he', rfl⟩

theorem entries_length_le (f : List Nat × List Nat → List Nat)
    (hf : ∀ e, 0 < (f e).length) :
    ∀ es : List (List Nat × List Nat), es.length ≤ (es.map f).flatten.length := by
  intro es
  induction es with
  | nil => simp
  | cons e es ih =>
    have := hf e
    simp only [List.map_cons, List.flatten_cons, List.length_append, List.length_cons]
    omega

/-! ## Claim: Store then Load is a round trip -/

/-- C1: Store then Load is a round trip. For every table whose keys and values are
all strings (distinct keys, bytes below 256, with or without defaults), every comment
block or none, every timestamp text (it holds no line terminator) and every platform:
`Store` returns the bytes it wrote, and `Load` of these bytes into an empty table,
however the reader cuts them, returns no error and yields a table that holds exactly
the key/value pairs of the original table. -/
theorem store_load_round_trip (entries : List (List Nat × List Nat)) (defaults : Option Props)
    (comments : Option (List Nat)) (now : List Nat) (GOOS : String)
    (hkeys : (entries.map Prod.fst).Nodup)
    (hbytes : ∀ e ∈ entries, (∀ b ∈ e.1, b < 256) ∧ ∀ b ∈ e.2, b < 256)
    (hcomm : ∀ c ∈ comments, ∀ b ∈ c, b < 256)
    (hnow : ∀ b ∈ now, b ≠ 10 ∧ b ≠ 13) :
    ∃ out : List Nat,
      Store (Props.mk ⟨entries.map (fun e => (Any.str e.1, Any.str e.2))⟩ defaults)
        comments now GOOS = .ok out ∧
      ∀ chunks : Reader, (∀ ch ∈ chunks, ch ≠ []) → chunks.flatten = out →
        Load NewProperties chunks
          = (none, Props.mk ⟨entries.map (fun e => (Any.str e.1, Any.str e.2))⟩ none) ∧
        (Load NewProperties chunks).2.pairs
          = (Props.mk ⟨entries.map (fun e => (Any.str e.1, Any.str e.2))⟩ defaults).pairs := by
  obtain ⟨t, nlrest, hnl, ht, hrest⟩ : ∃ t rest, newLine GOOS = t :: rest ∧ (t = 10 ∨ t = 13) ∧
      skipRun false rest = some false := by
    rcases newLine_cases GOOS with h | h
    · exact ⟨10, [], h, Or.inl rfl, rfl⟩
    · exact ⟨13, [10], h, Or.inr rfl, rfl⟩
  have hget : ∀ e ∈ entries,
      (Props.mk ⟨entries.map (fun e => (Any.str e.1, Any.str e.2))⟩ defaults).Get (.str e.1)
        = .str e.2 := by
    intro e he
    exact mapGet_entries entries hkeys e.1 e.2 he
  have hkeysEq : (Props.mk ⟨entries.map (fun e => (Any.str e.1, Any.str e.2))⟩ defaults).Keys
      = entries.map (fun e => Any.str e.1) := by
    simp [Props.Keys, Props.Hashtable, hashtable.Keys, List.map_map, Function.comp_def]
  have hstore := storeEntries_eq
    (Props.mk ⟨entries.map (fun e => (Any.str e.1, Any.str e.2))⟩ defaults) true (newLine GOOS)
    entries (writeComments GOOS comments ++ ([35, 32] ++ now) ++ newLine GOOS) hget
  refine ⟨writeComments GOOS comments ++ ([35, 32] ++ now) ++ newLine GOOS ++
    (entries.map (fun e => saveConvert e.1 true true ++ [32, 61, 32] ++
      saveConvert e.2 false true ++ newLine GOOS)).flatten, ?_, ?_⟩
  · unfold Store store0
    simp only []
    rw [hkeysEq]
    exact hstore
  · intro chunks hch hin
    have hwf := NewLineReader_WF chunks hch
    have hbuf := NewLineReader_lineBuf chunks
    have hstream : (NewLineReader chunks).stream
        = (writeComments GOOS comments ++ ([35, 32] ++ now) ++ newLine GOOS) ++
          (entries.map (fun e => saveConvert e.1 true true ++ [32, 61, 32] ++
            saveConvert e.2 false true ++ t :: nlrest)).flatten ++ [] := by
      rw [NewLineReader_stream, hin, ← hnl]
      simp
    have hlen := entries_length_le
      (fun e => saveConvert e.1 true true ++ [32, 61, 32] ++ saveConvert e.2 false true ++ t :: nlrest)
      (fun e => by simp) entries
    have hav : (NewLineReader chunks).avail + 1
        = ((NewLineReader chunks).avail - entries.length + 1) + entries.length := by
      have := avail_eq _ hwf
      rw [hstream] at this
      simp only [List.length_append, List.length_nil] at this
      omega
    obtain ⟨lr', skip', hstep, hwf', hbuf', hs', hskip'⟩ :=
      load0Loop_saved_entries true t nlrest ht hrest entries
        ((NewLineReader chunks).avail - entries.length + 1) NewProperties (NewLineReader chunks)
        (writeComments GOOS comments ++ ([35, 32] ++ now) ++ newLine GOOS) [] hwf hbuf hbytes
        hstream (skipRun_header GOOS comments now hcomm hnow)
    have hload : Load NewProperties chunks
        = (none, Props.mk ⟨entries.map (fun e => (Any.str e.1, Any.str e.2))⟩ none) := by
      unfold Load load0
      rw [hav, hstep, load0Loop_end _ _ lr' hwf' hbuf' skip' false (by simpa using hs') hskip']
      have := foldl_Put_entries none entries [] hkeys (fun e _ => by simp)
      simp only [List.nil_append] at this
      show (none, List.foldl _ (Props.mk ⟨[]⟩ none) entries) = _
      rw [this]
    refine ⟨hload, ?_⟩
    rw [hload]
    rfl

theorem store_load_round_trip_witness :
    ∃ out : List Nat,
      Store (Props.mk ⟨[(bytes "k", bytes " v=\\"), (bytes " #a b", bytes ""),
          ([], bytes "x\ny")].map (fun e => (Any.str e.1, Any.str e.2))⟩ none)
        (some (bytes "c\n#d\r\ne")) (bytes "Thu Nov  5 12:00:00 UTC 2026") "windows" = .ok out ∧
      ∀ chunks : Reader, (∀ ch ∈ chunks, ch ≠ []) → chunks.flatten = out →
        Load NewProperties chunks
          = (none, Props.mk ⟨[(bytes "k", bytes " v=\\"), (bytes " #a b", bytes ""),
              ([], bytes "x\ny")].map (fun e => (Any.str e.1, Any.str e.2))⟩ none) ∧
        (Load NewProperties chunks).2.pairs
          = (Props.mk ⟨[(bytes "k", bytes " v=\\"), (bytes " #a b", bytes ""),
              ([], bytes "x\ny")].map (fun e => (Any.str e.1, Any.str e.2))⟩ none).pairs :=
  store_load_round_trip [(bytes "k", bytes " v=\\"), (bytes " #a b", bytes ""), ([], bytes "x\ny")]
    none (some (bytes "c\n#d\r\ne")) (bytes "Thu Nov  5 12:00:00 UTC 2026") "windows"
    (by decide) (by decide) (by decide) (by decide)

/-- An example of C1 by evaluation: what `Store` writes for a table of two entries,
and `Load` of it. -/
theorem store_load_example :
    Store (Props.mk ⟨[(.str (bytes "k 1"), .str (bytes "v 1")), (.str (bytes "#"), .str (bytes " "))]⟩ none)
        (some (bytes "c")) (bytes "now") "linux"
      = .ok (bytes "#c\n# now\nk\\ 1 = v 1\n\\# = \\ \n") ∧
    Load NewProperties [bytes "#c\n# now\nk\\ 1 = v 1\n\\# = \\ \n"]
      = (none, Props.mk ⟨[(.str (bytes "k 1"), .str (bytes "v 1")), (.str (bytes "#"), .str (bytes " "))]⟩ none) := by
  refine ⟨by decide!, by decide!⟩

/-! ## Claim: truncated input after a comment line -/

/-- C11: the dangling backslash is kept after a comment line. The input ends, with no
line terminator, in a line of three backslashes. After the comment line `#\` the call
`readLine` returns all three backslashes and `Load`, without an error, stores the key
of a backslash and the byte 0 that follows the line in the line buffer; without the
comment line `readLine` returns two backslashes, the dangling one removed, and `Load`
stores the key of one backslash. The flag `precedingBackslash` is still set when the
comment line ends. -/
theorem dangling_backslash_kept_after_comment :
    readLines [bytes "#\\\n\\\\\\"] = .ok [bytes "\\\\\\"] ∧
    readLines [bytes "\\\\\\"] = .ok [bytes "\\\\"] ∧
    Load NewProperties [bytes "#\\\n\\\\\\"] = (none, .mk ⟨[(.str [92, 0], .str [])]⟩ none) ∧
    Load NewProperties [bytes "\\\\\\"] = (none, .mk ⟨[(.str [92], .str [])]⟩ none) := by
  refine ⟨?_, ?_, ?_, ?_⟩ <;> decide!

end Properties
